import Mathlib

/-!
Verification of the preprocessing engine of a configuration-driven tabular
preprocessing pipeline (`src/preprocessors/`): the per-type transforms
(`TextPreprocessor`, `NumericPreprocessor`, `CategoricalPreprocessor`), the
shared `BasePreprocessor.validate_input` contract, and the
`PreprocessorFactory` orchestrator.

Tables are modelled as ordered lists of named columns of cells; pandas
missing values (`NaN`) are the `Cell.missing` constructor; numeric values are
rationals.  Exceptions (`ValueError`, `KeyError`, sklearn errors) are the
`Except String` monad.  External collaborators (NLTK tokenisation, stopword
list, stemming; the square root used by `StandardScaler`) are parameters of
the corresponding definitions.
-/

namespace MLPipe

/-- Decidable equality of run results. -/
instance {ε α : Type} [DecidableEq ε] [DecidableEq α] : DecidableEq (Except ε α) :=
  fun x y =>
    match x, y with
    | .ok a, .ok b =>
      if h : a = b then .isTrue (by rw [h]) else .isFalse (fun hh => h (Except.ok.inj hh))
    | .error e, .error f =>
      if h : e = f then .isTrue (by rw [h]) else .isFalse (fun hh => h (Except.error.inj hh))
    | .ok _, .error _ => .isFalse Except.noConfusion
    | .error _, .ok _ => .isFalse Except.noConfusion

/-- A table cell: pandas `NaN`, a string value, or a numeric value. -/
inductive Cell where
  | missing : Cell
  | str : String → Cell
  | num : ℚ → Cell
deriving DecidableEq, Repr

/-- A pandas DataFrame: an ordered list of named columns of cells. -/
structure Table where
  cols : List (String × List Cell)
deriving DecidableEq, Repr

/-- Column names of a table, in order (`data.columns`). -/
def Table.names (t : Table) : List String :=
  t.cols.map Prod.fst

/-- `col in data.columns`. -/
def Table.hasCol (t : Table) (c : String) : Bool :=
  t.cols.any (fun p => p.1 == c)

/-- `data[col]` for a single column; absent columns give `[]` (all call sites
are guarded by validation that ensures presence). -/
def Table.getCol (t : Table) (c : String) : List Cell :=
  match t.cols.find? (fun p => p.1 == c) with
  | some p => p.2
  | none => []

/-- `df[col] = cells`: replace the named column in place (every occurrence);
a no-op when the column is absent. -/
def Table.setCol (t : Table) (c : String) (cells : List Cell) : Table :=
  ⟨t.cols.map (fun p => if p.1 == c then (p.1, cells) else p)⟩

/-- `df.drop(columns=[col])`. -/
def Table.dropCol (t : Table) (c : String) : Table :=
  ⟨t.cols.filter (fun p => !(p.1 == c))⟩

/-- `pd.concat([t, u], axis=1)` for two positionally aligned tables. -/
def Table.append (t u : Table) : Table :=
  ⟨t.cols ++ u.cols⟩

/-- `data[columns]` column selection; a missing column raises `KeyError`. -/
def Table.select (t : Table) (cs : List String) : Except String Table := do
  let cols ← cs.mapM (fun c =>
    if t.hasCol c then Except.ok (c, t.getCol c)
    else Except.error ("KeyError: " ++ c))
  pure ⟨cols⟩

/-- `pd.concat(dfs, axis=1)` over positionally aligned tables. -/
def concatTables (ts : List Table) : Table :=
  ⟨(ts.map Table.cols).flatten⟩

/-- Every column of the table has exactly `n` cells (the table has `n` rows). -/
def Table.allRows (t : Table) (n : Nat) : Prop :=
  ∀ p ∈ t.cols, (p.2 : List Cell).length = n

instance (t : Table) (n : Nat) : Decidable (t.allRows n) :=
  inferInstanceAs (Decidable (∀ p ∈ t.cols, (p.2 : List Cell).length = n))

/-! ## Configuration (`config.yaml`, pre-validated structured input) -/

/-- One entry of `dataset.input_columns`. -/
structure ColumnSpec where
  name : String
  type : String
deriving DecidableEq, Repr

/-- `preprocessing.text` block. -/
structure TextConfig where
  lowercase : Bool
  remove_punctuation : Bool
  remove_stopwords : Bool
  stemming : Bool
deriving DecidableEq, Repr

/-- `preprocessing.numeric` block. -/
structure NumericConfig where
  handle_missing : String
  scaling : String
deriving DecidableEq, Repr

/-- `preprocessing.categorical` block. -/
structure CategoricalConfig where
  handle_missing : String
  encoding : String
deriving DecidableEq, Repr

/-- The full configuration seen by the preprocessors. -/
structure Config where
  input_columns : List ColumnSpec
  text : TextConfig
  numeric : NumericConfig
  categorical : CategoricalConfig
deriving DecidableEq, Repr

/-- Declared column names, in declaration order. -/
def expectedColumns (cfg : Config) : List String :=
  cfg.input_columns.map (·.name)

/-- Declared column names of one semantic type (`_get_columns_by_type`). -/
def columnsByType (cfg : Config) (t : String) : List String :=
  (cfg.input_columns.filter (fun c => c.type == t)).map (·.name)

/-- `BasePreprocessor.validate_input`: true iff every declared column name
(of every declared type) is present in the table. -/
def validate_input (cfg : Config) (data : Table) : Bool :=
  ((expectedColumns cfg).filter (fun c => !(data.hasCol c))).isEmpty

/-! ## Column statistics (pandas `mean` / `median` / `mode`, skipping `NaN`) -/

/-- Numeric values of a column, `NaN` (and non-numeric cells) skipped. -/
def cellNums (cs : List Cell) : List ℚ :=
  cs.filterMap (fun c => match c with | .num q => some q | _ => none)

/-- String values of a column, `NaN` (and non-string cells) skipped. -/
def cellStrs (cs : List Cell) : List String :=
  cs.filterMap (fun c => match c with | .str s => some s | _ => none)

/-- Insert into a list sorted by `le`. -/
def sortedInsert (le : α → α → Bool) (x : α) : List α → List α
  | [] => [x]
  | y :: ys => if le x y then x :: y :: ys else y :: sortedInsert le x ys

/-- Insertion sort by `le`. -/
def listSort (le : α → α → Bool) : List α → List α
  | [] => []
  | x :: xs => sortedInsert le x (listSort le xs)

/-- Sort rationals ascending. -/
def qSort (xs : List ℚ) : List ℚ :=
  listSort (fun a b => decide (a ≤ b)) xs

/-- Lexicographic comparison of character sequences (by code point, the
order Python string comparison uses). -/
def strLtB : List Char → List Char → Bool
  | [], [] => false
  | [], _ :: _ => true
  | _ :: _, [] => false
  | a :: as, b :: bs =>
    if a.val < b.val then true
    else if b.val < a.val then false
    else strLtB as bs

/-- Lexicographic order on strings. -/
def strLt (a b : String) : Bool :=
  strLtB a.data b.data

/-- Sort strings ascending (lexicographic, as numpy sorts object arrays). -/
def strSort (xs : List String) : List String :=
  listSort (fun a b => !(strLt b a)) xs

/-- `series.mean()`: arithmetic mean of the non-missing values, `NaN` (none)
on an empty column. -/
def meanQ (xs : List ℚ) : Option ℚ :=
  if xs.isEmpty then none else some (xs.sum / (xs.length : ℚ))

/-- Population variance (`ddof = 0`, as sklearn scalers use). -/
def varQ (xs : List ℚ) : Option ℚ :=
  match meanQ xs with
  | none => none
  | some m => meanQ (xs.map (fun x => (x - m) ^ 2))

/-- Linear-interpolation percentile `q ∈ [0,1]` of a list (numpy default):
position `q * (n-1)` into the sorted values, interpolating between the two
neighbouring order statistics. -/
def percentileQ (xs : List ℚ) (q : ℚ) : Option ℚ :=
  let s := qSort xs
  match s with
  | [] => none
  | _ =>
    let pos : ℚ := q * ((s.length : ℚ) - 1)
    let i : ℕ := pos.floor.toNat
    let frac : ℚ := pos - (i : ℚ)
    let lo := s.getD i 0
    let hi := s.getD (min (i + 1) (s.length - 1)) 0
    some (lo + frac * (hi - lo))

/-- `series.median()`: the 50th percentile with linear interpolation. -/
def medianQ (xs : List ℚ) : Option ℚ :=
  percentileQ xs (1 / 2)

/-- Count of occurrences of `x`. -/
def countOcc [DecidableEq α] (xs : List α) (x : α) : Nat :=
  (xs.filter (fun y => y == x)).length

/-- `series.mode()[0]` over rationals: the most frequent value; pandas sorts
the modes, so ties resolve to the smallest value.  `none` on an empty column
(`mode()[0]` raises `IndexError`). -/
def modeQ (xs : List ℚ) : Option ℚ :=
  match qSort xs.dedup with
  | [] => none
  | c :: cs => some (cs.foldl (fun best x =>
      if countOcc xs x > countOcc xs best then x else best) c)

/-- `series.mode()[0]` over strings: most frequent value, ties resolving to
the lexicographically smallest (pandas sorts the modes). -/
def modeStr (xs : List String) : Option String :=
  match strSort xs.dedup with
  | [] => none
  | c :: cs => some (cs.foldl (fun best x =>
      if countOcc xs x > countOcc xs best then x else best) c)

/-- `series.fillna(v)` (for `v = none`, i.e. filling with `NaN`, a no-op). -/
def fillCol (cs : List Cell) (v : Option Cell) : List Cell :=
  match v with
  | none => cs
  | some w => cs.map (fun c => if c = Cell.missing then w else c)

/-! ## Association maps for per-column fitted state (`self.scalers`,
`self.encoders`, `self.encoding_maps` dictionaries) -/

/-- Dictionary lookup. -/
def lookupA (m : List (String × β)) (k : String) : Option β :=
  (m.find? (fun p => p.1 == k)).map (·.2)

/-- Dictionary assignment `d[k] = v`: replaces an existing binding, appends a
new one otherwise (python dict semantics). -/
def insertA (m : List (String × β)) (k : String) (v : β) : List (String × β) :=
  if (m.find? (fun p => p.1 == k)).isSome then
    m.map (fun p => if p.1 == k then (k, v) else p)
  else m ++ [(k, v)]

/-! ## NumericPreprocessor -/

/-- The scaler class selected at construction by `_setup_scalers`. -/
inductive ScalerClass where
  | standard | minmax | robust
deriving DecidableEq, Repr

/-- `NumericPreprocessor._setup_scalers`: resolve `preprocessing.numeric.scaling`
or raise `ValueError` for an unknown method. -/
def setup_scalers (cfg : Config) : Except String ScalerClass :=
  let m := cfg.numeric.scaling
  if m == "standard" then .ok .standard
  else if m == "minmax" then .ok .minmax
  else if m == "robust" then .ok .robust
  else .error ("Unknown scaling method: " ++ m)

/-- Fitted per-column scaler statistics: `(mean, variance)` for
`StandardScaler`, `(data_min, data_max)` for `MinMaxScaler`,
`(median, IQR)` for `RobustScaler`.  Empty columns keep sklearn irrelevant
here; statistics default to `0`. -/
structure ScalerParams where
  a : ℚ
  b : ℚ
deriving DecidableEq, Repr

/-- `scaler.fit(column)` for the configured scaler class. -/
def fitScaler (sc : ScalerClass) (xs : List ℚ) : ScalerParams :=
  match sc with
  | .standard => ⟨(meanQ xs).getD 0, (varQ xs).getD 0⟩
  | .minmax =>
    match xs with
    | [] => ⟨0, 0⟩
    | h :: t => ⟨t.foldl min h, t.foldl max h⟩
  | .robust => ⟨(medianQ xs).getD 0,
      (percentileQ xs (3 / 4)).getD 0 - (percentileQ xs (1 / 4)).getD 0⟩

/-- sklearn `_handle_zeros_in_scale`: a zero scale divides by `1`. -/
def zeroOne (s : ℚ) : ℚ :=
  if s = 0 then 1 else s

/-- `scaler.transform` on one value.  `sqrtQ` stands for the square root
used by `StandardScaler` (float arithmetic in the source). -/
def scaleVal (sqrtQ : ℚ → ℚ) (sc : ScalerClass) (p : ScalerParams) (x : ℚ) : ℚ :=
  match sc with
  | .standard => (x - p.a) / zeroOne (sqrtQ p.b)
  | .minmax => (x - p.a) / zeroOne (p.b - p.a)
  | .robust => (x - p.a) / zeroOne p.b

/-- `scaler.transform` on one cell (non-numeric cells pass through). -/
def scaleCell (sqrtQ : ℚ → ℚ) (sc : ScalerClass) (p : ScalerParams) (c : Cell) : Cell :=
  match c with
  | .num x => .num (scaleVal sqrtQ sc p x)
  | c => c

/-- The fill value used by `NumericPreprocessor._handle_missing_values` for
one column: the mean/median/mode of the column it is given; an unknown
method raises `ValueError`, `mode()[0]` of an empty column raises
`IndexError`. -/
def numericFillValue (method : String) (cs : List Cell) : Except String (Option Cell) :=
  if method == "mean" then .ok ((meanQ (cellNums cs)).map .num)
  else if method == "median" then .ok ((medianQ (cellNums cs)).map .num)
  else if method == "mode" then
    match modeQ (cellNums cs) with
    | some q => .ok (some (.num q))
    | none => .error "IndexError: mode of empty column"
  else .error ("Unknown missing value handling method: " ++ method)

/-- The common shape of both `_handle_missing_values` methods: walk the
listed columns, compute a fill value from the current frame's column and
fill that column in place. -/
def fillFold (F : List Cell → Except String β) (G : List Cell → β → List Cell)
    (columns : List String) (data : Table) : Except String Table :=
  columns.foldlM (fun df col => do
    let v ← F (df.getCol col)
    pure (df.setCol col (G (df.getCol col) v))) data

/-- `NumericPreprocessor._handle_missing_values`: copy the frame, then fill
each listed column with a statistic computed from that same frame's column. -/
def numeric_handle_missing (method : String) (data : Table) (columns : List String) :
    Except String Table :=
  fillFold (numericFillValue method) fillCol columns data

/-- Declared numeric columns. -/
def numericColumns (cfg : Config) : List String :=
  columnsByType cfg "numeric"

/-- Mutable state of a `NumericPreprocessor` instance. -/
structure NumericState where
  scalerClass : ScalerClass
  scalers : List (String × ScalerParams)
deriving DecidableEq, Repr

/-- `NumericPreprocessor.__init__`: `_setup_scalers` runs at construction
(and may raise); `self.scalers` starts empty.  `handle_missing` is not
inspected here. -/
def numericInit (cfg : Config) : Except String NumericState :=
  (setup_scalers cfg).map (fun sc => ⟨sc, []⟩)

/-- `NumericPreprocessor.fit`: validate, fill missing values (statistics of
the fit table), then fit one scaler per declared numeric column. -/
def numericFit (cfg : Config) (st : NumericState) (data : Table) :
    Except String NumericState := do
  if !(validate_input cfg data) then throw "Invalid input data" else
  let cols := numericColumns cfg
  let filled ← numeric_handle_missing cfg.numeric.handle_missing data cols
  pure { st with scalers := cols.foldl (fun m col =>
    insertA m col (fitScaler st.scalerClass (cellNums (filled.getCol col)))) st.scalers }

/-- A per-column loop that rewrites each listed column in place with a
column function, skipping columns for which no function is available. -/
def colApplyFold (o : String → Option (List Cell → List Cell)) (cols : List String)
    (df : Table) : Table :=
  cols.foldl (fun df col =>
    match o col with
    | some f => df.setCol col (f (df.getCol col))
    | none => df) df

/-- The scaling loop of `NumericPreprocessor.transform`: each column with a
fitted scaler is scaled in place; a column without one is skipped with a
warning. -/
def numericScaleFold (sqrtQ : ℚ → ℚ) (st : NumericState) (cols : List String)
    (df : Table) : Table :=
  colApplyFold (fun col =>
    match lookupA st.scalers col with
    | some p => some (fun cs => cs.map (scaleCell sqrtQ st.scalerClass p))
    | none => none) cols df

/-- `NumericPreprocessor.transform`: validate, copy, fill missing values
(statistics recomputed from the given table), then scale each column that
has a fitted scaler; columns without one are left filled but unscaled
(a warning is logged). -/
def numericTransform (sqrtQ : ℚ → ℚ) (cfg : Config) (st : NumericState) (data : Table) :
    Except String Table := do
  if !(validate_input cfg data) then throw "Invalid input data" else
  let cols := numericColumns cfg
  let df ← numeric_handle_missing cfg.numeric.handle_missing data cols
  pure (numericScaleFold sqrtQ st cols df)

/-! ## TextPreprocessor -/

/-- `string.punctuation`. -/
def punctuation : String :=
  "!\"#$%&'()*+,-./:;<=>?@[\\]^_`{|}~"

/-- External NLTK collaborators of `TextPreprocessor`: `nltk.word_tokenize`,
`stopwords.words('english')` and `PorterStemmer().stem`. -/
structure TextEnv where
  tokenize : String → List String
  stop_words : List String
  stem : String → String

/-- `text.lower()`: lower-case each character. -/
def lowerStr (s : String) : String :=
  String.mk (s.data.map Char.toLower)

/-- `text.translate(str.maketrans("", "", string.punctuation))`. -/
def stripPunct (s : String) : String :=
  String.mk (s.toList.filter (fun ch => !(punctuation.toList.contains ch)))

/-- `" ".join(tokens)`. -/
def joinSpace (ts : List String) : String :=
  String.intercalate " " ts

/-- The lowercase step, gated by its flag. -/
def lowerStep (tc : TextConfig) (s : String) : String :=
  if tc.lowercase then lowerStr s else s

/-- The punctuation-stripping step, gated by its flag. -/
def punctStep (tc : TextConfig) (s : String) : String :=
  if tc.remove_punctuation then stripPunct s else s

/-- The stopword-removal step, gated by its flag. -/
def stopStep (env : TextEnv) (tc : TextConfig) (toks : List String) : List String :=
  if tc.remove_stopwords then toks.filter (fun w => !(env.stop_words.contains w))
  else toks

/-- The stemming step, gated by its flag. -/
def stemStep (env : TextEnv) (tc : TextConfig) (toks : List String) : List String :=
  if tc.stemming then toks.map env.stem else toks

/-- `TextPreprocessor._preprocess_text`: a total per-cell function.
Non-string cells give `""`; strings go through lowercase, punctuation
stripping, tokenisation, stopword removal and stemming, each step gated by
its configuration flag, then are rejoined with single spaces. -/
def preprocess_text (env : TextEnv) (tc : TextConfig) (cell : Cell) : String :=
  match cell with
  | .str s =>
    let t1 := if tc.lowercase then lowerStr s else s
    let t2 := if tc.remove_punctuation then stripPunct t1 else t1
    let toks := env.tokenize t2
    let toks2 := if tc.remove_stopwords then
        toks.filter (fun w => !(env.stop_words.contains w)) else toks
    let toks3 := if tc.stemming then toks2.map env.stem else toks2
    joinSpace toks3
  | _ => ""

/-- Declared text columns. -/
def textColumns (cfg : Config) : List String :=
  columnsByType cfg "text"

/-- `TextPreprocessor.fit`: validation only, no learned state. -/
def textFit (cfg : Config) (data : Table) : Except String Unit :=
  if !(validate_input cfg data) then throw "Invalid input data" else pure ()

/-- The per-column loop of `TextPreprocessor.transform`: apply
`_preprocess_text` cell-wise to each listed column in place. -/
def textApplyFold (env : TextEnv) (tc : TextConfig) (cols : List String)
    (df : Table) : Table :=
  colApplyFold (fun _ =>
    some (fun cs => cs.map (fun c => .str (preprocess_text env tc c)))) cols df

/-- `TextPreprocessor.transform`: validate, copy, then apply
`_preprocess_text` cell-wise to every declared text column. -/
def textTransform (env : TextEnv) (cfg : Config) (data : Table) :
    Except String Table :=
  if !(validate_input cfg data) then throw "Invalid input data" else
  pure (textApplyFold env cfg.text (textColumns cfg) data)

/-! ## CategoricalPreprocessor -/

/-- A fitted sklearn encoder: `LabelEncoder` with its sorted `classes_`, or
`OneHotEncoder(sparse=False, handle_unknown='ignore')` with its sorted
`categories_`. -/
inductive Encoder where
  | label (classes : List String)
  | onehot (categories : List String)
deriving DecidableEq, Repr

/-- An entry of `self.encoding_maps`: the class→code dictionary for label
encoding, or the `feature_names` list for one-hot. -/
inductive EncMap where
  | labelMap (m : List (String × ℕ))
  | featureNames (names : List String)
deriving DecidableEq, Repr

/-- Declared categorical columns. -/
def catColumns (cfg : Config) : List String :=
  columnsByType cfg "categorical"

/-- The fill value `CategoricalPreprocessor._handle_missing_values` uses for
one column: the column's own mode for method `'mode'` (raising `IndexError`
when the column has no values); any other method silently gives the sentinel
`'MISSING'`. -/
def catFillValue (method : String) (cs : List Cell) : Except String Cell :=
  if method == "mode" then
    match modeStr (cellStrs cs) with
    | some m => .ok (.str m)
    | none => .error "IndexError: mode of empty column"
  else .ok (.str "MISSING")

/-- `CategoricalPreprocessor._handle_missing_values`: copy the frame, then
fill each listed column per `catFillValue`. -/
def cat_handle_missing (method : String) (data : Table) (columns : List String) :
    Except String Table :=
  fillFold (catFillValue method) (fun cs v => fillCol cs (some v)) columns data

/-- The encoder kind `_setup_encoder` resolves from
`preprocessing.categorical.encoding`, raising `ValueError` on an unknown
method.  It is called from `fit`, once per column. -/
inductive EncoderKind where
  | label | onehot
deriving DecidableEq, Repr

/-- `CategoricalPreprocessor._setup_encoder` (the branch on the configured
encoding method; raises on an unknown method). -/
def setup_encoder (method : String) : Except String EncoderKind :=
  if method == "label" then .ok .label
  else if method == "onehot" then .ok .onehot
  else .error ("Unknown encoding method: " ++ method)

/-- Sorted distinct values, as `LabelEncoder.classes_` /
`OneHotEncoder.categories_` (numpy `unique`). -/
def sortedUnique (xs : List String) : List String :=
  strSort xs.dedup

/-- Mutable state of a `CategoricalPreprocessor` instance. -/
structure CatState where
  encoders : List (String × Encoder)
  encoding_maps : List (String × EncMap)
deriving DecidableEq, Repr

/-- `CategoricalPreprocessor.__init__`: both dictionaries start empty; the
constructor inspects no enum value. -/
def catInit : CatState :=
  ⟨[], []⟩

/-- `get_feature_names_out([col])`: one generated name per learned category. -/
def featureNamesOf (col : String) (cats : List String) : List String :=
  cats.map (fun c => col ++ "_" ++ c)

/-- The per-column body of `CategoricalPreprocessor.fit`: set up the
configured encoder (raising on an unknown encoding method), fit it on the
filled column and record its encoding map. -/
def catFitStep (cfg : Config) (filled : Table) (st : CatState) (col : String) :
    Except String CatState := do
  let kind ← setup_encoder cfg.categorical.encoding
  match kind with
  | .label =>
    let classes := sortedUnique (cellStrs (filled.getCol col))
    pure { encoders := insertA st.encoders col (.label classes),
           encoding_maps := insertA st.encoding_maps col
             (.labelMap (classes.enum.map (fun p => (p.2, p.1)))) }
  | .onehot =>
    let cats := sortedUnique (cellStrs (filled.getCol col))
    pure { encoders := insertA st.encoders col (.onehot cats),
           encoding_maps := insertA st.encoding_maps col
             (.featureNames (featureNamesOf col cats)) }

/-- `CategoricalPreprocessor.fit`: validate, fill missing values, then run
`catFitStep` over the declared categorical columns. -/
def catFit (cfg : Config) (st : CatState) (data : Table) : Except String CatState := do
  if !(validate_input cfg data) then throw "Invalid input data" else
  let cols := catColumns cfg
  let filled ← cat_handle_missing cfg.categorical.handle_missing data cols
  cols.foldlM (catFitStep cfg filled) st

/-- `LabelEncoder.transform` on one cell: the index of the value in
`classes_`; a value absent from the fit-time vocabulary raises. -/
def labelTransformCell (classes : List String) (c : Cell) : Except String Cell :=
  match c with
  | .str s =>
    match classes.findIdx? (fun x => x == s) with
    | some i => .ok (.num (i : ℚ))
    | none => .error ("y contains previously unseen labels: " ++ s)
  | _ => .error "y contains previously unseen labels"

/-- The one-hot encoded block for one column: one generated column per
learned category, `1` where the cell equals that category and `0`
otherwise — in particular all zeros on a row whose value is unseen
(`handle_unknown='ignore'`). -/
def onehotBlock (names : List String) (cats : List String) (cells : List Cell) :
    List (String × List Cell) :=
  (names.zip cats).map (fun p =>
    (p.1, cells.map (fun c => if c = Cell.str p.2 then Cell.num 1 else Cell.num 0)))

/-- The body of the per-column loop of `CategoricalPreprocessor.transform`:
a column without a fitted encoder is skipped with a warning; label encoding
rewrites the column in place; one-hot drops the column and appends the
generated indicator columns (`encoding_maps[col]['feature_names']`,
`KeyError` if absent). -/
def catTransformStep (st : CatState) (df : Table) (col : String) :
    Except String Table :=
  match lookupA st.encoders col with
  | none => pure df
  | some (.label classes) => do
    let cells ← (df.getCol col).mapM (labelTransformCell classes)
    pure (df.setCol col cells)
  | some (.onehot cats) =>
    match lookupA st.encoding_maps col with
    | some (.featureNames names) =>
      pure ((df.dropCol col).append ⟨onehotBlock names cats (df.getCol col)⟩)
    | _ => throw ("KeyError: " ++ col)

/-- The per-column loop of `CategoricalPreprocessor.transform`. -/
def catTransformCols (st : CatState) (cols : List String) (df : Table) :
    Except String Table :=
  cols.foldlM (catTransformStep st) df

/-- `CategoricalPreprocessor.transform`: validate, copy, fill missing values
(statistics recomputed from the given table), then encode each declared
categorical column that has a fitted encoder. -/
def catTransform (cfg : Config) (st : CatState) (data : Table) : Except String Table := do
  if !(validate_input cfg data) then throw "Invalid input data" else
  let cols := catColumns cfg
  let df ← cat_handle_missing cfg.categorical.handle_missing data cols
  catTransformCols st cols df

/-! ## PreprocessorFactory -/

/-- A declared column of type `t` exists. -/
def typePresent (cfg : Config) (t : String) : Bool :=
  cfg.input_columns.any (·.type == t)

/-- The factory with its per-type preprocessor instances, in the fixed
instantiation order text, numeric, categorical; `none` for absent types. -/
structure Factory where
  config : Config
  textP : Option Unit
  numericP : Option NumericState
  catP : Option CatState
deriving DecidableEq, Repr

/-- `PreprocessorFactory.__init__` / `_initialize_preprocessors`: one
preprocessor per distinct declared type among text/numeric/categorical
(constructing the numeric one can raise on an unknown scaling method). -/
def factoryInit (cfg : Config) : Except String Factory := do
  let tp := if typePresent cfg "text" then some () else none
  let np ← if typePresent cfg "numeric" then Except.map some (numericInit cfg)
           else pure none
  let cp := if typePresent cfg "categorical" then some catInit else none
  pure ⟨cfg, tp, np, cp⟩

/-- The text step of `PreprocessorFactory.fit`: slice to the text columns
and fit, when the text preprocessor exists and has columns. -/
def factoryFitText (cfg : Config) (tp : Option Unit) (data : Table) :
    Except String Unit :=
  match tp with
  | some _ =>
    let cols := columnsByType cfg "text"
    if cols.isEmpty then pure () else do
      let slice ← data.select cols
      textFit cfg slice
  | none => pure ()

/-- The numeric step of `PreprocessorFactory.fit`. -/
def factoryFitNumeric (cfg : Config) (np : Option NumericState) (data : Table) :
    Except String (Option NumericState) :=
  match np with
  | some ns =>
    let cols := columnsByType cfg "numeric"
    if cols.isEmpty then pure (some ns) else do
      let slice ← data.select cols
      Except.map some (numericFit cfg ns slice)
  | none => pure none

/-- The categorical step of `PreprocessorFactory.fit`. -/
def factoryFitCat (cfg : Config) (cp : Option CatState) (data : Table) :
    Except String (Option CatState) :=
  match cp with
  | some cs =>
    let cols := columnsByType cfg "categorical"
    if cols.isEmpty then pure (some cs) else do
      let slice ← data.select cols
      Except.map some (catFit cfg cs slice)
  | none => pure none

/-- `PreprocessorFactory.fit`: for each instantiated preprocessor in order,
slice the table to that type's declared columns and fit. -/
def factoryFit (st : Factory) (data : Table) : Except String Factory := do
  let _ ← factoryFitText st.config st.textP data
  let np ← factoryFitNumeric st.config st.numericP data
  let cp ← factoryFitCat st.config st.catP data
  pure { st with numericP := np, catP := cp }

/-- The text step of `PreprocessorFactory.transform`: the processed frames
this step appends to `processed_dfs`. -/
def factoryTransText (env : TextEnv) (cfg : Config) (tp : Option Unit) (df : Table) :
    Except String (List Table) :=
  match tp with
  | some _ =>
    let cols := columnsByType cfg "text"
    if cols.isEmpty then pure [] else do
      let slice ← df.select cols
      let out ← textTransform env cfg slice
      pure [out]
  | none => pure []

/-- The numeric step of `PreprocessorFactory.transform`. -/
def factoryTransNumeric (sqrtQ : ℚ → ℚ) (cfg : Config) (np : Option NumericState)
    (df : Table) : Except String (List Table) :=
  match np with
  | some ns =>
    let cols := columnsByType cfg "numeric"
    if cols.isEmpty then pure [] else do
      let slice ← df.select cols
      let out ← numericTransform sqrtQ cfg ns slice
      pure [out]
  | none => pure []

/-- The categorical step of `PreprocessorFactory.transform`. -/
def factoryTransCat (cfg : Config) (cp : Option CatState) (df : Table) :
    Except String (List Table) :=
  match cp with
  | some cs =>
    let cols := columnsByType cfg "categorical"
    if cols.isEmpty then pure [] else do
      let slice ← df.select cols
      let out ← catTransform cfg cs slice
      pure [out]
  | none => pure []

/-- `PreprocessorFactory.transform`: copy the input, let each instantiated
preprocessor transform its column slice, and concatenate the processed
frames column-wise; with no processed frames the input copy is returned
unchanged. -/
def factoryTransform (sqrtQ : ℚ → ℚ) (env : TextEnv) (st : Factory) (data : Table) :
    Except String Table := do
  let cfg := st.config
  let t ← factoryTransText env cfg st.textP data
  let n ← factoryTransNumeric sqrtQ cfg st.numericP data
  let c ← factoryTransCat cfg st.catP data
  let pds := t ++ n ++ c
  if pds.isEmpty then pure data else pure (concatTables pds)

/-- `PreprocessorFactory.fit_transform`. -/
def factoryFitTransform (sqrtQ : ℚ → ℚ) (env : TextEnv) (st : Factory) (data : Table) :
    Except String Table := do
  let st' ← factoryFit st data
  factoryTransform sqrtQ env st' data

/-! ## Heap model

For the frame-effect claim the pandas frames live in a store (a list of
tables addressed by allocation index).  `data.copy()`, `df.drop`,
`pd.concat` and column selection allocate fresh frames at the end of the
store; the in-place operations (`fillna(inplace=True)` and `df[col] = ...`
assignment) overwrite the frame they are applied to.  Each store-level
definition mirrors its pure counterpart line by line. -/

/-- The heap of allocated frames. -/
abbrev Store := List Table

/-- Stores `σ` and `σ'` agree on every frame allocated below index `n`. -/
def StorePres (σ σ' : Store) (n : Nat) : Prop :=
  ∀ m, m < n → σ'.get? m = σ.get? m

/-- Store-level `NumericPreprocessor._handle_missing_values`: copy the frame
at `i`, then fill each listed column in place on the copy. -/
def numericHandleMissingS (method : String) (columns : List String) (σ : Store) (i : Nat) :
    Except String (Store × Nat) := do
  match σ.get? i with
  | none => throw "invalid frame reference"
  | some data =>
    let j := σ.length
    let σ₀ := σ ++ [data]
    let σ' ← columns.foldlM (fun τ col =>
      let df := τ.getD j ⟨[]⟩
      do
        let v ← numericFillValue method (df.getCol col)
        pure (τ.set j (df.setCol col (fillCol (df.getCol col) v)))) σ₀
    pure (σ', j)

/-- Store-level `NumericPreprocessor.fit`. -/
def numericFitS (cfg : Config) (st : NumericState) (σ : Store) (i : Nat) :
    Except String (Store × NumericState) := do
  match σ.get? i with
  | none => throw "invalid frame reference"
  | some data =>
    if !(validate_input cfg data) then throw "Invalid input data" else
    let cols := numericColumns cfg
    let (σ', j) ← numericHandleMissingS cfg.numeric.handle_missing cols σ i
    let filled := σ'.getD j ⟨[]⟩
    pure (σ', { st with scalers := cols.foldl (fun m col =>
      insertA m col (fitScaler st.scalerClass (cellNums (filled.getCol col)))) st.scalers })

/-- Store-level `NumericPreprocessor.transform`: copy, fill the copy in
place, then assign each scaled column in place. -/
def numericTransformS (sqrtQ : ℚ → ℚ) (cfg : Config) (st : NumericState)
    (σ : Store) (i : Nat) : Except String (Store × Nat) := do
  match σ.get? i with
  | none => throw "invalid frame reference"
  | some data =>
    if !(validate_input cfg data) then throw "Invalid input data" else
    let cols := numericColumns cfg
    let j := σ.length
    let σ₀ := σ ++ [data]
    let (σ₁, k) ← numericHandleMissingS cfg.numeric.handle_missing cols σ₀ j
    let σ₂ := cols.foldl (fun τ col =>
      let df := τ.getD k ⟨[]⟩
      match lookupA st.scalers col with
      | some p => τ.set k (df.setCol col ((df.getCol col).map (scaleCell sqrtQ st.scalerClass p)))
      | none => τ) σ₁
    pure (σ₂, k)

/-- Store-level `CategoricalPreprocessor._handle_missing_values`. -/
def catHandleMissingS (method : String) (columns : List String) (σ : Store) (i : Nat) :
    Except String (Store × Nat) := do
  match σ.get? i with
  | none => throw "invalid frame reference"
  | some data =>
    let j := σ.length
    let σ₀ := σ ++ [data]
    let σ' ← columns.foldlM (fun τ col =>
      let df := τ.getD j ⟨[]⟩
      do
        let v ← catFillValue method (df.getCol col)
        pure (τ.set j (df.setCol col (fillCol (df.getCol col) (some v))))) σ₀
    pure (σ', j)

/-- Store-level `CategoricalPreprocessor.fit` (the encoders read the filled
frame without modifying it). -/
def catFitS (cfg : Config) (st : CatState) (σ : Store) (i : Nat) :
    Except String (Store × CatState) := do
  match σ.get? i with
  | none => throw "invalid frame reference"
  | some data =>
    if !(validate_input cfg data) then throw "Invalid input data" else
    let cols := catColumns cfg
    let (σ', j) ← catHandleMissingS cfg.categorical.handle_missing cols σ i
    let filled := σ'.getD j ⟨[]⟩
    let st' ← cols.foldlM (catFitStep cfg filled) st
    pure (σ', st')

/-- Store-level `CategoricalPreprocessor.transform`: copy, fill the copy,
then per column either assign the label-encoded column in place, or allocate
the dropped frame, the encoded block and their concatenation (`drop` and
`pd.concat` return fresh frames). -/
def catTransformS (cfg : Config) (st : CatState) (σ : Store) (i : Nat) :
    Except String (Store × Nat) := do
  match σ.get? i with
  | none => throw "invalid frame reference"
  | some data =>
    if !(validate_input cfg data) then throw "Invalid input data" else
    let cols := catColumns cfg
    let j := σ.length
    let σ₀ := σ ++ [data]
    let (σ₁, k) ← catHandleMissingS cfg.categorical.handle_missing cols σ₀ j
    let (σ₂, r) ← cols.foldlM (fun (p : Store × Nat) col =>
      let τ := p.1
      let r := p.2
      let df := τ.getD r ⟨[]⟩
      match lookupA st.encoders col with
      | none => pure (τ, r)
      | some (.label classes) => do
        let cells ← (df.getCol col).mapM (labelTransformCell classes)
        pure (τ.set r (df.setCol col cells), r)
      | some (.onehot cats) =>
        match lookupA st.encoding_maps col with
        | some (.featureNames names) =>
          let dropped := df.dropCol col
          let enc : Table := ⟨onehotBlock names cats (df.getCol col)⟩
          let τ' := τ ++ [dropped] ++ [enc]
          pure (τ' ++ [dropped.append enc], τ'.length)
        | _ => throw ("KeyError: " ++ col)) (σ₁, k)
    pure (σ₂, r)

/-- Store-level `TextPreprocessor.transform`: copy, then assign each
processed text column in place on the copy. -/
def textTransformS (env : TextEnv) (cfg : Config) (σ : Store) (i : Nat) :
    Except String (Store × Nat) := do
  match σ.get? i with
  | none => throw "invalid frame reference"
  | some data =>
    if !(validate_input cfg data) then throw "Invalid input data" else
    let j := σ.length
    let σ₀ := σ ++ [data]
    let σ₁ := (textColumns cfg).foldl (fun τ col =>
      let df := τ.getD j ⟨[]⟩
      τ.set j (df.setCol col ((df.getCol col).map
        (fun c => .str (preprocess_text env cfg.text c))))) σ₀
    pure (σ₁, j)

/-- Store-level `PreprocessorFactory.fit`: each per-type step allocates its
column slice and fits the preprocessor on it. -/
def factoryFitS (st : Factory) (σ : Store) (i : Nat) :
    Except String (Store × Factory) := do
  match σ.get? i with
  | none => throw "invalid frame reference"
  | some data =>
    let cfg := st.config
    let σ₁ ← match st.textP with
      | some _ =>
        let cols := columnsByType cfg "text"
        if cols.isEmpty then pure σ else do
          let slice ← data.select cols
          let _ ← textFit cfg slice
          pure (σ ++ [slice])
      | none => pure σ
    let p₂ ← match st.numericP with
      | some ns =>
        let cols := columnsByType cfg "numeric"
        if cols.isEmpty then pure (σ₁, some ns) else do
          let slice ← data.select cols
          let (τ, ns') ← numericFitS cfg ns (σ₁ ++ [slice]) σ₁.length
          pure (τ, some ns')
      | none => pure (σ₁, none)
    let p₃ ← match st.catP with
      | some cs =>
        let cols := columnsByType cfg "categorical"
        if cols.isEmpty then pure (p₂.1, some cs) else do
          let slice ← data.select cols
          let (τ, cs') ← catFitS cfg cs (p₂.1 ++ [slice]) p₂.1.length
          pure (τ, some cs')
      | none => pure (p₂.1, none)
    pure (p₃.1, { st with numericP := p₂.2, catP := p₃.2 })

/-- Store-level `PreprocessorFactory.transform`: copy the input, let each
instantiated preprocessor transform its freshly allocated slice of the copy,
then allocate the column-wise concatenation of the processed frames. -/
def factoryTransformS (sqrtQ : ℚ → ℚ) (env : TextEnv) (st : Factory)
    (σ : Store) (i : Nat) : Except String (Store × Nat) := do
  match σ.get? i with
  | none => throw "invalid frame reference"
  | some data =>
    let cfg := st.config
    let j := σ.length
    let σ₀ := σ ++ [data]
    let p₁ ← match st.textP with
      | some _ =>
        let cols := columnsByType cfg "text"
        if cols.isEmpty then pure (σ₀, ([] : List Nat)) else do
          let slice ← data.select cols
          let (τ, r) ← textTransformS env cfg (σ₀ ++ [slice]) σ₀.length
          pure (τ, [r])
      | none => pure (σ₀, ([] : List Nat))
    let p₂ ← match st.numericP with
      | some ns =>
        let cols := columnsByType cfg "numeric"
        if cols.isEmpty then pure (p₁.1, ([] : List Nat)) else do
          let slice ← data.select cols
          let (τ, r) ← numericTransformS sqrtQ cfg ns (p₁.1 ++ [slice]) p₁.1.length
          pure (τ, [r])
      | none => pure (p₁.1, ([] : List Nat))
    let p₃ ← match st.catP with
      | some cs =>
        let cols := columnsByType cfg "categorical"
        if cols.isEmpty then pure (p₂.1, ([] : List Nat)) else do
          let slice ← data.select cols
          let (τ, r) ← catTransformS cfg cs (p₂.1 ++ [slice]) p₂.1.length
          pure (τ, [r])
      | none => pure (p₂.1, ([] : List Nat))
    let refs := p₁.2 ++ p₂.2 ++ p₃.2
    let τ := p₃.1
    if refs.isEmpty then pure (τ, j)
    else pure (τ ++ [concatTables (refs.map (fun r => τ.getD r ⟨[]⟩))], τ.length)

/-! ## Concrete inputs used by witnesses and counterexamples -/

/-- A whitespace tokenizer standing in for `nltk.word_tokenize` in concrete
evaluations. -/
def wsTokenize (s : String) : List String :=
  (s.splitOn " ").filter (fun w => !(w == ""))

/-- A concrete external-collaborator environment for evaluations. -/
def exEnv : TextEnv :=
  ⟨wsTokenize, ["the", "is"], id⟩

/-- Numeric-only configuration: one numeric column `a`, mean fill, min-max
scaling. -/
def exCfgN : Config :=
  { input_columns := [⟨"a", "numeric"⟩],
    text := ⟨true, true, true, true⟩,
    numeric := ⟨"mean", "minmax"⟩,
    categorical := ⟨"mode", "label"⟩ }

/-- Fit table for `exCfgN`: `a = [10, 20]` (mean 15). -/
def exFitN : Table := ⟨[("a", [.num 10, .num 20])]⟩

/-- Transform table for `exCfgN`: `a = [0, NaN]` (its own mean is 0). -/
def exTransN : Table := ⟨[("a", [.num 0, .missing])]⟩

/-- Mixed-type configuration: numeric `age` and categorical `city`. -/
def exCfgMixed : Config :=
  { input_columns := [⟨"age", "numeric"⟩, ⟨"city", "categorical"⟩],
    text := ⟨true, true, true, true⟩,
    numeric := ⟨"mean", "standard"⟩,
    categorical := ⟨"mode", "label"⟩ }

/-- A table with both declared columns of `exCfgMixed`. -/
def exFitMixed : Table :=
  ⟨[("age", [.num 10, .num 20, .missing]),
    ("city", [.str "A", .str "B", .str "A"])]⟩

/-- Categorical-only configuration with one-hot encoding. -/
def exCfgOnehot : Config :=
  { input_columns := [⟨"city", "categorical"⟩],
    text := ⟨true, true, true, true⟩,
    numeric := ⟨"mean", "standard"⟩,
    categorical := ⟨"mode", "onehot"⟩ }

/-- Categorical-only configuration with label encoding. -/
def exCfgLabel : Config :=
  { exCfgOnehot with categorical := ⟨"mode", "label"⟩ }

/-- Categorical-only configuration with an unknown missing-value method. -/
def exCfgBogus : Config :=
  { exCfgOnehot with categorical := ⟨"bogus", "label"⟩ }

/-- Fit table: `city = [A, B]`. -/
def exFitCity : Table := ⟨[("city", [.str "A", .str "B"])]⟩

/-- Transform table with the unseen category `C`. -/
def exTransCity : Table := ⟨[("city", [.str "C"])]⟩

/-- Fit table with a missing categorical value. -/
def exFitCityMissing : Table := ⟨[("city", [.str "A", .missing])]⟩

/-- Text-only configuration. -/
def exCfgText : Config :=
  { exCfgN with input_columns := [⟨"t", "text"⟩] }

/-- Numeric-only configuration with mode fill. -/
def exCfgNMode : Config :=
  { exCfgN with numeric := ⟨"mode", "minmax"⟩ }

/-- A one-column text table. -/
def exTextT : Table := ⟨[("t", [.str "b a", .num 3])]⟩

/-- A numeric table with a missing cell whose mode is 1. -/
def exNModeT : Table := ⟨[("a", [.num 1, .missing])]⟩

/-- An identity tokenizer environment (tokenizes to a single token). -/
def idEnv : TextEnv :=
  ⟨fun s => [s], [], id⟩

/-- Numeric-only configuration with an unknown scaling method. -/
def exCfgScaleBogus : Config :=
  { exCfgN with numeric := ⟨"mean", "bogus"⟩ }

/-- Numeric-only configuration with an unknown missing-value method. -/
def exCfgNumBogus : Config :=
  { exCfgN with numeric := ⟨"bogus", "standard"⟩ }

/-- Categorical-only configuration with an unknown encoding method. -/
def exCfgEncBogus : Config :=
  { exCfgOnehot with categorical := ⟨"mode", "bogus"⟩ }

/-- Configuration declaring only a column of a type with no registered
preprocessor. -/
def exCfgDate : Config :=
  { exCfgOnehot with input_columns := [⟨"d", "date"⟩] }

/-- An input table for `exCfgDate`. -/
def exTransDate : Table := ⟨[("d", [.str "x"])]⟩

/-- Configuration declaring a numeric column and a column of an unhandled
type. -/
def exCfgNumDate : Config :=
  { exCfgN with input_columns := [⟨"age", "numeric"⟩, ⟨"d", "date"⟩] }

/-- An input table for `exCfgNumDate` with both declared columns. -/
def exNumDateT : Table := ⟨[("age", [.num 1]), ("d", [.str "x"])]⟩

/-! ## Characterization helpers for the categorical fit -/

/-- The vocabulary `fit` learns for a column: sorted distinct string values
of the filled fit column. -/
def fitClasses (filled : Table) (c : String) : List String :=
  sortedUnique (cellStrs (filled.getCol c))

/-- The encoder `catFitStep` stores for a column. -/
def encValue (kind : EncoderKind) (filled : Table) (c : String) : Encoder :=
  match kind with
  | .label => .label (fitClasses filled c)
  | .onehot => .onehot (fitClasses filled c)

/-- The encoding map `catFitStep` stores for a column. -/
def mapValue (kind : EncoderKind) (filled : Table) (c : String) : EncMap :=
  match kind with
  | .label => .labelMap ((fitClasses filled c).enum.map (fun p => (p.2, p.1)))
  | .onehot => .featureNames (featureNamesOf c (fitClasses filled c))

/-- The error class sklearn's `LabelEncoder.transform` raises on a value
absent from the fit-time vocabulary (`UnseenCategory` in the spec). -/
def unseenError (e : String) : Prop :=
  e = "y contains previously unseen labels" ∨
  ∃ s, e = "y contains previously unseen labels: " ++ s

/-! ## Table lemmas -/

theorem Table.names_setCol (t : Table) (c : String) (cells : List Cell) :
    (t.setCol c cells).names = t.names := by
  simp only [Table.setCol, Table.names, List.map_map]
  refine List.map_congr_left ?_
  intro p _
  by_cases h : p.1 == c <;> simp [Function.comp, h]

theorem Table.hasCol_iff_mem_names (t : Table) (c : String) :
    t.hasCol c = true ↔ c ∈ t.names := by
  simp only [Table.hasCol, Table.names, List.any_eq_true, List.mem_map, beq_iff_eq]

theorem Table.hasCol_eq_of_names_eq {t u : Table} (h : t.names = u.names) (c : String) :
    t.hasCol c = u.hasCol c := by
  cases ht : t.hasCol c
  · cases hu : u.hasCol c
    · rfl
    · rw [Table.hasCol_iff_mem_names, ← h, ← Table.hasCol_iff_mem_names, ht] at hu
      exact absurd hu (by simp)
  · rw [Table.hasCol_iff_mem_names, h, ← Table.hasCol_iff_mem_names] at ht
    exact ht.symm

theorem Table.hasCol_setCol (t : Table) (c c' : String) (cells : List Cell) :
    (t.setCol c' cells).hasCol c = t.hasCol c :=
  Table.hasCol_eq_of_names_eq (Table.names_setCol t c' cells) c

theorem Table.getCol_setCol_self (t : Table) (c : String) (cells : List Cell) :
    (t.setCol c cells).getCol c = if t.hasCol c then cells else [] := by
  obtain ⟨l⟩ := t
  simp only [Table.setCol, Table.getCol, Table.hasCol]
  induction l with
  | nil => rfl
  | cons p l ih =>
    simp only [List.map_cons, List.any_cons]
    by_cases h : (p.1 == c) = true
    · rw [if_pos h, List.find?_cons_of_pos _ (by simpa using h)]
      simp only [h, Bool.true_or, if_true]
    · have hb : (p.1 == c) = false := by simpa using h
      rw [if_neg h, List.find?_cons_of_neg _ (by simpa using h)]
      simp only [hb, Bool.false_or]
      exact ih

theorem Table.getCol_setCol_ne (t : Table) {c c' : String} (h : c ≠ c') (cells : List Cell) :
    (t.setCol c' cells).getCol c = t.getCol c := by
  obtain ⟨l⟩ := t
  simp only [Table.setCol, Table.getCol]
  induction l with
  | nil => rfl
  | cons p l ih =>
    simp only [List.map_cons]
    by_cases hp : (p.1 == c') = true
    · have hpc : (p.1 == c) = false := by
        simp only [beq_iff_eq] at hp
        simp only [beq_eq_false_iff_ne, hp]
        exact fun hc => h hc.symm
      rw [if_pos hp, List.find?_cons_of_neg _ (by simp [hpc]),
        List.find?_cons_of_neg _ (by simp [hpc])]
      exact ih
    · rw [if_neg hp]
      by_cases hc : (p.1 == c) = true
      · rw [List.find?_cons_of_pos _ (by simpa using hc),
          List.find?_cons_of_pos _ (by simpa using hc)]
      · rw [List.find?_cons_of_neg _ (by simpa using hc),
          List.find?_cons_of_neg _ (by simpa using hc)]
        exact ih

theorem Table.getCol_of_not_hasCol {t : Table} {c : String} (h : t.hasCol c = false) :
    t.getCol c = [] := by
  obtain ⟨l⟩ := t
  simp only [Table.hasCol] at h
  simp only [Table.getCol]
  induction l with
  | nil => rfl
  | cons p l ih =>
    simp only [List.any_cons, Bool.or_eq_false_iff] at h
    rw [List.find?_cons_of_neg _ (by simp [h.1])]
    exact ih h.2

theorem Table.hasCol_of_getCol_ne_nil {t : Table} {c : String} (h : t.getCol c ≠ []) :
    t.hasCol c = true := by
  cases hc : t.hasCol c
  · exact absurd (Table.getCol_of_not_hasCol hc) h
  · rfl

theorem fillCol_nil (v : Option Cell) : fillCol [] v = [] := by
  cases v <;> rfl

theorem fillCol_length (cs : List Cell) (v : Option Cell) :
    (fillCol cs v).length = cs.length := by
  cases v <;> simp [fillCol]

theorem Table.getCol_setCol_fill (t : Table) (c : String) (v : Option Cell) :
    (t.setCol c (fillCol (t.getCol c) v)).getCol c = fillCol (t.getCol c) v := by
  rw [Table.getCol_setCol_self]
  cases h : t.hasCol c
  · rw [Table.getCol_of_not_hasCol h, fillCol_nil]; simp
  · simp

theorem Table.getCol_dropCol_ne (t : Table) {c c' : String} (h : c ≠ c') :
    (t.dropCol c').getCol c = t.getCol c := by
  obtain ⟨l⟩ := t
  simp only [Table.dropCol, Table.getCol]
  induction l with
  | nil => rfl
  | cons p l ih =>
    by_cases hp : (p.1 == c') = true
    · have hpc : (p.1 == c) = false := by
        simp only [beq_iff_eq] at hp
        simp only [beq_eq_false_iff_ne, hp]
        exact fun hc => h hc.symm
      rw [List.filter_cons_of_neg (by simp [hp]),
        List.find?_cons_of_neg _ (by simp [hpc])]
      exact ih
    · rw [List.filter_cons_of_pos (by simp [hp])]
      by_cases hc : (p.1 == c) = true
      · rw [List.find?_cons_of_pos _ (by simpa using hc),
          List.find?_cons_of_pos _ (by simpa using hc)]
      · rw [List.find?_cons_of_neg _ (by simpa using hc),
          List.find?_cons_of_neg _ (by simpa using hc)]
        exact ih

theorem Table.hasCol_dropCol_ne (t : Table) {c c' : String} (h : c ≠ c') :
    (t.dropCol c').hasCol c = t.hasCol c := by
  obtain ⟨l⟩ := t
  simp only [Table.dropCol, Table.hasCol]
  induction l with
  | nil => rfl
  | cons p l ih =>
    by_cases hp : (p.1 == c') = true
    · have hpc : (p.1 == c) = false := by
        simp only [beq_iff_eq] at hp
        simp only [beq_eq_false_iff_ne, hp]
        exact fun hc => h hc.symm
      rw [List.filter_cons_of_neg (by simp [hp])]
      simp only [List.any_cons, hpc, Bool.false_or]
      exact ih
    · rw [List.filter_cons_of_pos (by simp [hp])]
      simp only [List.any_cons]
      rw [ih]

theorem Table.getCol_append_left {t : Table} (u : Table) {c : String}
    (h : t.hasCol c = true) : (t.append u).getCol c = t.getCol c := by
  obtain ⟨l⟩ := t
  simp only [Table.append, Table.getCol, Table.hasCol] at *
  induction l with
  | nil => simp at h
  | cons p l ih =>
    by_cases hp : (p.1 == c) = true
    · rw [List.cons_append, List.find?_cons_of_pos _ (by simpa using hp),
        List.find?_cons_of_pos _ (by simpa using hp)]
    · simp only [List.any_cons, hp, Bool.false_or] at h
      rw [List.cons_append, List.find?_cons_of_neg _ (by simpa using hp),
        List.find?_cons_of_neg _ (by simpa using hp)]
      exact ih h

theorem Table.getCol_append_right {t : Table} (u : Table) {c : String}
    (h : t.hasCol c = false) : (t.append u).getCol c = u.getCol c := by
  obtain ⟨l⟩ := t
  simp only [Table.append, Table.getCol, Table.hasCol] at *
  induction l with
  | nil => rfl
  | cons p l ih =>
    simp only [List.any_cons, Bool.or_eq_false_iff] at h
    rw [List.cons_append, List.find?_cons_of_neg _ (by simp [h.1])]
    exact ih h.2

theorem Table.hasCol_append (t u : Table) (c : String) :
    (t.append u).hasCol c = (t.hasCol c || u.hasCol c) := by
  simp [Table.append, Table.hasCol, List.any_append]

theorem Table.allRows_setCol {t : Table} {n : ℕ} (h : t.allRows n) {c : String}
    {cells : List Cell} (hc : cells.length = n) : (t.setCol c cells).allRows n := by
  intro p hp
  simp only [Table.setCol, List.mem_map] at hp
  obtain ⟨q, hq, rfl⟩ := hp
  by_cases hqc : (q.1 == c) = true
  · simpa [hqc] using hc
  · simpa [hqc] using h q hq

theorem Table.allRows_dropCol {t : Table} {n : ℕ} (h : t.allRows n) (c : String) :
    (t.dropCol c).allRows n := by
  intro p hp
  exact h p (List.mem_of_mem_filter hp)

theorem Table.allRows_append {t u : Table} {n : ℕ} (ht : t.allRows n)
    (hu : u.allRows n) : (t.append u).allRows n := by
  intro p hp
  rcases List.mem_append.mp hp with h | h
  · exact ht p h
  · exact hu p h

theorem Table.getCol_length_of_allRows {t : Table} {n : ℕ} (h : t.allRows n)
    {c : String} (hc : t.hasCol c = true) : (t.getCol c).length = n := by
  obtain ⟨l⟩ := t
  simp only [Table.getCol]
  cases hf : List.find? (fun p => p.1 == c) l with
  | none =>
    rw [Table.hasCol_iff_mem_names] at hc
    simp only [Table.names, List.mem_map] at hc
    obtain ⟨p, hp, rfl⟩ := hc
    have : (List.find? (fun q => q.1 == p.1) l).isSome = true :=
      List.find?_isSome.mpr ⟨p, hp, beq_self_eq_true p.1⟩
    rw [hf] at this
    simp at this
  | some p =>
    exact h p (List.mem_of_find?_eq_some hf)

theorem Table.hasCol_of_getElem_getCol {t : Table} {c : String} {i : ℕ} {x : Cell}
    (h : (t.getCol c)[i]? = some x) : t.hasCol c = true := by
  apply Table.hasCol_of_getCol_ne_nil
  intro hnil
  rw [hnil] at h
  simp at h

theorem validate_input_eq_of_names_eq (cfg : Config) {t u : Table}
    (h : t.names = u.names) : validate_input cfg t = validate_input cfg u := by
  unfold validate_input
  congr 1
  apply List.filter_congr
  intro c _
  rw [Table.hasCol_eq_of_names_eq h]

theorem validate_input_true_iff (cfg : Config) (t : Table) :
    validate_input cfg t = true ↔ ∀ c ∈ expectedColumns cfg, t.hasCol c = true := by
  unfold validate_input
  rw [List.isEmpty_iff, List.filter_eq_nil_iff]
  constructor
  · intro h c hc
    have := h c hc
    simpa using this
  · intro h c hc
    simp [h c hc]

theorem Table.setCol_of_not_hasCol {t : Table} {c : String} (h : t.hasCol c = false)
    (cells : List Cell) : t.setCol c cells = t := by
  obtain ⟨l⟩ := t
  simp only [Table.setCol, Table.hasCol] at *
  congr 1
  induction l with
  | nil => rfl
  | cons p l ih =>
    simp only [List.any_cons, Bool.or_eq_false_iff] at h
    simp only [List.map_cons, h.1]
    rw [if_neg (by simp), ih h.2]

/-! ## Except monad plumbing -/

theorem exBind_eq_ok {α β : Type} {x : Except String α} {f : α → Except String β}
    {r : β} (h : (x >>= f) = .ok r) : ∃ a, x = .ok a ∧ f a = .ok r := by
  cases x with
  | ok a => exact ⟨a, rfl, h⟩
  | error e => exact absurd h (by simp [Bind.bind, Except.bind])

theorem exBind_ok {α β : Type} (a : α) (f : α → Except String β) :
    ((Except.ok a : Except String α) >>= f) = f a := rfl

theorem exBind_error {α β : Type} (e : String) (f : α → Except String β) :
    ((Except.error e : Except String α) >>= f) = Except.error e := rfl

theorem exPure_eq_ok {α : Type} {a r : α}
    (h : (pure a : Except String α) = .ok r) : a = r := by
  cases h
  rfl

/-! ## fillFold lemmas (shared by both `_handle_missing_values`) -/

theorem fillFold_ok_getCol_not_mem {β : Type} {F : List Cell → Except String β}
    {G : List Cell → β → List Cell} {cols : List String} {data df' : Table}
    (h : fillFold F G cols data = .ok df') {c : String} (hc : c ∉ cols) :
    df'.getCol c = data.getCol c := by
  induction cols generalizing data with
  | nil =>
    simp only [fillFold, List.foldlM] at h
    cases h
    rfl
  | cons col cols ih =>
    simp only [fillFold, List.foldlM] at h ih
    obtain ⟨df₁, h₁, h₂⟩ := exBind_eq_ok h
    obtain ⟨v, hv, hdf₁⟩ := exBind_eq_ok h₁
    replace hdf₁ := exPure_eq_ok hdf₁
    subst hdf₁
    have hne : c ≠ col := fun he => hc (by rw [he]; exact List.mem_cons_self _ _)
    rw [ih h₂ (fun hm => hc (List.mem_cons_of_mem _ hm)),
      Table.getCol_setCol_ne _ hne]

theorem fillFold_ok_getCol_mem {β : Type} {F : List Cell → Except String β}
    {G : List Cell → β → List Cell} (hG : ∀ v, G [] v = [])
    {cols : List String} (hnd : cols.Nodup) {data df' : Table}
    (h : fillFold F G cols data = .ok df') {c : String} (hc : c ∈ cols) :
    ∃ v, F (data.getCol c) = .ok v ∧ df'.getCol c = G (data.getCol c) v := by
  induction cols generalizing data with
  | nil => cases hc
  | cons col cols ih =>
    simp only [fillFold, List.foldlM] at h ih
    obtain ⟨df₁, h₁, h₂⟩ := exBind_eq_ok h
    obtain ⟨v, hv, hdf₁⟩ := exBind_eq_ok h₁
    replace hdf₁ := exPure_eq_ok hdf₁
    subst hdf₁
    rcases List.mem_cons.mp hc with rfl | hmem
    · refine ⟨v, hv, ?_⟩
      have hset : (data.setCol c (G (data.getCol c) v)).getCol c = G (data.getCol c) v := by
        rw [Table.getCol_setCol_self]
        cases hh : data.hasCol c
        · rw [Table.getCol_of_not_hasCol hh, hG]
          simp
        · simp
      rw [fillFold_ok_getCol_not_mem h₂ (List.Nodup.not_mem hnd), hset]
    · have hne : c ≠ col := fun he => (List.Nodup.not_mem hnd) (he ▸ hmem)
      have hpres : (data.setCol col (G (data.getCol col) v)).getCol c = data.getCol c :=
        Table.getCol_setCol_ne _ hne _
      obtain ⟨w, hw, hout⟩ := ih (List.Nodup.of_cons hnd) h₂ hmem
      rw [hpres] at hw hout
      exact ⟨w, hw, hout⟩

theorem fillFold_ok_names {β : Type} {F : List Cell → Except String β}
    {G : List Cell → β → List Cell} {cols : List String} {data df' : Table}
    (h : fillFold F G cols data = .ok df') : df'.names = data.names := by
  induction cols generalizing data with
  | nil =>
    simp only [fillFold, List.foldlM] at h
    cases h
    rfl
  | cons col cols ih =>
    simp only [fillFold, List.foldlM] at h ih
    obtain ⟨df₁, h₁, h₂⟩ := exBind_eq_ok h
    obtain ⟨v, hv, hdf₁⟩ := exBind_eq_ok h₁
    replace hdf₁ := exPure_eq_ok hdf₁
    subst hdf₁
    rw [ih h₂, Table.names_setCol]

theorem fillFold_ok_allRows {β : Type} {F : List Cell → Except String β}
    {G : List Cell → β → List Cell} (hG : ∀ cs v, (G cs v).length = cs.length)
    {cols : List String} {data df' : Table} {n : ℕ}
    (h : fillFold F G cols data = .ok df') (hr : data.allRows n) : df'.allRows n := by
  induction cols generalizing data with
  | nil =>
    simp only [fillFold, List.foldlM] at h
    cases h
    exact hr
  | cons col cols ih =>
    simp only [fillFold, List.foldlM] at h ih
    obtain ⟨df₁, h₁, h₂⟩ := exBind_eq_ok h
    obtain ⟨v, hv, hdf₁⟩ := exBind_eq_ok h₁
    replace hdf₁ := exPure_eq_ok hdf₁
    subst hdf₁
    refine ih h₂ ?_
    cases hh : data.hasCol col
    · rw [Table.setCol_of_not_hasCol hh]
      exact hr
    · exact Table.allRows_setCol hr
        ((hG _ _).trans (Table.getCol_length_of_allRows hr hh))

theorem fillFold_ok_of_total {β : Type} {F : List Cell → Except String β}
    {G : List Cell → β → List Cell} (hF : ∀ cs, ∃ v, F cs = .ok v)
    (cols : List String) (data : Table) :
    ∃ df', fillFold F G cols data = .ok df' := by
  induction cols generalizing data with
  | nil => exact ⟨data, rfl⟩
  | cons col cols ih =>
    obtain ⟨v, hv⟩ := hF (data.getCol col)
    obtain ⟨df', hdf'⟩ := ih (data.setCol col (G (data.getCol col) v))
    refine ⟨df', ?_⟩
    simp only [fillFold, List.foldlM] at hdf' ⊢
    rw [hv]
    exact hdf'

/-! ## colApplyFold lemmas (numeric scaling loop, text application loop) -/

theorem colApplyFold_getCol_not_mem (o : String → Option (List Cell → List Cell))
    {cols : List String} {c : String} (hc : c ∉ cols) (df : Table) :
    (colApplyFold o cols df).getCol c = df.getCol c := by
  induction cols generalizing df with
  | nil => rfl
  | cons col cols ih =>
    have hne : c ≠ col := fun he => hc (by rw [he]; exact List.mem_cons_self _ _)
    simp only [colApplyFold, List.foldl_cons] at ih ⊢
    cases ho : o col with
    | none => exact ih (fun hm => hc (List.mem_cons_of_mem _ hm)) df
    | some f =>
      rw [ih (fun hm => hc (List.mem_cons_of_mem _ hm)),
        Table.getCol_setCol_ne _ hne]

theorem colApplyFold_getCol_mem (o : String → Option (List Cell → List Cell))
    {cols : List String} (hnd : cols.Nodup) {col : String} (hc : col ∈ cols)
    {df : Table} (hhas : df.hasCol col = true) :
    (colApplyFold o cols df).getCol col =
      match o col with
      | some f => f (df.getCol col)
      | none => df.getCol col := by
  induction cols generalizing df with
  | nil => cases hc
  | cons c0 cols ih =>
    simp only [colApplyFold, List.foldl_cons] at ih ⊢
    rcases List.mem_cons.mp hc with rfl | hmem
    · cases ho : o col with
      | none =>
        exact colApplyFold_getCol_not_mem o (List.Nodup.not_mem hnd) df
      | some f =>
        show (colApplyFold o cols (df.setCol col (f (df.getCol col)))).getCol col =
          f (df.getCol col)
        rw [colApplyFold_getCol_not_mem o (List.Nodup.not_mem hnd),
          Table.getCol_setCol_self, if_pos hhas]
    · have hne : col ≠ c0 := fun he => (List.Nodup.not_mem hnd) (he ▸ hmem)
      cases ho : o c0 with
      | none => exact ih (List.Nodup.of_cons hnd) hmem hhas
      | some f =>
        have hpres := @Table.getCol_setCol_ne df col c0 hne
          (f (df.getCol c0))
        have hhas' : (df.setCol c0 (f (df.getCol c0))).hasCol col = true := by
          rw [Table.hasCol_setCol]; exact hhas
        rw [ih (List.Nodup.of_cons hnd) hmem hhas', hpres]

theorem colApplyFold_names (o : String → Option (List Cell → List Cell))
    (cols : List String) (df : Table) :
    (colApplyFold o cols df).names = df.names := by
  induction cols generalizing df with
  | nil => rfl
  | cons col cols ih =>
    simp only [colApplyFold, List.foldl_cons] at ih ⊢
    cases ho : o col with
    | none => exact ih df
    | some f => rw [ih, Table.names_setCol]

theorem colApplyFold_allRows (o : String → Option (List Cell → List Cell))
    (ho : ∀ col f, o col = some f → ∀ cs, (f cs).length = cs.length)
    (cols : List String) {df : Table} {n : ℕ} (h : df.allRows n) :
    (colApplyFold o cols df).allRows n := by
  induction cols generalizing df with
  | nil => exact h
  | cons col cols ih =>
    simp only [colApplyFold, List.foldl_cons] at ih ⊢
    cases hoc : o col with
    | none => exact ih h
    | some f =>
      refine ih ?_
      show (df.setCol col (f (df.getCol col))).allRows n
      cases hh : df.hasCol col
      · rw [Table.setCol_of_not_hasCol hh]
        exact h
      · exact Table.allRows_setCol h
          ((ho col f hoc _).trans (Table.getCol_length_of_allRows h hh))

/-! ## Success decompositions of fit / transform -/

theorem guard_ok_elim {α : Type} {c : Bool} {e : String} {x : Except String α} {r : α}
    (h : (if (!c) = true then throw e else x) = .ok r) : c = true ∧ x = .ok r := by
  cases c
  · simp only [Bool.not_false] at h
    rw [if_pos trivial] at h
    exact absurd h (by simp [throw, throwThe, MonadExceptOf.throw])
  · simp only [Bool.not_true] at h
    rw [if_neg (by simp)] at h
    exact ⟨rfl, h⟩

theorem numericTransform_ok_elim {sqrtQ : ℚ → ℚ} {cfg : Config} {st : NumericState}
    {data out : Table} (h : numericTransform sqrtQ cfg st data = .ok out) :
    validate_input cfg data = true ∧
    ∃ df, numeric_handle_missing cfg.numeric.handle_missing data (numericColumns cfg) = .ok df ∧
      out = numericScaleFold sqrtQ st (numericColumns cfg) df := by
  unfold numericTransform at h
  obtain ⟨hv, h⟩ := guard_ok_elim h
  obtain ⟨df, hdf, hout⟩ := exBind_eq_ok h
  exact ⟨hv, df, hdf, (exPure_eq_ok hout).symm⟩

theorem textTransform_ok_elim {env : TextEnv} {cfg : Config} {data out : Table}
    (h : textTransform env cfg data = .ok out) :
    validate_input cfg data = true ∧
      out = textApplyFold env cfg.text (textColumns cfg) data := by
  unfold textTransform at h
  obtain ⟨hv, h⟩ := guard_ok_elim h
  exact ⟨hv, (exPure_eq_ok h).symm⟩

theorem catTransform_ok_elim {cfg : Config} {st : CatState} {data out : Table}
    (h : catTransform cfg st data = .ok out) :
    validate_input cfg data = true ∧
    ∃ df, cat_handle_missing cfg.categorical.handle_missing data (catColumns cfg) = .ok df ∧
      catTransformCols st (catColumns cfg) df = .ok out := by
  unfold catTransform at h
  obtain ⟨hv, h⟩ := guard_ok_elim h
  obtain ⟨df, hdf, hout⟩ := exBind_eq_ok h
  exact ⟨hv, df, hdf, hout⟩

theorem numericFit_ok_elim {cfg : Config} {st st' : NumericState} {data : Table}
    (h : numericFit cfg st data = .ok st') :
    validate_input cfg data = true ∧
    ∃ filled, numeric_handle_missing cfg.numeric.handle_missing data (numericColumns cfg) =
        .ok filled ∧
      st' = { st with scalers := (numericColumns cfg).foldl (fun m col =>
        insertA m col (fitScaler st.scalerClass (cellNums (filled.getCol col)))) st.scalers } := by
  unfold numericFit at h
  obtain ⟨hv, h⟩ := guard_ok_elim h
  obtain ⟨filled, hf, hout⟩ := exBind_eq_ok h
  exact ⟨hv, filled, hf, (exPure_eq_ok hout).symm⟩

theorem catFit_ok_elim {cfg : Config} {st st' : CatState} {data : Table}
    (h : catFit cfg st data = .ok st') :
    validate_input cfg data = true ∧
    ∃ filled, cat_handle_missing cfg.categorical.handle_missing data (catColumns cfg) =
        .ok filled ∧
      (catColumns cfg).foldlM (catFitStep cfg filled) st = .ok st' := by
  unfold catFit at h
  obtain ⟨hv, h⟩ := guard_ok_elim h
  obtain ⟨filled, hf, hout⟩ := exBind_eq_ok h
  exact ⟨hv, filled, hf, hout⟩

/-! ## Statistics helper lemmas -/

theorem sortedInsert_length {α : Type} (le : α → α → Bool) (x : α) (l : List α) :
    (sortedInsert le x l).length = l.length + 1 := by
  induction l with
  | nil => rfl
  | cons y ys ih =>
    simp only [sortedInsert]
    by_cases h : le x y
    · simp [h]
    · simp [h, ih]

theorem listSort_length {α : Type} (le : α → α → Bool) (l : List α) :
    (listSort le l).length = l.length := by
  induction l with
  | nil => rfl
  | cons x xs ih => simp [listSort, sortedInsert_length, ih]

theorem meanQ_eq_none {xs : List ℚ} (h : meanQ xs = none) : xs = [] := by
  unfold meanQ at h
  by_cases he : xs.isEmpty
  · exact List.isEmpty_iff.mp he
  · rw [if_neg he] at h
    cases h

theorem medianQ_eq_none {xs : List ℚ} (h : medianQ xs = none) : xs = [] := by
  unfold medianQ percentileQ at h
  cases hs : qSort xs with
  | cons y ys => rw [hs] at h; cases h
  | nil =>
    have := listSort_length (fun a b => decide (a ≤ b)) xs
    rw [show listSort (fun a b => decide (a ≤ b)) xs = qSort xs from rfl, hs] at this
    exact List.length_eq_zero.mp this.symm

theorem numericFillValue_ok_none {m : String} {cs : List Cell}
    (h : numericFillValue m cs = .ok none) : cellNums cs = [] := by
  unfold numericFillValue at h
  by_cases h1 : m == "mean"
  · rw [if_pos h1] at h
    cases hm : meanQ (cellNums cs) with
    | some q => rw [hm] at h; cases h
    | none => exact meanQ_eq_none hm
  · rw [if_neg h1] at h
    by_cases h2 : m == "median"
    · rw [if_pos h2] at h
      cases hm : medianQ (cellNums cs) with
      | some q => rw [hm] at h; cases h
      | none => exact medianQ_eq_none hm
    · rw [if_neg h2] at h
      by_cases h3 : m == "mode"
      · rw [if_pos h3] at h
        cases hm : modeQ (cellNums cs) with
        | some q => rw [hm] at h; cases h
        | none => rw [hm] at h; cases h
      · rw [if_neg h3] at h
        cases h

theorem fillCol_getElem_missing {cs : List Cell} {i : ℕ} {v : Cell}
    (h : cs[i]? = some Cell.missing) : (fillCol cs (some v))[i]? = some v := by
  simp only [fillCol, List.getElem?_map, h, Option.map_some]
  simp

theorem exPure_def {α : Type} (a : α) : (pure a : Except String α) = Except.ok a := rfl

/-- C1 counterexample: with mean fill and min-max scaling fitted on
`a = [10, 20]` (fit-time mean 15, scaler min 10 / max 20), transforming
`a = [0, NaN]` yields `-1` for the missing cell — the fill used the
transform table's own mean 0, not the fit-time mean 15, which would have
scaled to `1/2 ≠ -1`. -/
theorem C1_counterexample :
    (do
      let st0 ← numericInit exCfgN
      let st ← numericFit exCfgN st0 exFitN
      numericTransform id exCfgN st exTransN) =
      .ok (⟨[("a", [.num (-1), .num (-1)])]⟩ : Table) ∧
    meanQ (cellNums (exFitN.getCol "a")) = some 15 ∧
    scaleVal id .minmax ⟨10, 20⟩ 15 = 1 / 2 ∧
    ((-1 : ℚ) ≠ 1 / 2) := by
  refine ⟨?_, ?_, ?_, by norm_num⟩
  · simp +decide only [numericInit, setup_scalers, exCfgN, numericFit, numericTransform,
      validate_input, expectedColumns, Table.hasCol, exFitN, exTransN,
      numericColumns, columnsByType, numeric_handle_missing, fillFold,
      List.foldlM, numericFillValue, meanQ, cellNums, List.filterMap_cons,
      Table.getCol, List.find?, fillCol, Table.setCol, numericScaleFold,
      colApplyFold, lookupA, insertA, fitScaler, scaleCell, scaleVal, zeroOne,
      exBind_ok, exPure_def, Except.map, List.map, List.foldl, List.filter, List.any,
      List.isEmpty, List.sum, List.length, varQ, ite_true, ite_false]
    norm_num [List.filterMap_cons, scaleCell, scaleVal, zeroOne, List.foldl, List.foldr]
  · norm_num [meanQ, cellNums, exFitN, Table.getCol, List.find?, List.filterMap_cons]
  · norm_num [scaleVal, zeroOne]

/-- C1 (amended): a transform-time missing cell is filled with the
statistic of the transform table's own column (then scaled by the fit-time
scaler when one exists) — the fill statistic is recomputed from the
transform input, not taken from the fit table. -/
theorem C1_fill_recomputed_from_transform_table
    (sqrtQ : ℚ → ℚ) (cfg : Config) (st : NumericState) (T out : Table)
    (hnd : (numericColumns cfg).Nodup)
    (h : numericTransform sqrtQ cfg st T = .ok out)
    (col : String) (hcol : col ∈ numericColumns cfg)
    (i : ℕ) (hmiss : (T.getCol col)[i]? = some Cell.missing)
    (hne : cellNums (T.getCol col) ≠ []) :
    ∃ v, numericFillValue cfg.numeric.handle_missing (T.getCol col) = .ok (some v) ∧
      (out.getCol col)[i]? = some (match lookupA st.scalers col with
        | some p => scaleCell sqrtQ st.scalerClass p v
        | none => v) := by
  obtain ⟨hv, df, hdf, hout⟩ := numericTransform_ok_elim h
  obtain ⟨w, hw, hdfcol⟩ :=
    fillFold_ok_getCol_mem (fun v => fillCol_nil v) hnd hdf hcol
  cases w with
  | none =>
    exact absurd (numericFillValue_ok_none hw) hne
  | some v =>
    refine ⟨v, hw, ?_⟩
    have hdfi : (df.getCol col)[i]? = some v := by
      rw [hdfcol]
      exact fillCol_getElem_missing hmiss
    have hhas : df.hasCol col = true := Table.hasCol_of_getElem_getCol hdfi
    subst hout
    unfold numericScaleFold
    rw [colApplyFold_getCol_mem _ hnd hcol hhas]
    cases hl : lookupA st.scalers col with
    | some p =>
      simp only [hl, List.getElem?_map, hdfi, Option.map_some]
      simp
    | none =>
      simp only [hl, hdfi]

/-- Witness for the amended C1 theorem at the concrete counterexample
input. -/
theorem C1_amended_witness :
    ∃ v, numericFillValue "mean" (exTransN.getCol "a") = .ok (some v) ∧
      ((⟨[("a", [Cell.num (-1), Cell.num (-1)])]⟩ : Table).getCol "a")[1]? =
        some (match lookupA [("a", (⟨10, 20⟩ : ScalerParams))] "a" with
          | some p => scaleCell id ScalerClass.minmax p v
          | none => v) :=
  C1_fill_recomputed_from_transform_table id exCfgN
    ⟨ScalerClass.minmax, [("a", ⟨10, 20⟩)]⟩ exTransN
    ⟨[("a", [Cell.num (-1), Cell.num (-1)])]⟩
    (by decide)
    (by simp +decide only [numericTransform, validate_input, expectedColumns,
          Table.hasCol, exCfgN, exTransN, numericColumns, columnsByType,
          numeric_handle_missing, fillFold, List.foldlM, numericFillValue,
          meanQ, cellNums, List.filterMap_cons, Table.getCol, List.find?,
          fillCol, Table.setCol, numericScaleFold, colApplyFold, lookupA,
          scaleCell, scaleVal, zeroOne, exBind_ok, exPure_def, List.map,
          List.foldl, List.filter, List.any, List.isEmpty, List.sum,
          List.length, ite_true, ite_false]
        norm_num [List.filterMap_cons, scaleCell, scaleVal, zeroOne,
          List.foldl, List.foldr])
    "a" (by decide) 1 (by decide) (by decide)

/-! ## Claim C3 -/

theorem foldlM_ok_head {α β : Type} {f : β → α → Except String β} {x : α}
    {xs : List α} {b r : β} (h : (x :: xs).foldlM f b = .ok r) :
    ∃ b', f b x = .ok b' := by
  simp only [List.foldlM] at h
  obtain ⟨b', hb', _⟩ := exBind_eq_ok h
  exact ⟨b', hb'⟩

theorem fillFold_ok_head {β : Type} {F : List Cell → Except String β}
    {G : List Cell → β → List Cell} {col : String} {cols : List String}
    {data df' : Table} (h : fillFold F G (col :: cols) data = .ok df') :
    ∃ v, F (data.getCol col) = .ok v := by
  simp only [fillFold, List.foldlM] at h
  obtain ⟨df₁, h₁, _⟩ := exBind_eq_ok h
  obtain ⟨v, hv, _⟩ := exBind_eq_ok h₁
  exact ⟨v, hv⟩

theorem catFitStep_ok_setup_encoder {cfg : Config} {filled : Table} {st st' : CatState}
    {col : String} (h : catFitStep cfg filled st col = .ok st') :
    ∃ k, setup_encoder cfg.categorical.encoding = .ok k := by
  unfold catFitStep at h
  obtain ⟨k, hk, _⟩ := exBind_eq_ok h
  exact ⟨k, hk⟩

/-- C3 counterexample: the unknown categorical missing-value method
`"bogus"` is not rejected anywhere — construction takes no enum into
account, and fit followed by transform succeeds end to end, silently
treating the unknown method as the sentinel policy (the missing cell is
filled with `'MISSING'` and encoded). -/
theorem C3_counterexample :
    exCfgBogus.categorical.handle_missing = "bogus" ∧
    catInit = (⟨[], []⟩ : CatState) ∧
    (do
      let st ← catFit exCfgBogus catInit exFitCityMissing
      catTransform exCfgBogus st exFitCityMissing) =
      .ok (⟨[("city", [.num 0, .num 1])]⟩ : Table) ∧
    cat_handle_missing "bogus" exFitCityMissing ["city"] =
      .ok (⟨[("city", [.str "A", .str "MISSING"])]⟩ : Table) := by
  exact ⟨rfl, rfl, by decide, by decide⟩

/-- C3 (amended): an unknown numeric scaling method is fatal at
construction; an unknown numeric missing-value method and an unknown
categorical encoding method are fatal, but only at first fit/transform use
(construction succeeds); an unknown categorical missing-value method is
never an error — it is silently defaulted to the sentinel `'MISSING'`
fill. -/
theorem C3_unknown_enum_behavior :
    (∀ cfg : Config, cfg.numeric.scaling ∉ ["standard", "minmax", "robust"] →
      numericInit cfg = .error ("Unknown scaling method: " ++ cfg.numeric.scaling)) ∧
    (∀ (m : String) (cs : List Cell), m ∉ ["mean", "median", "mode"] →
      numericFillValue m cs = .error ("Unknown missing value handling method: " ++ m)) ∧
    (∀ (cfg : Config) (st : NumericState) (data : Table),
      cfg.numeric.handle_missing ∉ ["mean", "median", "mode"] →
      numericColumns cfg ≠ [] →
      ∀ st', numericFit cfg st data ≠ .ok st') ∧
    (∀ m : String, m ∉ ["label", "onehot"] →
      setup_encoder m = .error ("Unknown encoding method: " ++ m)) ∧
    (∀ (cfg : Config) (st : CatState) (data : Table),
      cfg.categorical.encoding ∉ ["label", "onehot"] →
      catColumns cfg ≠ [] →
      ∀ st', catFit cfg st data ≠ .ok st') ∧
    (∀ (m : String) (data : Table) (cols : List String), ¬(m == "mode") = true →
      ∃ df, cat_handle_missing m data cols = .ok df ∧
        (cols.Nodup → ∀ col ∈ cols,
          df.getCol col = fillCol (data.getCol col) (some (.str "MISSING")))) := by
  have hval : ∀ (m : String) (cs : List Cell), m ∉ ["mean", "median", "mode"] →
      numericFillValue m cs = .error ("Unknown missing value handling method: " ++ m) := by
    intro m cs hm
    simp only [List.mem_cons, not_or] at hm
    obtain ⟨h1, h2, h3, _⟩ := hm
    unfold numericFillValue
    rw [if_neg (by simpa using h1), if_neg (by simpa using h2),
      if_neg (by simpa using h3)]
  have henc : ∀ m : String, m ∉ ["label", "onehot"] →
      setup_encoder m = .error ("Unknown encoding method: " ++ m) := by
    intro m hm
    simp only [List.mem_cons, not_or] at hm
    obtain ⟨h1, h2, _⟩ := hm
    unfold setup_encoder
    rw [if_neg (by simpa using h1), if_neg (by simpa using h2)]
  refine ⟨?_, hval, ?_, henc, ?_, ?_⟩
  · intro cfg hm
    simp only [List.mem_cons, not_or] at hm
    obtain ⟨h1, h2, h3, _⟩ := hm
    unfold numericInit setup_scalers
    rw [if_neg (by simpa using h1), if_neg (by simpa using h2),
      if_neg (by simpa using h3)]
    rfl
  · intro cfg st data hm hcols st' hok
    obtain ⟨hv, filled, hf, _⟩ := numericFit_ok_elim hok
    cases hc : numericColumns cfg with
    | nil => exact hcols hc
    | cons col rest =>
      rw [hc] at hf
      obtain ⟨v, hv'⟩ := fillFold_ok_head hf
      rw [hval cfg.numeric.handle_missing _ hm] at hv'
      cases hv'
  · intro cfg st data hm hcols st' hok
    obtain ⟨hv, filled, hf, hfold⟩ := catFit_ok_elim hok
    cases hc : catColumns cfg with
    | nil => exact hcols hc
    | cons col rest =>
      rw [hc] at hfold
      obtain ⟨st₁, hst₁⟩ := foldlM_ok_head hfold
      obtain ⟨k, hk⟩ := catFitStep_ok_setup_encoder hst₁
      rw [henc cfg.categorical.encoding hm] at hk
      cases hk
  · intro m data cols hm
    have htotal : ∀ cs, ∃ v, catFillValue m cs = .ok v := by
      intro cs
      refine ⟨.str "MISSING", ?_⟩
      unfold catFillValue
      rw [if_neg hm]
    obtain ⟨df, hdf⟩ := fillFold_ok_of_total htotal cols data
    refine ⟨df, hdf, ?_⟩
    intro hnd col hcol
    obtain ⟨v, hv, hout⟩ :=
      @fillFold_ok_getCol_mem _ (catFillValue m) _ (fun v => rfl) _ hnd _ _ hdf _ hcol
    have hv' : v = Cell.str "MISSING" := by
      unfold catFillValue at hv
      rw [if_neg hm] at hv
      cases hv
      rfl
    rw [hout, hv']

/-- Witness instantiating every hypothesis of the amended C3 theorem at
concrete unknown-enum configurations. -/
theorem C3_unknown_enum_witness :
    numericInit exCfgScaleBogus =
      .error ("Unknown scaling method: " ++ exCfgScaleBogus.numeric.scaling) ∧
    numericFillValue "bogus" [] =
      .error ("Unknown missing value handling method: " ++ "bogus") ∧
    (∀ st', numericFit exCfgNumBogus ⟨.standard, []⟩ exFitN ≠ .ok st') ∧
    setup_encoder "bogus" = .error ("Unknown encoding method: " ++ "bogus") ∧
    (∀ st', catFit exCfgEncBogus catInit exFitCity ≠ .ok st') ∧
    (∃ df, cat_handle_missing "bogus" exFitCityMissing ["city"] = .ok df ∧
      (["city"].Nodup → ∀ col ∈ ["city"],
        df.getCol col = fillCol (exFitCityMissing.getCol col) (some (.str "MISSING")))) :=
  ⟨C3_unknown_enum_behavior.1 exCfgScaleBogus (by decide),
   C3_unknown_enum_behavior.2.1 "bogus" [] (by decide),
   C3_unknown_enum_behavior.2.2.1 exCfgNumBogus ⟨.standard, []⟩ exFitN
     (by decide) (by decide),
   C3_unknown_enum_behavior.2.2.2.1 "bogus" (by decide),
   C3_unknown_enum_behavior.2.2.2.2.1 exCfgEncBogus catInit exFitCity
     (by decide) (by decide),
   C3_unknown_enum_behavior.2.2.2.2.2 "bogus" exFitCityMissing ["city"] (by decide)⟩

/-! ## Dictionary lemmas -/

theorem find?_append_none {α : Type} {p : α → Bool} {l₁ : List α} (l₂ : List α)
    (h : l₁.find? p = none) : (l₁ ++ l₂).find? p = l₂.find? p := by
  induction l₁ with
  | nil => rfl
  | cons x xs ih =>
    rw [List.find?_cons] at h
    cases hp : p x with
    | true => rw [hp] at h; cases h
    | false =>
      rw [hp] at h
      rw [List.cons_append, List.find?_cons_of_neg _ (by simp [hp])]
      exact ih h

theorem find?_append_some {α : Type} {p : α → Bool} {l₁ : List α} (l₂ : List α)
    {x : α} (h : l₁.find? p = some x) : (l₁ ++ l₂).find? p = some x := by
  induction l₁ with
  | nil => cases h
  | cons y ys ih =>
    rw [List.find?_cons] at h
    cases hp : p y with
    | true =>
      rw [hp] at h
      rw [List.cons_append, List.find?_cons_of_pos _ (by simp [hp])]
      exact h
    | false =>
      rw [hp] at h
      rw [List.cons_append, List.find?_cons_of_neg _ (by simp [hp])]
      exact ih h

theorem lookupA_replace {β : Type} (k c : String) (v : β) (m : List (String × β)) :
    lookupA (m.map (fun p => if p.1 == k then (k, v) else p)) c =
      if c = k then (lookupA m k).map (fun _ => v) else lookupA m c := by
  induction m with
  | nil => by_cases hc : c = k <;> simp [lookupA, hc]
  | cons p rest ih =>
    simp only [List.map_cons, lookupA] at ih ⊢
    by_cases hc : c = k
    · subst hc
      simp only [eq_self_iff_true, if_true] at ih ⊢
      by_cases hp : (p.1 == c) = true
      · rw [if_pos hp, List.find?_cons_of_pos _ (by simp),
          List.find?_cons_of_pos _ (by simpa using hp)]
        simp
      · rw [if_neg hp, List.find?_cons_of_neg _ (by simpa using hp),
          List.find?_cons_of_neg _ (by simpa using hp), ih]
    · simp only [if_neg hc] at ih ⊢
      by_cases hp : (p.1 == k) = true
      · rw [if_pos hp,
          List.find?_cons_of_neg _
            (by simp only [beq_iff_eq]; exact fun he => hc he.symm),
          List.find?_cons_of_neg _
            (by simp only [beq_iff_eq] at hp ⊢; rw [hp];
                exact fun he => hc he.symm),
          ih]
      · rw [if_neg hp]
        by_cases hpc : (p.1 == c) = true
        · rw [List.find?_cons_of_pos _ (by simpa using hpc),
            List.find?_cons_of_pos _ (by simpa using hpc)]
        · rw [List.find?_cons_of_neg _ (by simpa using hpc),
            List.find?_cons_of_neg _ (by simpa using hpc), ih]

theorem lookupA_insertA {β : Type} (m : List (String × β)) (k c : String) (v : β) :
    lookupA (insertA m k v) c = if c = k then some v else lookupA m c := by
  unfold insertA
  cases hfind : List.find? (fun p => p.1 == k) m with
  | some q =>
    rw [if_pos (by simp [hfind])]
    rw [lookupA_replace]
    by_cases hc : c = k
    · subst hc
      have : lookupA m c = some q.2 := by simp [lookupA, hfind]
      rw [if_pos rfl, if_pos rfl, this]
      rfl
    · rw [if_neg hc, if_neg hc]
  | none =>
    rw [if_neg (by simp [hfind])]
    by_cases hc : c = k
    · subst hc
      simp only [lookupA, eq_self_iff_true, if_true]
      rw [find?_append_none _ hfind, List.find?_cons_of_pos _ (by simp)]
      simp
    · simp only [lookupA, if_neg hc]
      cases hm : List.find? (fun p => p.1 == c) m with
      | some r =>
        simp only [find?_append_some _ hm, hm]
      | none =>
        simp only [find?_append_none _ hm, hm]
        rw [List.find?_cons_of_neg _
          (by simp only [beq_iff_eq]; exact fun he => hc he.symm)]
        rfl

/-! ## Categorical fit characterization -/

theorem catFitStep_eq {cfg : Config} {filled : Table} {st : CatState} {col : String}
    {kind : EncoderKind} (hk : setup_encoder cfg.categorical.encoding = .ok kind) :
    catFitStep cfg filled st col = .ok
      ⟨insertA st.encoders col (encValue kind filled col),
       insertA st.encoding_maps col (mapValue kind filled col)⟩ := by
  unfold catFitStep
  rw [hk, exBind_ok]
  cases kind <;> rfl

theorem catFit_fold_lookup {cfg : Config} {filled : Table} {kind : EncoderKind}
    (hk : setup_encoder cfg.categorical.encoding = .ok kind) :
    ∀ (cols : List String) (st st' : CatState),
      cols.foldlM (catFitStep cfg filled) st = .ok st' →
      (∀ c, lookupA st'.encoders c =
        if c ∈ cols then some (encValue kind filled c) else lookupA st.encoders c) ∧
      (∀ c, lookupA st'.encoding_maps c =
        if c ∈ cols then some (mapValue kind filled c) else lookupA st.encoding_maps c) := by
  intro cols
  induction cols with
  | nil =>
    intro st st' h
    simp only [List.foldlM] at h
    cases exPure_eq_ok h
    exact ⟨fun c => by simp, fun c => by simp⟩
  | cons c0 rest ih =>
    intro st st' h
    simp only [List.foldlM] at h
    obtain ⟨st₁, hst₁, hrest⟩ := exBind_eq_ok h
    rw [catFitStep_eq hk] at hst₁
    cases hst₁
    obtain ⟨ihe, ihm⟩ := ih _ _ hrest
    constructor
    · intro c
      rw [ihe c]
      by_cases hr : c ∈ rest
      · rw [if_pos hr, if_pos (List.mem_cons_of_mem _ hr)]
      · rw [if_neg hr]
        simp only [lookupA_insertA]
        by_cases hc : c = c0
        · subst hc
          rw [if_pos rfl, if_pos (List.mem_cons_self _ _)]
        · rw [if_neg hc, if_neg (by
            intro hm
            rcases List.mem_cons.mp hm with h | h
            · exact hc h
            · exact hr h)]
    · intro c
      rw [ihm c]
      by_cases hr : c ∈ rest
      · rw [if_pos hr, if_pos (List.mem_cons_of_mem _ hr)]
      · rw [if_neg hr]
        simp only [lookupA_insertA]
        by_cases hc : c = c0
        · subst hc
          rw [if_pos rfl, if_pos (List.mem_cons_self _ _)]
        · rw [if_neg hc, if_neg (by
            intro hm
            rcases List.mem_cons.mp hm with h | h
            · exact hc h
            · exact hr h)]

theorem catFit_onehot_lookup {cfg : Config} {F : Table} {st : CatState}
    (henc : cfg.categorical.encoding = "onehot")
    (h : catFit cfg catInit F = .ok st) :
    ∀ c ∈ catColumns cfg, ∃ cats,
      lookupA st.encoders c = some (.onehot cats) ∧
      lookupA st.encoding_maps c = some (.featureNames (featureNamesOf c cats)) := by
  obtain ⟨hv, filled, hf, hfold⟩ := catFit_ok_elim h
  have hk : setup_encoder cfg.categorical.encoding = .ok .onehot := by
    rw [henc]
    rfl
  obtain ⟨he, hm⟩ := catFit_fold_lookup hk _ _ _ hfold
  intro c hc
  refine ⟨fitClasses filled c, ?_, ?_⟩
  · rw [he c, if_pos hc]
    rfl
  · rw [hm c, if_pos hc]
    rfl

theorem catFit_label_lookup {cfg : Config} {F : Table} {st : CatState}
    (henc : cfg.categorical.encoding = "label")
    (h : catFit cfg catInit F = .ok st) :
    ∀ (c : String) (enc : Encoder), lookupA st.encoders c = some enc →
      ∃ classes, enc = .label classes := by
  obtain ⟨hv, filled, hf, hfold⟩ := catFit_ok_elim h
  have hk : setup_encoder cfg.categorical.encoding = .ok .label := by
    rw [henc]
    rfl
  obtain ⟨he, _⟩ := catFit_fold_lookup hk _ _ _ hfold
  intro c enc henc'
  rw [he c] at henc'
  by_cases hc : c ∈ catColumns cfg
  · rw [if_pos hc] at henc'
    cases henc'
    exact ⟨fitClasses filled c, rfl⟩
  · rw [if_neg hc] at henc'
    cases henc'

/-! ## One-hot block and drop lemmas -/

theorem Table.hasCol_dropCol_imp {t : Table} {c nm : String}
    (h : (t.dropCol c).hasCol nm = true) : t.hasCol nm = true := by
  simp only [Table.dropCol, Table.hasCol, List.any_eq_true] at h ⊢
  obtain ⟨p, hp, hpe⟩ := h
  exact ⟨p, List.mem_of_mem_filter hp, hpe⟩

theorem Table.hasCol_dropCol_self (t : Table) (c : String) :
    (t.dropCol c).hasCol c = false := by
  simp only [Table.dropCol, Table.hasCol]
  rw [Bool.eq_false_iff]
  intro h
  rw [List.any_eq_true] at h
  obtain ⟨p, hp, hpe⟩ := h
  have := List.of_mem_filter hp
  simp only [hpe] at this
  cases this

theorem onehotBlock_names (names cats : List String) (cells : List Cell) :
    (⟨onehotBlock names cats cells⟩ : Table).names = (names.zip cats).map Prod.fst := by
  simp only [Table.names, onehotBlock, List.map_map]
  rfl

theorem onehotBlock_hasCol {names cats : List String} {cells : List Cell} {nm : String}
    (h : (⟨onehotBlock names cats cells⟩ : Table).hasCol nm = true) : nm ∈ names := by
  rw [Table.hasCol_iff_mem_names, onehotBlock_names] at h
  obtain ⟨p, hp, rfl⟩ := List.mem_map.mp h
  exact (List.of_mem_zip hp).1

theorem onehotBlock_getCol {names cats : List String} {cells : List Cell} {nm : String}
    (hlen : names.length = cats.length) (hnm : nm ∈ names) :
    ∃ cat ∈ cats, (⟨onehotBlock names cats cells⟩ : Table).getCol nm =
      cells.map (fun c => if c = Cell.str cat then Cell.num 1 else Cell.num 0) := by
  induction names generalizing cats with
  | nil => cases hnm
  | cons n ns ih =>
    cases cats with
    | nil => cases hlen
    | cons cat cs =>
      by_cases hn : nm = n
      · subst hn
        refine ⟨cat, List.mem_cons_self _ _, ?_⟩
        simp only [onehotBlock, List.zip_cons_cons, List.map_cons, Table.getCol]
        rw [List.find?_cons_of_pos _ (by simp)]
      · rcases List.mem_cons.mp hnm with h | h
        · exact absurd h hn
        · obtain ⟨cat', hcat', hget⟩ := ih (by simpa using hlen) h
          refine ⟨cat', List.mem_cons_of_mem _ hcat', ?_⟩
          simp only [onehotBlock, List.zip_cons_cons, List.map_cons, Table.getCol] at hget ⊢
          rw [List.find?_cons_of_neg _ (by
            simp only [beq_iff_eq]
            exact fun he => hn he.symm)]
          exact hget

/-! ## mapM and findIdx? lemmas -/

theorem mapM_cons {α β : Type} (f : α → Except String β) (x : α) (xs : List α) :
    (x :: xs).mapM f =
      (f x >>= fun b => xs.mapM f >>= fun bs => pure (b :: bs)) := by
  rw [← List.mapM'_eq_mapM, ← List.mapM'_eq_mapM]
  rfl

theorem mapM_ok_forall {α β : Type} {f : α → Except String β} :
    ∀ {l : List α} {bs : List β}, l.mapM f = .ok bs →
      ∀ x ∈ l, ∃ b, f x = .ok b := by
  intro l
  induction l with
  | nil => intro bs _ x hx; cases hx
  | cons y ys ih =>
    intro bs h x hx
    rw [mapM_cons] at h
    obtain ⟨b, hb, h₂⟩ := exBind_eq_ok h
    rcases List.mem_cons.mp hx with rfl | hx'
    · exact ⟨b, hb⟩
    · obtain ⟨bs', hbs', _⟩ := exBind_eq_ok h₂
      exact ih hbs' x hx'

theorem mapM_error_pred {α β : Type} {f : α → Except String β} {P : String → Prop}
    (hP : ∀ x e, f x = .error e → P e) :
    ∀ {l : List α} {e : String}, l.mapM f = .error e → P e := by
  intro l
  induction l with
  | nil => intro e h; cases h
  | cons y ys ih =>
    intro e h
    rw [mapM_cons] at h
    cases hy : f y with
    | error e' =>
      rw [hy, exBind_error] at h
      cases h
      exact hP y _ hy
    | ok b =>
      rw [hy, exBind_ok] at h
      cases hys : ys.mapM f with
      | error e' =>
        rw [hys, exBind_error] at h
        cases h
        exact ih hys
      | ok bs =>
        rw [hys, exBind_ok] at h
        cases h

theorem mapM_error_of_mem {α β : Type} {f : α → Except String β} {x : α}
    {e₀ : String} (hx : f x = .error e₀) :
    ∀ {l : List α}, x ∈ l → ∃ e, l.mapM f = .error e := by
  intro l
  induction l with
  | nil => intro h; cases h
  | cons y ys ih =>
    intro h
    rw [mapM_cons]
    rcases List.mem_cons.mp h with rfl | hmem
    · rw [hx, exBind_error]
      exact ⟨e₀, rfl⟩
    · cases hy : f y with
      | error e' =>
        rw [exBind_error]
        exact ⟨e', rfl⟩
      | ok b =>
        rw [exBind_ok]
        obtain ⟨e, he⟩ := ih hmem
        rw [he, exBind_error]
        exact ⟨e, rfl⟩

theorem labelTransformCell_str_error {classes : List String} {v : String}
    (hv : v ∉ classes) :
    labelTransformCell classes (.str v) =
      .error ("y contains previously unseen labels: " ++ v) := by
  show (match List.findIdx? (fun x => x == v) classes with
    | some i => Except.ok (Cell.num (i : ℚ))
    | none => Except.error ("y contains previously unseen labels: " ++ v)) =
    Except.error ("y contains previously unseen labels: " ++ v)
  rw [List.findIdx?_eq_none_iff.mpr (fun x hx => by
    simp only [beq_eq_false_iff_ne]
    exact fun he => hv (he ▸ hx))]

theorem labelTransformCell_error_unseen {classes : List String} {c : Cell} {e : String}
    (h : labelTransformCell classes c = .error e) : unseenError e := by
  cases c with
  | str s =>
    have h' : (match List.findIdx? (fun x => x == s) classes with
      | some i => Except.ok (Cell.num (i : ℚ))
      | none => Except.error ("y contains previously unseen labels: " ++ s)) =
        Except.error e := h
    cases hf : classes.findIdx? (fun x => x == s) with
    | some i => rw [hf] at h'; cases h'
    | none =>
      rw [hf] at h'
      cases h'
      exact Or.inr ⟨s, rfl⟩
  | missing => cases h; exact Or.inl rfl
  | num q => cases h; exact Or.inl rfl

/-! ## Categorical transform loop lemmas -/

theorem catTransformStep_none {st : CatState} {df : Table} {col : String}
    (h : lookupA st.encoders col = none) :
    catTransformStep st df col = .ok df := by
  unfold catTransformStep
  rw [h]
  rfl

theorem catTransformStep_label {st : CatState} {df : Table} {col : String}
    {classes : List String}
    (h : lookupA st.encoders col = some (.label classes)) :
    catTransformStep st df col =
      ((df.getCol col).mapM (labelTransformCell classes) >>=
        fun cells => pure (df.setCol col cells)) := by
  unfold catTransformStep
  rw [h]

theorem catTransformStep_onehot {st : CatState} {df : Table} {col : String}
    {cats ns : List String}
    (h1 : lookupA st.encoders col = some (.onehot cats))
    (h2 : lookupA st.encoding_maps col = some (.featureNames ns)) :
    catTransformStep st df col =
      .ok ((df.dropCol col).append ⟨onehotBlock ns cats (df.getCol col)⟩) := by
  unfold catTransformStep
  rw [h1, h2]
  rfl

theorem catTransformStep_onehot_nomap {st : CatState} {df : Table} {col : String}
    {cats : List String}
    (h1 : lookupA st.encoders col = some (.onehot cats))
    (h2 : ∀ ns, lookupA st.encoding_maps col ≠ some (.featureNames ns)) :
    catTransformStep st df col = .error ("KeyError: " ++ col) := by
  unfold catTransformStep
  rw [h1]
  cases hm : lookupA st.encoding_maps col with
  | none => rfl
  | some em =>
    cases em with
    | featureNames ns => exact absurd hm (h2 ns)
    | labelMap m => rfl

theorem catTransformCols_cons {st : CatState} {col : String} {cols : List String}
    {df : Table} :
    catTransformCols st (col :: cols) df =
      (catTransformStep st df col >>= fun df₁ => catTransformCols st cols df₁) := by
  rfl

theorem catTransformCols_nil {st : CatState} {df : Table} :
    catTransformCols st [] df = .ok df := rfl

theorem catTransformCols_pres {st : CatState} :
    ∀ (cols : List String) (df df' : Table),
      catTransformCols st cols df = .ok df' →
      ∀ nm, nm ∉ cols → df.hasCol nm = true →
        df'.getCol nm = df.getCol nm ∧ df'.hasCol nm = true := by
  intro cols
  induction cols with
  | nil =>
    intro df df' h nm _ hhas
    cases exPure_eq_ok h
    exact ⟨rfl, hhas⟩
  | cons c0 rest ih =>
    intro df df' h nm hnm hhas
    have hne : nm ≠ c0 := fun he => hnm (by rw [he]; exact List.mem_cons_self _ _)
    have hrest : nm ∉ rest := fun hm => hnm (List.mem_cons_of_mem _ hm)
    rw [catTransformCols_cons] at h
    obtain ⟨df₁, h₁, h₂⟩ := exBind_eq_ok h
    cases hl : lookupA st.encoders c0 with
    | none =>
      rw [catTransformStep_none hl] at h₁
      cases h₁
      exact ih _ _ h₂ nm hrest hhas
    | some enc =>
      cases enc with
      | label classes =>
        rw [catTransformStep_label hl] at h₁
        obtain ⟨cells, hcells, hdf₁⟩ := exBind_eq_ok h₁
        cases exPure_eq_ok hdf₁
        have := ih _ _ h₂ nm hrest (by rw [Table.hasCol_setCol]; exact hhas)
        rwa [Table.getCol_setCol_ne _ hne] at this
      | onehot cats =>
        cases hm : lookupA st.encoding_maps c0 with
        | none =>
          rw [catTransformStep_onehot_nomap hl (by rw [hm]; intro ns h; cases h)] at h₁
          cases h₁
        | some em =>
          cases em with
          | labelMap m =>
            rw [catTransformStep_onehot_nomap hl (by rw [hm]; intro ns h; cases h)] at h₁
            cases h₁
          | featureNames ns =>
            rw [catTransformStep_onehot hl hm] at h₁
            cases h₁
            have hhas₁ : ((df.dropCol c0).append
                ⟨onehotBlock ns cats (df.getCol c0)⟩).hasCol nm = true := by
              rw [Table.hasCol_append, Table.hasCol_dropCol_ne df hne, hhas]
              rfl
            have := ih _ _ h₂ nm hrest hhas₁
            rwa [Table.getCol_append_left _ (by
                rw [Table.hasCol_dropCol_ne df hne]; exact hhas),
              Table.getCol_dropCol_ne df hne] at this

theorem catTransformCols_new_names {st : CatState} :
    ∀ (cols : List String) (df df' : Table),
      catTransformCols st cols df = .ok df' →
      ∀ nm, df'.hasCol nm = true → df.hasCol nm = false →
        ∃ c ∈ cols, ∃ ns, lookupA st.encoding_maps c = some (.featureNames ns) ∧
          nm ∈ ns := by
  intro cols
  induction cols with
  | nil =>
    intro df df' h nm hnm hdf
    cases exPure_eq_ok h
    rw [hnm] at hdf
    cases hdf
  | cons c0 rest ih =>
    intro df df' h nm hnm hdf
    rw [catTransformCols_cons] at h
    obtain ⟨df₁, h₁, h₂⟩ := exBind_eq_ok h
    cases hl : lookupA st.encoders c0 with
    | none =>
      rw [catTransformStep_none hl] at h₁
      cases h₁
      obtain ⟨c, hc, hrest⟩ := ih _ _ h₂ nm hnm hdf
      exact ⟨c, List.mem_cons_of_mem _ hc, hrest⟩
    | some enc =>
      cases enc with
      | label classes =>
        rw [catTransformStep_label hl] at h₁
        obtain ⟨cells, hcells, hdf₁⟩ := exBind_eq_ok h₁
        cases exPure_eq_ok hdf₁
        obtain ⟨c, hc, hrest⟩ := ih _ _ h₂ nm hnm (by
          rw [Table.hasCol_setCol]
          exact hdf)
        exact ⟨c, List.mem_cons_of_mem _ hc, hrest⟩
      | onehot cats =>
        cases hm : lookupA st.encoding_maps c0 with
        | none =>
          rw [catTransformStep_onehot_nomap hl (by rw [hm]; intro ns h'; cases h')] at h₁
          cases h₁
        | some em =>
          cases em with
          | labelMap m =>
            rw [catTransformStep_onehot_nomap hl (by rw [hm]; intro ns h'; cases h')] at h₁
            cases h₁
          | featureNames ns =>
            rw [catTransformStep_onehot hl hm] at h₁
            cases h₁
            cases hb : ((df.dropCol c0).append
                ⟨onehotBlock ns cats (df.getCol c0)⟩).hasCol nm with
            | false =>
              obtain ⟨c, hc, hrest⟩ := ih _ _ h₂ nm hnm hb
              exact ⟨c, List.mem_cons_of_mem _ hc, hrest⟩
            | true =>
              rw [Table.hasCol_append] at hb
              cases hd : (df.dropCol c0).hasCol nm with
              | true =>
                have := Table.hasCol_dropCol_imp hd
                rw [this] at hdf
                cases hdf
              | false =>
                rw [hd, Bool.false_or] at hb
                exact ⟨c0, List.mem_cons_self _ _, ns, hm, onehotBlock_hasCol hb⟩

theorem catTransformCols_onehot_ok {st : CatState} :
    ∀ (cols : List String) (df : Table),
      (∀ c ∈ cols, ∃ cats ns, lookupA st.encoders c = some (.onehot cats) ∧
        lookupA st.encoding_maps c = some (.featureNames ns)) →
      ∃ out, catTransformCols st cols df = .ok out := by
  intro cols
  induction cols with
  | nil => exact fun df _ => ⟨df, rfl⟩
  | cons c0 rest ih =>
    intro df hall
    obtain ⟨cats, ns, hl, hm⟩ := hall c0 (List.mem_cons_self _ _)
    obtain ⟨out, hout⟩ :=
      ih ((df.dropCol c0).append ⟨onehotBlock ns cats (df.getCol c0)⟩)
        (fun c hc => hall c (List.mem_cons_of_mem _ hc))
    refine ⟨out, ?_⟩
    rw [catTransformCols_cons, catTransformStep_onehot hl hm, exBind_ok]
    exact hout

theorem catTransformCols_label_error {st : CatState} :
    ∀ (cols : List String) (df : Table) (col : String) (classes : List String)
      (v : String) (i : ℕ),
      (∀ c ∈ cols, ∀ enc, lookupA st.encoders c = some enc →
        ∃ cls, enc = .label cls) →
      cols.Nodup → col ∈ cols →
      lookupA st.encoders col = some (.label classes) →
      (df.getCol col)[i]? = some (.str v) → v ∉ classes →
      ∃ e, catTransformCols st cols df = .error e ∧ unseenError e := by
  intro cols
  induction cols with
  | nil => intro df col classes v i _ _ hcol; cases hcol
  | cons c0 rest ih =>
    intro df col classes v i hall hnd hcol hcls hcell hv
    rw [catTransformCols_cons]
    by_cases hc0 : col = c0
    · subst hc0
      rw [catTransformStep_label hcls]
      have hmem : Cell.str v ∈ df.getCol col := by
        have := List.getElem?_eq_some_iff.mp hcell
        obtain ⟨hlt, hget⟩ := this
        rw [← hget]
        exact List.getElem_mem _
      obtain ⟨e, he⟩ :=
        mapM_error_of_mem (labelTransformCell_str_error hv) hmem
      rw [he, exBind_error, exBind_error]

      exact ⟨e, rfl, mapM_error_pred
        (fun x e' hx => labelTransformCell_error_unseen hx) he⟩
    · have hcol' : col ∈ rest := by
        rcases List.mem_cons.mp hcol with h | h
        · exact absurd h hc0
        · exact h
      cases hl : lookupA st.encoders c0 with
      | none =>
        rw [catTransformStep_none hl, exBind_ok]
        exact ih df col classes v i
          (fun c hc => hall c (List.mem_cons_of_mem _ hc))
          (List.Nodup.of_cons hnd) hcol' hcls hcell hv
      | some enc =>
        obtain ⟨cls0, rfl⟩ := hall c0 (List.mem_cons_self _ _) enc hl
        rw [catTransformStep_label hl]
        cases hmap : (df.getCol c0).mapM (labelTransformCell cls0) with
        | error e =>
          rw [exBind_error, exBind_error]
          exact ⟨e, rfl, mapM_error_pred
            (fun x e' hx => labelTransformCell_error_unseen hx) hmap⟩
        | ok cells =>
          rw [exBind_ok, exPure_def, exBind_ok]
          have hne : col ≠ c0 := hc0
          have hcell' : ((df.setCol c0 cells).getCol col)[i]? = some (.str v) := by
            rw [Table.getCol_setCol_ne _ hne]
            exact hcell
          exact ih (df.setCol c0 cells) col classes v i
            (fun c hc => hall c (List.mem_cons_of_mem _ hc))
            (List.Nodup.of_cons hnd) hcol' hcls hcell' hv

theorem catTransform_eq {cfg : Config} {st : CatState} {T df : Table}
    (hv : validate_input cfg T = true)
    (hf : cat_handle_missing cfg.categorical.handle_missing T (catColumns cfg) = .ok df) :
    catTransform cfg st T = catTransformCols st (catColumns cfg) df := by
  unfold catTransform
  rw [hv]
  simp only [Bool.not_true]
  rw [if_neg (by simp), hf, exBind_ok]

theorem catTransformCols_append {st : CatState} (l₁ l₂ : List String) (df : Table) :
    catTransformCols st (l₁ ++ l₂) df =
      (catTransformCols st l₁ df >>= fun d => catTransformCols st l₂ d) := by
  induction l₁ generalizing df with
  | nil =>
    rw [List.nil_append, catTransformCols_nil, exBind_ok]
  | cons c cs ih =>
    rw [List.cons_append, catTransformCols_cons, catTransformCols_cons]
    cases hs : catTransformStep st df c with
    | error e => rw [exBind_error, exBind_error, exBind_error]
    | ok d₁ => rw [exBind_ok, exBind_ok, ih]

theorem onehotBlock_hasCol_of_mem {names cats : List String} {cells : List Cell}
    {nm : String} (hlen : names.length = cats.length) (hnm : nm ∈ names) :
    (⟨onehotBlock names cats cells⟩ : Table).hasCol nm = true := by
  rw [Table.hasCol_iff_mem_names, onehotBlock_names,
    List.map_fst_zip _ _ (le_of_eq hlen)]
  exact hnm

theorem Table.hasCol_dropCol_false {t : Table} {c nm : String}
    (h : t.hasCol nm = false) : (t.dropCol c).hasCol nm = false := by
  cases hv : (t.dropCol c).hasCol nm with
  | false => rfl
  | true =>
    rw [Table.hasCol_dropCol_imp hv] at h
    cases h

/-- C4: for a fitted categorical transform and a transform-time category
value absent from the fit-time vocabulary (with generated indicator names
fresh, i.e. colliding with no input column, no declared categorical column,
and no other column's generated names): under one-hot encoding the
transform succeeds and that row receives `0` in every generated indicator
column; under label encoding the transform raises an unseen-labels
(`UnseenCategory`) error. -/
theorem C4_unseen_onehot_zero_label_error :
    (∀ (cfg : Config) (F T : Table) (st : CatState) (df : Table)
       (col v : String) (cats : List String) (i : ℕ),
      cfg.categorical.encoding = "onehot" →
      catFit cfg catInit F = .ok st →
      validate_input cfg T = true →
      cat_handle_missing cfg.categorical.handle_missing T (catColumns cfg) = .ok df →
      (catColumns cfg).Nodup →
      col ∈ catColumns cfg →
      lookupA st.encoders col = some (.onehot cats) →
      (df.getCol col)[i]? = some (.str v) →
      v ∉ cats →
      (∀ nm ∈ featureNamesOf col cats,
        df.hasCol nm = false ∧ nm ∉ catColumns cfg ∧
        ∀ c' ∈ catColumns cfg, c' ≠ col →
          ∀ ns, lookupA st.encoding_maps c' = some (.featureNames ns) → nm ∉ ns) →
      ∃ out, catTransform cfg st T = .ok out ∧
        ∀ nm ∈ featureNamesOf col cats, (out.getCol nm)[i]? = some (.num 0)) ∧
    (∀ (cfg : Config) (F T : Table) (st : CatState) (df : Table)
       (col v : String) (classes : List String) (i : ℕ),
      cfg.categorical.encoding = "label" →
      catFit cfg catInit F = .ok st →
      validate_input cfg T = true →
      cat_handle_missing cfg.categorical.handle_missing T (catColumns cfg) = .ok df →
      (catColumns cfg).Nodup →
      col ∈ catColumns cfg →
      lookupA st.encoders col = some (.label classes) →
      (df.getCol col)[i]? = some (.str v) →
      v ∉ classes →
      ∃ e, catTransform cfg st T = .error e ∧ unseenError e) := by
  constructor
  · intro cfg F T st df col v cats i henc hfit hv hfill hnd hcol hlook hcell hvc hfresh
    have hA1 := catFit_onehot_lookup henc hfit
    have hall : ∀ c ∈ catColumns cfg, ∃ cats' ns,
        lookupA st.encoders c = some (.onehot cats') ∧
        lookupA st.encoding_maps c = some (.featureNames ns) := by
      intro c hc
      obtain ⟨cats', h1, h2⟩ := hA1 c hc
      exact ⟨cats', featureNamesOf c cats', h1, h2⟩
    obtain ⟨out, hout⟩ := catTransformCols_onehot_ok (catColumns cfg) df hall
    refine ⟨out, by rw [catTransform_eq hv hfill]; exact hout, ?_⟩
    intro nm hnm
    obtain ⟨hdfnm, hnmcols, hother⟩ := hfresh nm hnm
    -- identify the stored feature names of `col`
    obtain ⟨cats₀, hl₀, hm₀⟩ := hA1 col hcol
    rw [hlook] at hl₀
    cases hl₀
    -- split the column list at `col`
    obtain ⟨pre, post, hsplit⟩ := List.append_of_mem hcol
    have hhascol : df.hasCol col = true := Table.hasCol_of_getElem_getCol hcell
    have hndsplit := hsplit ▸ hnd
    have hnodup := List.nodup_append.mp hndsplit
    have hcolpre : col ∉ pre := fun hp =>
      (hnodup.2.2 hp (List.mem_cons_self _ _)).elim
    have hcolpost : col ∉ post := by
      have := hnodup.2.1
      exact List.Nodup.not_mem this
    rw [hsplit, catTransformCols_append] at hout
    obtain ⟨df₁, hpre, hrest⟩ := exBind_eq_ok hout
    rw [catTransformCols_cons] at hrest
    obtain ⟨df₂, hstep, hpost⟩ := exBind_eq_ok hrest
    -- phase 1: `col`'s filled cells survive, `nm` does not yet exist
    obtain ⟨hget₁, hhas₁⟩ := catTransformCols_pres pre df df₁ hpre col hcolpre hhascol
    have hnm₁ : df₁.hasCol nm = false := by
      cases hb : df₁.hasCol nm with
      | false => rfl
      | true =>
        obtain ⟨c', hc', ns', hmc', hnmns'⟩ :=
          catTransformCols_new_names pre df df₁ hpre nm hb hdfnm
        have hc'cols : c' ∈ catColumns cfg := by
          rw [hsplit]
          exact List.mem_append_left _ hc'
        have hc'ne : c' ≠ col := fun he => hcolpre (he ▸ hc')
        exact absurd hnmns' (hother c' hc'cols hc'ne ns' hmc')
    -- phase 2: the one-hot step of `col`
    rw [catTransformStep_onehot hlook hm₀] at hstep
    cases hstep
    have hlen : (featureNamesOf col cats).length = cats.length := by
      simp [featureNamesOf]
    obtain ⟨cat, hcat, hblock⟩ :=
      @onehotBlock_getCol _ _ (df₁.getCol col) _ hlen hnm
    have hdrop : ((df₁.dropCol col).hasCol nm) = false :=
      Table.hasCol_dropCol_false hnm₁
    have hget₂ : ((df₁.dropCol col).append
        ⟨onehotBlock (featureNamesOf col cats) cats (df₁.getCol col)⟩).getCol nm =
        (df₁.getCol col).map
          (fun c => if c = Cell.str cat then Cell.num 1 else Cell.num 0) := by
      rw [Table.getCol_append_right _ hdrop]
      exact hblock
    have hhas₂ : ((df₁.dropCol col).append
        ⟨onehotBlock (featureNamesOf col cats) cats (df₁.getCol col)⟩).hasCol nm = true := by
      rw [Table.hasCol_append, onehotBlock_hasCol_of_mem hlen hnm]
      simp
    -- phase 3: later columns leave the indicator column alone
    have hnmpost : nm ∉ post := fun hp => hnmcols (by
      rw [hsplit]
      exact List.mem_append_right _ (List.mem_cons_of_mem _ hp))
    obtain ⟨hgetout, _⟩ :=
      catTransformCols_pres post _ out hpost nm hnmpost hhas₂
    rw [hgetout, hget₂, hget₁, List.getElem?_map, hcell]
    have hvne : Cell.str v ≠ Cell.str cat := by
      intro he
      cases he
      exact hvc hcat
    simp [hvne]
  · intro cfg F T st df col v classes i henc hfit hv hfill hnd hcol hlook hcell hvc
    have hA2 := catFit_label_lookup henc hfit
    obtain ⟨e, he, hP⟩ :=
      catTransformCols_label_error (catColumns cfg) df col classes v i
        (fun c _ enc h => hA2 c enc h) hnd hcol hlook hcell hvc
    refine ⟨e, ?_, hP⟩
    rw [catTransform_eq hv hfill]
    exact he

/-- Witness for C4 at the spec's own scenario: fit on `city = [A, B]`,
transform `city = [C]`. -/
theorem C4_witness :
    (∃ out, catTransform exCfgOnehot
        ⟨[("city", .onehot ["A", "B"])], [("city", .featureNames ["city_A", "city_B"])]⟩
        exTransCity = .ok out ∧
      ∀ nm ∈ featureNamesOf "city" ["A", "B"],
        (out.getCol nm)[0]? = some (.num 0)) ∧
    (∃ e, catTransform exCfgLabel
        ⟨[("city", .label ["A", "B"])], [("city", .labelMap [("A", 0), ("B", 1)])]⟩
        exTransCity = .error e ∧ unseenError e) := by
  constructor
  · exact C4_unseen_onehot_zero_label_error.1 exCfgOnehot exFitCity exTransCity
      _ exTransCity "city" "C" ["A", "B"] 0 rfl (by decide) (by decide) (by decide)
      (by decide) (by decide) (by decide) (by decide) (by decide)
      (by
        intro nm hnm
        have hfn : featureNamesOf "city" ["A", "B"] = ["city_A", "city_B"] := by decide
        rw [hfn] at hnm
        have hnm' : nm = "city_A" ∨ nm = "city_B" := by simpa using hnm
        have hthird : ∀ c' ∈ catColumns exCfgOnehot, c' ≠ "city" →
            ∀ ns, lookupA ([("city", EncMap.featureNames ["city_A", "city_B"])]) c' =
              some (.featureNames ns) → nm ∉ ns := by
          intro c' hc' hne ns _
          exact absurd (List.mem_singleton.mp hc') hne
        rcases hnm' with rfl | rfl
        · exact ⟨by decide, by decide, hthird⟩
        · exact ⟨by decide, by decide, hthird⟩)
  · exact C4_unseen_onehot_zero_label_error.2 exCfgLabel exFitCity exTransCity
      _ exTransCity "city" "C" ["A", "B"] 0 rfl (by decide) (by decide) (by decide)
      (by decide) (by decide) (by decide) (by decide) (by decide)

/-! ## Row-count preservation (claim C5) -/

theorem mapM_ok_length {α β : Type} {f : α → Except String β} :
    ∀ {l : List α} {bs : List β}, l.mapM f = .ok bs → bs.length = l.length := by
  intro l
  induction l with
  | nil =>
    intro bs h
    cases exPure_eq_ok h
    rfl
  | cons x xs ih =>
    intro bs h
    rw [mapM_cons] at h
    obtain ⟨b, hb, h₂⟩ := exBind_eq_ok h
    obtain ⟨bs', hbs', hpure⟩ := exBind_eq_ok h₂
    cases exPure_eq_ok hpure
    simp [ih hbs']

theorem mapM_ok_mem_image {α β : Type} {f : α → Except String β} :
    ∀ {l : List α} {bs : List β}, l.mapM f = .ok bs →
      ∀ b ∈ bs, ∃ a ∈ l, f a = .ok b := by
  intro l
  induction l with
  | nil =>
    intro bs h b hb
    cases exPure_eq_ok h
    cases hb
  | cons x xs ih =>
    intro bs h b hb
    rw [mapM_cons] at h
    obtain ⟨b₀, hb₀, h₂⟩ := exBind_eq_ok h
    obtain ⟨bs', hbs', hpure⟩ := exBind_eq_ok h₂
    cases exPure_eq_ok hpure
    rcases List.mem_cons.mp hb with rfl | hb'
    · exact ⟨x, List.mem_cons_self _ _, hb₀⟩
    · obtain ⟨a, ha, hfa⟩ := ih hbs' b hb'
      exact ⟨a, List.mem_cons_of_mem _ ha, hfa⟩

theorem textTransform_allRows {env : TextEnv} {cfg : Config} {T out : Table} {n : ℕ}
    (h : textTransform env cfg T = .ok out) (hr : T.allRows n) : out.allRows n := by
  obtain ⟨hv, hout⟩ := textTransform_ok_elim h
  subst hout
  exact colApplyFold_allRows _
    (fun col f hf cs => by cases hf; simp) _ hr

theorem numericTransform_allRows {sqrtQ : ℚ → ℚ} {cfg : Config} {st : NumericState}
    {T out : Table} {n : ℕ}
    (h : numericTransform sqrtQ cfg st T = .ok out) (hr : T.allRows n) :
    out.allRows n := by
  obtain ⟨hv, df, hdf, hout⟩ := numericTransform_ok_elim h
  subst hout
  have hdfrows : df.allRows n :=
    fillFold_ok_allRows (fun cs v => fillCol_length cs v) hdf hr
  refine colApplyFold_allRows _ ?_ _ hdfrows
  intro col f hf cs
  cases hl : lookupA st.scalers col with
  | some p =>
    rw [hl] at hf
    cases hf
    simp
  | none =>
    rw [hl] at hf
    cases hf

theorem catColumns_hasCol {cfg : Config} {T : Table}
    (hv : validate_input cfg T = true) {c : String} (hc : c ∈ catColumns cfg) :
    T.hasCol c = true := by
  refine (validate_input_true_iff cfg T).mp hv c ?_
  simp only [catColumns, columnsByType, expectedColumns, List.mem_map] at hc ⊢
  obtain ⟨spec, hspec, rfl⟩ := hc
  exact ⟨spec, List.mem_of_mem_filter hspec, rfl⟩

theorem onehotBlock_allRows (names cats : List String) (cells : List Cell) :
    ∀ p ∈ onehotBlock names cats cells, (p.2 : List Cell).length = cells.length := by
  intro p hp
  simp only [onehotBlock, List.mem_map] at hp
  obtain ⟨q, hq, rfl⟩ := hp
  simp

theorem catTransformCols_allRows {st : CatState} :
    ∀ (cols : List String) (df out : Table) (n : ℕ), cols.Nodup →
      (∀ c ∈ cols, df.hasCol c = true) → df.allRows n →
      catTransformCols st cols df = .ok out → out.allRows n := by
  intro cols
  induction cols with
  | nil =>
    intro df out n _ _ hr h
    cases exPure_eq_ok h
    exact hr
  | cons c0 rest ih =>
    intro df out n hnd hhas hr h
    rw [catTransformCols_cons] at h
    obtain ⟨df₁, h₁, h₂⟩ := exBind_eq_ok h
    cases hl : lookupA st.encoders c0 with
    | none =>
      rw [catTransformStep_none hl] at h₁
      cases h₁
      exact ih _ _ _ (List.Nodup.of_cons hnd)
        (fun c hc => hhas c (List.mem_cons_of_mem _ hc)) hr h₂
    | some enc =>
      cases enc with
      | label classes =>
        rw [catTransformStep_label hl] at h₁
        obtain ⟨cells, hcells, hpure⟩ := exBind_eq_ok h₁
        cases exPure_eq_ok hpure
        have hlen : cells.length = n := by
          rw [mapM_ok_length hcells]
          exact Table.getCol_length_of_allRows hr (hhas c0 (List.mem_cons_self _ _))
        refine ih _ _ _ (List.Nodup.of_cons hnd) ?_
          (Table.allRows_setCol hr hlen) h₂
        intro c hc
        rw [Table.hasCol_setCol]
        exact hhas c (List.mem_cons_of_mem _ hc)
      | onehot cats =>
        cases hm : lookupA st.encoding_maps c0 with
        | none =>
          rw [catTransformStep_onehot_nomap hl (by rw [hm]; intro ns h'; cases h')] at h₁
          cases h₁
        | some em =>
          cases em with
          | labelMap m =>
            rw [catTransformStep_onehot_nomap hl (by rw [hm]; intro ns h'; cases h')] at h₁
            cases h₁
          | featureNames ns =>
            rw [catTransformStep_onehot hl hm] at h₁
            cases h₁
            have hcellslen : (df.getCol c0).length = n :=
              Table.getCol_length_of_allRows hr (hhas c0 (List.mem_cons_self _ _))
            have hrows₁ : ((df.dropCol c0).append
                ⟨onehotBlock ns cats (df.getCol c0)⟩).allRows n := by
              refine Table.allRows_append (Table.allRows_dropCol hr c0) ?_
              intro p hp
              rw [onehotBlock_allRows ns cats (df.getCol c0) p hp]
              exact hcellslen
            refine ih _ _ _ (List.Nodup.of_cons hnd) ?_ hrows₁ h₂
            intro c hc
            have hne : c ≠ c0 := fun he => (List.Nodup.not_mem hnd) (he ▸ hc)
            rw [Table.hasCol_append, Table.hasCol_dropCol_ne df hne,
              hhas c (List.mem_cons_of_mem _ hc)]
            rfl

theorem catColumns_sublist_nodup {cfg : Config}
    (hnd : (expectedColumns cfg).Nodup) : (catColumns cfg).Nodup := by
  refine List.Nodup.sublist ?_ hnd
  exact List.Sublist.map _ (List.filter_sublist _)

theorem catTransform_allRows {cfg : Config} {st : CatState} {T out : Table} {n : ℕ}
    (hnd : (expectedColumns cfg).Nodup)
    (h : catTransform cfg st T = .ok out) (hr : T.allRows n) : out.allRows n := by
  obtain ⟨hv, df, hdf, hcols⟩ := catTransform_ok_elim h
  have hdfrows : df.allRows n :=
    fillFold_ok_allRows (fun cs v => fillCol_length cs (some v)) hdf hr
  refine catTransformCols_allRows _ _ _ _ (catColumns_sublist_nodup hnd) ?_ hdfrows hcols
  intro c hc
  rw [Table.hasCol_eq_of_names_eq (fillFold_ok_names hdf) c]
  exact catColumns_hasCol hv hc

theorem select_allRows {t slice : Table} {cs : List String} {n : ℕ}
    (h : t.select cs = .ok slice) (hr : t.allRows n) : slice.allRows n := by
  unfold Table.select at h
  obtain ⟨cols, hcols, hpure⟩ := exBind_eq_ok h
  cases exPure_eq_ok hpure
  intro p hp
  obtain ⟨c, hc, hfc⟩ := mapM_ok_mem_image hcols p hp
  by_cases hhas : t.hasCol c = true
  · rw [if_pos hhas] at hfc
    cases exPure_eq_ok hfc
    exact Table.getCol_length_of_allRows hr hhas
  · rw [if_neg hhas] at hfc
    cases hfc

theorem concatTables_allRows {ts : List Table} {n : ℕ}
    (hall : ∀ t ∈ ts, t.allRows n) : (concatTables ts).allRows n := by
  intro p hp
  simp only [concatTables, List.mem_flatten, List.mem_map] at hp
  obtain ⟨l, ⟨t, ht, rfl⟩, hpl⟩ := hp
  exact hall t ht p hpl

theorem factoryTransText_allRows {env : TextEnv} {cfg : Config} {tp : Option Unit}
    {data : Table} {lt : List Table} {n : ℕ}
    (h : factoryTransText env cfg tp data = .ok lt) (hr : data.allRows n) :
    ∀ t ∈ lt, t.allRows n := by
  unfold factoryTransText at h
  cases tp with
  | none =>
    cases exPure_eq_ok h
    intro t ht
    cases ht
  | some _ =>
    dsimp only at h
    cases hE : (columnsByType cfg "text").isEmpty with
    | true =>
      rw [hE, if_pos rfl] at h
      cases exPure_eq_ok h
      intro t ht
      cases ht
    | false =>
      rw [hE, if_neg (by simp)] at h
      obtain ⟨slice, hslice, h'⟩ := exBind_eq_ok h
      obtain ⟨o, ho, hpure⟩ := exBind_eq_ok h'
      cases exPure_eq_ok hpure
      intro t ht
      rcases List.mem_singleton.mp ht with rfl
      exact textTransform_allRows ho (select_allRows hslice hr)

theorem factoryTransNumeric_allRows {sqrtQ : ℚ → ℚ} {cfg : Config}
    {np : Option NumericState} {data : Table} {ln : List Table} {n : ℕ}
    (h : factoryTransNumeric sqrtQ cfg np data = .ok ln) (hr : data.allRows n) :
    ∀ t ∈ ln, t.allRows n := by
  unfold factoryTransNumeric at h
  cases np with
  | none =>
    cases exPure_eq_ok h
    intro t ht
    cases ht
  | some ns =>
    dsimp only at h
    cases hE : (columnsByType cfg "numeric").isEmpty with
    | true =>
      rw [hE, if_pos rfl] at h
      cases exPure_eq_ok h
      intro t ht
      cases ht
    | false =>
      rw [hE, if_neg (by simp)] at h
      obtain ⟨slice, hslice, h'⟩ := exBind_eq_ok h
      obtain ⟨o, ho, hpure⟩ := exBind_eq_ok h'
      cases exPure_eq_ok hpure
      intro t ht
      rcases List.mem_singleton.mp ht with rfl
      exact numericTransform_allRows ho (select_allRows hslice hr)

theorem factoryTransCat_allRows {cfg : Config} {cp : Option CatState}
    {data : Table} {lc : List Table} {n : ℕ}
    (hnd : (expectedColumns cfg).Nodup)
    (h : factoryTransCat cfg cp data = .ok lc) (hr : data.allRows n) :
    ∀ t ∈ lc, t.allRows n := by
  unfold factoryTransCat at h
  cases cp with
  | none =>
    cases exPure_eq_ok h
    intro t ht
    cases ht
  | some cs =>
    dsimp only at h
    cases hE : (columnsByType cfg "categorical").isEmpty with
    | true =>
      rw [hE, if_pos rfl] at h
      cases exPure_eq_ok h
      intro t ht
      cases ht
    | false =>
      rw [hE, if_neg (by simp)] at h
      obtain ⟨slice, hslice, h'⟩ := exBind_eq_ok h
      obtain ⟨o, ho, hpure⟩ := exBind_eq_ok h'
      cases exPure_eq_ok hpure
      intro t ht
      rcases List.mem_singleton.mp ht with rfl
      exact catTransform_allRows hnd ho (select_allRows hslice hr)

theorem factoryTransform_ok_elim {sqrtQ : ℚ → ℚ} {env : TextEnv} {st : Factory}
    {data out : Table} (h : factoryTransform sqrtQ env st data = .ok out) :
    ∃ lt ln lc, factoryTransText env st.config st.textP data = .ok lt ∧
      factoryTransNumeric sqrtQ st.config st.numericP data = .ok ln ∧
      factoryTransCat st.config st.catP data = .ok lc ∧
      ((lt ++ ln ++ lc = [] ∧ out = data) ∨
        (lt ++ ln ++ lc ≠ [] ∧ out = concatTables (lt ++ ln ++ lc))) := by
  unfold factoryTransform at h
  obtain ⟨lt, h1, h⟩ := exBind_eq_ok h
  obtain ⟨ln, h2, h⟩ := exBind_eq_ok h
  obtain ⟨lc, h3, h⟩ := exBind_eq_ok h
  dsimp only at h
  refine ⟨lt, ln, lc, h1, h2, h3, ?_⟩
  cases hE : (lt ++ ln ++ lc).isEmpty with
  | true =>
    rw [hE, if_pos rfl] at h
    cases exPure_eq_ok h
    exact Or.inl ⟨List.isEmpty_iff.mp hE, rfl⟩
  | false =>
    rw [hE, if_neg (by simp)] at h
    cases exPure_eq_ok h
    refine Or.inr ⟨?_, rfl⟩
    intro hnil
    rw [hnil] at hE
    cases hE

theorem factoryTransform_allRows {sqrtQ : ℚ → ℚ} {env : TextEnv} {st : Factory}
    {data out : Table} {n : ℕ} (hnd : (expectedColumns st.config).Nodup)
    (h : factoryTransform sqrtQ env st data = .ok out) (hr : data.allRows n) :
    out.allRows n := by
  obtain ⟨lt, ln, lc, h1, h2, h3, hcase⟩ := factoryTransform_ok_elim h
  rcases hcase with ⟨_, rfl⟩ | ⟨_, rfl⟩
  · exact hr
  · refine concatTables_allRows ?_
    intro t ht
    rcases List.mem_append.mp ht with ht' | hc
    · rcases List.mem_append.mp ht' with htext | hnum
      · exact factoryTransText_allRows h1 hr t htext
      · exact factoryTransNumeric_allRows h2 hr t hnum
    · exact factoryTransCat_allRows hnd h3 hr t hc

theorem mapM_ok_eq_map {α β : Type} (f : α → Except String β) (d : β) :
    ∀ {xs : List α} {ys : List β}, xs.mapM f = .ok ys →
      ys = xs.map (fun x => ((f x).toOption).getD d) := by
  intro xs
  induction xs with
  | nil =>
    intro ys h
    rw [List.mapM_nil] at h
    cases exPure_eq_ok h
    rfl
  | cons x xs ih =>
    intro ys h
    rw [mapM_cons] at h
    obtain ⟨b, hb, h₂⟩ := exBind_eq_ok h
    obtain ⟨bs, hbs, hpure⟩ := exBind_eq_ok h₂
    cases exPure_eq_ok hpure
    rw [List.map_cons, hb, ih hbs]
    rfl

theorem colApplyFold_getCol_map (o : String → Option (List Cell → List Cell))
    (ho : ∀ c f, o c = some f → ∃ g, ∀ cs, f cs = cs.map g) :
    ∀ (cols : List String) (df : Table) (nm : String),
      ∃ F, (colApplyFold o cols df).getCol nm = (df.getCol nm).map F := by
  intro cols
  induction cols with
  | nil =>
    intro df nm
    exact ⟨id, (List.map_id _).symm⟩
  | cons c0 cols ih =>
    intro df nm
    simp only [colApplyFold, List.foldl_cons] at ih ⊢
    cases ho0 : o c0 with
    | none => exact ih df nm
    | some f =>
      obtain ⟨g, hg⟩ := ho c0 f ho0
      obtain ⟨F, hF⟩ := ih (df.setCol c0 (f (df.getCol c0))) nm
      by_cases hnm : nm = c0
      · subst hnm
        by_cases hhas : df.hasCol nm = true
        · refine ⟨F ∘ g, ?_⟩
          rw [hF, Table.getCol_setCol_self, if_pos hhas, hg, List.map_map]
        · have hfalse : df.hasCol nm = false := by simpa using hhas
          refine ⟨F, ?_⟩
          rw [hF, Table.getCol_setCol_self, if_neg hhas,
            Table.getCol_of_not_hasCol hfalse]
      · refine ⟨F, ?_⟩
        rw [hF, Table.getCol_setCol_ne df hnm]

theorem fillFold_ok_getCol_map {β : Type} {F : List Cell → Except String β}
    {G : List Cell → β → List Cell} (hG : ∀ cs v, ∃ g, G cs v = cs.map g) :
    ∀ {cols : List String} {data df' : Table},
      fillFold F G cols data = .ok df' → ∀ nm,
      ∃ f, df'.getCol nm = (data.getCol nm).map f := by
  intro cols
  induction cols with
  | nil =>
    intro data df' h nm
    simp only [fillFold, List.foldlM] at h
    cases exPure_eq_ok h
    exact ⟨id, (List.map_id _).symm⟩
  | cons col cols ih =>
    intro data df' h nm
    simp only [fillFold, List.foldlM] at h ih
    obtain ⟨df₁, h₁, h₂⟩ := exBind_eq_ok h
    obtain ⟨v, hv, hdf₁⟩ := exBind_eq_ok h₁
    replace hdf₁ := exPure_eq_ok hdf₁
    subst hdf₁
    obtain ⟨g, hg⟩ := hG (data.getCol col) v
    obtain ⟨f, hf⟩ := ih h₂ nm
    by_cases hnm : nm = col
    · subst hnm
      by_cases hhas : data.hasCol nm = true
      · refine ⟨f ∘ g, ?_⟩
        rw [hf, Table.getCol_setCol_self, if_pos hhas, hg, List.map_map]
      · have hfalse : data.hasCol nm = false := by simpa using hhas
        refine ⟨f, ?_⟩
        rw [hf, Table.getCol_setCol_self, if_neg hhas,
          Table.getCol_of_not_hasCol hfalse]
    · refine ⟨f, ?_⟩
      rw [hf, Table.getCol_setCol_ne data hnm]

theorem onehot_pairs_getCol {cells : List Cell} :
    ∀ (ps : List (String × String)) {nm : String},
      (⟨ps.map (fun p => (p.1, cells.map (fun c =>
        if c = Cell.str p.2 then Cell.num 1 else Cell.num 0)))⟩ : Table).hasCol nm =
        true →
      ∃ cat, (⟨ps.map (fun p => (p.1, cells.map (fun c =>
        if c = Cell.str p.2 then Cell.num 1 else Cell.num 0)))⟩ : Table).getCol nm =
        cells.map (fun c => if c = Cell.str cat then Cell.num 1 else Cell.num 0) := by
  intro ps
  induction ps with
  | nil =>
    intro nm h
    simp [Table.hasCol] at h
  | cons p ps ih =>
    intro nm h
    by_cases he : p.1 = nm
    · refine ⟨p.2, ?_⟩
      simp only [List.map_cons, Table.getCol]
      rw [List.find?_cons_of_pos _ (by simpa using he)]
    · simp only [List.map_cons, Table.hasCol, List.any_cons] at h
      have hb : (p.1 == nm) = false := by simpa using he
      rw [hb, Bool.false_or] at h
      obtain ⟨cat, hcat⟩ := ih (by simpa [Table.hasCol] using h)
      refine ⟨cat, ?_⟩
      simp only [List.map_cons, Table.getCol] at hcat ⊢
      rw [List.find?_cons_of_neg _ (by simpa using he)]
      exact hcat

theorem onehotTable_getCol_ind {names cats : List String} {cells : List Cell}
    {nm : String}
    (h : (⟨onehotBlock names cats cells⟩ : Table).hasCol nm = true) :
    ∃ cat, (⟨onehotBlock names cats cells⟩ : Table).getCol nm =
      cells.map (fun c => if c = Cell.str cat then Cell.num 1 else Cell.num 0) := by
  unfold onehotBlock at h ⊢
  exact onehot_pairs_getCol (names.zip cats) h

theorem catTransformStep_hasCol_pres {st : CatState} {df df₁ : Table} {col : String}
    (h : catTransformStep st df col = .ok df₁) {c : String} (hne : c ≠ col)
    (hc : df.hasCol c = true) : df₁.hasCol c = true := by
  cases hl : lookupA st.encoders col with
  | none =>
    rw [catTransformStep_none hl] at h
    cases h
    exact hc
  | some enc =>
    cases enc with
    | label classes =>
      rw [catTransformStep_label hl] at h
      obtain ⟨cells, _, hpure⟩ := exBind_eq_ok h
      cases exPure_eq_ok hpure
      rw [Table.hasCol_setCol]
      exact hc
    | onehot cats =>
      cases hm : lookupA st.encoding_maps col with
      | none =>
        rw [catTransformStep_onehot_nomap hl (by rw [hm]; intro ns hh; cases hh)] at h
        cases h
      | some em =>
        cases em with
        | labelMap m =>
          rw [catTransformStep_onehot_nomap hl (by rw [hm]; intro ns hh; cases hh)] at h
          cases h
        | featureNames ns =>
          rw [catTransformStep_onehot hl hm] at h
          cases h
          rw [Table.hasCol_append, Table.hasCol_dropCol_ne df hne, hc]
          rfl

theorem catTransformStep_getCol_map {st : CatState} {df df₁ : Table} {col : String}
    (hcol : df.hasCol col = true) (h : catTransformStep st df col = .ok df₁) :
    ∀ nm, df₁.hasCol nm = true →
      ∃ src, df.hasCol src = true ∧ ∃ g, df₁.getCol nm = (df.getCol src).map g := by
  intro nm hnm
  cases hl : lookupA st.encoders col with
  | none =>
    rw [catTransformStep_none hl] at h
    cases h
    exact ⟨nm, hnm, id, (List.map_id _).symm⟩
  | some enc =>
    cases enc with
    | label classes =>
      rw [catTransformStep_label hl] at h
      obtain ⟨cells, hcells, hpure⟩ := exBind_eq_ok h
      cases exPure_eq_ok hpure
      by_cases he : nm = col
      · subst he
        refine ⟨nm, hcol,
          fun c => ((labelTransformCell classes c).toOption).getD Cell.missing, ?_⟩
        rw [Table.getCol_setCol_self, if_pos hcol]
        exact mapM_ok_eq_map _ Cell.missing hcells
      · rw [Table.hasCol_setCol] at hnm
        refine ⟨nm, hnm, id, ?_⟩
        rw [Table.getCol_setCol_ne df he, List.map_id]
    | onehot cats =>
      cases hm : lookupA st.encoding_maps col with
      | none =>
        rw [catTransformStep_onehot_nomap hl (by rw [hm]; intro ns hh; cases hh)] at h
        cases h
      | some em =>
        cases em with
        | labelMap m =>
          rw [catTransformStep_onehot_nomap hl (by rw [hm]; intro ns hh; cases hh)] at h
          cases h
        | featureNames ns =>
          rw [catTransformStep_onehot hl hm] at h
          cases h
          rw [Table.hasCol_append] at hnm
          cases hd : (df.dropCol col).hasCol nm with
          | true =>
            have hne : nm ≠ col := by
              intro he
              rw [he, Table.hasCol_dropCol_self] at hd
              cases hd
            refine ⟨nm, Table.hasCol_dropCol_imp hd, id, ?_⟩
            rw [Table.getCol_append_left _ hd, Table.getCol_dropCol_ne df hne,
              List.map_id]
          | false =>
            rw [hd, Bool.false_or] at hnm
            obtain ⟨cat, hgc⟩ := onehotTable_getCol_ind hnm
            exact ⟨col, hcol, _, by rw [Table.getCol_append_right _ hd, hgc]⟩

theorem catTransformCols_getCol_map {st : CatState} :
    ∀ (cols : List String) (df out : Table), cols.Nodup →
      (∀ c ∈ cols, df.hasCol c = true) →
      catTransformCols st cols df = .ok out →
      ∀ nm, out.hasCol nm = true →
        ∃ src, df.hasCol src = true ∧ ∃ g, out.getCol nm = (df.getCol src).map g := by
  intro cols
  induction cols with
  | nil =>
    intro df out _ _ h nm hnm
    cases exPure_eq_ok h
    exact ⟨nm, hnm, id, (List.map_id _).symm⟩
  | cons c0 rest ih =>
    intro df out hnd hhas h nm hnm
    rw [catTransformCols_cons] at h
    obtain ⟨df₁, h₁, h₂⟩ := exBind_eq_ok h
    have hhas₁ : ∀ c ∈ rest, df₁.hasCol c = true := by
      intro c hc
      exact catTransformStep_hasCol_pres h₁
        (fun he => (List.Nodup.not_mem hnd) (he ▸ hc))
        (hhas c (List.mem_cons_of_mem _ hc))
    obtain ⟨src₁, hsrc₁, g₁, hg₁⟩ :=
      ih df₁ out (List.Nodup.of_cons hnd) hhas₁ h₂ nm hnm
    obtain ⟨src, hsrc, g₂, hg₂⟩ :=
      catTransformStep_getCol_map (hhas c0 (List.mem_cons_self _ _)) h₁ src₁ hsrc₁
    refine ⟨src, hsrc, g₁ ∘ g₂, ?_⟩
    rw [hg₁, hg₂, List.map_map]

theorem catTransform_getCol_map {cfg : Config} {st : CatState} {T out : Table}
    (hnd : (expectedColumns cfg).Nodup) (h : catTransform cfg st T = .ok out) :
    ∀ nm, out.hasCol nm = true →
      ∃ src, T.hasCol src = true ∧ ∃ f, out.getCol nm = (T.getCol src).map f := by
  obtain ⟨hv, df, hdf, hcols⟩ := catTransform_ok_elim h
  intro nm hnm
  have hdfcols : ∀ c ∈ catColumns cfg, df.hasCol c = true := by
    intro c hc
    rw [Table.hasCol_eq_of_names_eq (fillFold_ok_names hdf) c]
    exact catColumns_hasCol hv hc
  obtain ⟨src, hsrc, g, hg⟩ := catTransformCols_getCol_map _ _ _
    (catColumns_sublist_nodup hnd) hdfcols hcols nm hnm
  obtain ⟨f, hf⟩ := fillFold_ok_getCol_map
    (fun cs v => ⟨fun c => if c = Cell.missing then v else c, rfl⟩) hdf src
  rw [Table.hasCol_eq_of_names_eq (fillFold_ok_names hdf) src] at hsrc
  refine ⟨src, hsrc, g ∘ f, ?_⟩
  rw [hg, hf, List.map_map]

theorem textTransform_getCol_map {env : TextEnv} {cfg : Config} {T out : Table}
    (h : textTransform env cfg T = .ok out) :
    out.names = T.names ∧
      ∀ nm, ∃ F, out.getCol nm = (T.getCol nm).map F := by
  obtain ⟨hv, hout⟩ := textTransform_ok_elim h
  subst hout
  refine ⟨colApplyFold_names _ _ _, ?_⟩
  intro nm
  exact colApplyFold_getCol_map
    (fun _ => some (fun cs => cs.map (fun c => .str (preprocess_text env cfg.text c))))
    (fun c f hf => by
      dsimp only at hf
      cases hf
      exact ⟨_, fun cs => rfl⟩) (textColumns cfg) T nm

theorem numericTransform_getCol_map {sqrtQ : ℚ → ℚ} {cfg : Config}
    {st : NumericState} {T out : Table}
    (h : numericTransform sqrtQ cfg st T = .ok out) :
    out.names = T.names ∧
      ∀ nm, ∃ F, out.getCol nm = (T.getCol nm).map F := by
  obtain ⟨hv, df, hdf, hout⟩ := numericTransform_ok_elim h
  subst hout
  refine ⟨(colApplyFold_names _ _ _).trans (fillFold_ok_names hdf), ?_⟩
  intro nm
  obtain ⟨f₁, hf₁⟩ := fillFold_ok_getCol_map
    (fun cs v => by
      cases v with
      | none => exact ⟨id, (List.map_id cs).symm⟩
      | some w => exact ⟨fun c => if c = Cell.missing then w else c, rfl⟩) hdf nm
  obtain ⟨f₂, hf₂⟩ := colApplyFold_getCol_map
    (fun col => match lookupA st.scalers col with
      | some p => some (fun cs => cs.map (scaleCell sqrtQ st.scalerClass p))
      | none => none)
    (fun c f hf => by
      dsimp only at hf
      cases hl : lookupA st.scalers c with
      | none => rw [hl] at hf; cases hf
      | some p =>
        rw [hl] at hf
        cases hf
        exact ⟨_, fun cs => rfl⟩) (numericColumns cfg) df nm
  refine ⟨f₂ ∘ f₁, ?_⟩
  show (numericScaleFold sqrtQ st (numericColumns cfg) df).getCol nm =
    (T.getCol nm).map (f₂ ∘ f₁)
  unfold numericScaleFold
  rw [hf₂, hf₁, List.map_map]

theorem select_getCol_aux {t : Table} :
    ∀ (cs : List String) (cols : List (String × List Cell)),
      cs.mapM (fun c => if t.hasCol c then Except.ok (c, t.getCol c)
        else Except.error ("KeyError: " ++ c)) = .ok cols →
      ∀ nm, (⟨cols⟩ : Table).hasCol nm = true →
        t.hasCol nm = true ∧ (⟨cols⟩ : Table).getCol nm = t.getCol nm := by
  intro cs
  induction cs with
  | nil =>
    intro cols h nm hnm
    rw [List.mapM_nil] at h
    cases exPure_eq_ok h
    simp [Table.hasCol] at hnm
  | cons c cs ih =>
    intro cols h nm hnm
    rw [mapM_cons] at h
    obtain ⟨b, hb, h'⟩ := exBind_eq_ok h
    obtain ⟨bs, hbs, hp⟩ := exBind_eq_ok h'
    cases exPure_eq_ok hp
    cases hhc : t.hasCol c with
    | false =>
      rw [hhc] at hb
      rw [if_neg (by simp)] at hb
      cases hb
    | true =>
      rw [hhc, if_pos rfl] at hb
      cases hb
      by_cases he : c = nm
      · subst he
        refine ⟨hhc, ?_⟩
        simp only [Table.getCol]
        rw [List.find?_cons_of_pos _ (by simp)]
      · simp only [Table.hasCol, List.any_cons] at hnm
        have hbne : (c == nm) = false := by simpa using he
        rw [hbne, Bool.false_or] at hnm
        obtain ⟨h₁, h₂⟩ := ih bs hbs nm (by simpa [Table.hasCol] using hnm)
        refine ⟨h₁, ?_⟩
        simp only [Table.getCol] at h₂ ⊢
        rw [List.find?_cons_of_neg _ (by simpa using he)]
        exact h₂

theorem select_hasCol_getCol {T slice : Table} {cs : List String}
    (h : T.select cs = .ok slice) {nm : String} (hnm : slice.hasCol nm = true) :
    T.hasCol nm = true ∧ slice.getCol nm = T.getCol nm := by
  unfold Table.select at h
  obtain ⟨cols, hcols, hpure⟩ := exBind_eq_ok h
  cases exPure_eq_ok hpure
  exact select_getCol_aux cs cols hcols nm hnm

theorem concatTables_getCol_mem :
    ∀ {ts : List Table} {nm : String}, (concatTables ts).hasCol nm = true →
      ∃ t ∈ ts, t.hasCol nm = true ∧ (concatTables ts).getCol nm = t.getCol nm := by
  intro ts
  induction ts with
  | nil =>
    intro nm h
    simp [concatTables, Table.hasCol] at h
  | cons t ts ih =>
    intro nm h
    have hsplit : concatTables (t :: ts) = t.append (concatTables ts) := by
      simp [concatTables, Table.append]
    rw [hsplit] at h ⊢
    rw [Table.hasCol_append] at h
    cases hT : t.hasCol nm with
    | true =>
      exact ⟨t, List.mem_cons_self _ _, hT, Table.getCol_append_left _ hT⟩
    | false =>
      rw [hT, Bool.false_or] at h
      obtain ⟨u, hu, huhas, huget⟩ := ih h
      exact ⟨u, List.mem_cons_of_mem _ hu, huhas,
        (Table.getCol_append_right _ hT).trans huget⟩

theorem factoryTransText_mem_elim {env : TextEnv} {cfg : Config} {tp : Option Unit}
    {data : Table} {lt : List Table}
    (h : factoryTransText env cfg tp data = .ok lt) {t : Table} (ht : t ∈ lt) :
    ∃ slice, data.select (columnsByType cfg "text") = .ok slice ∧
      textTransform env cfg slice = .ok t := by
  unfold factoryTransText at h
  cases tp with
  | none =>
    cases exPure_eq_ok h
    cases ht
  | some u =>
    dsimp only at h
    cases hE : (columnsByType cfg "text").isEmpty with
    | true =>
      rw [hE, if_pos rfl] at h
      cases exPure_eq_ok h
      cases ht
    | false =>
      rw [hE, if_neg (by simp)] at h
      obtain ⟨slice, hslice, h'⟩ := exBind_eq_ok h
      obtain ⟨o, ho, hpure⟩ := exBind_eq_ok h'
      cases exPure_eq_ok hpure
      rcases List.mem_singleton.mp ht with rfl
      exact ⟨slice, hslice, ho⟩

theorem factoryTransNumeric_mem_elim {sqrtQ : ℚ → ℚ} {cfg : Config}
    {np : Option NumericState} {data : Table} {ln : List Table}
    (h : factoryTransNumeric sqrtQ cfg np data = .ok ln) {t : Table} (ht : t ∈ ln) :
    ∃ ns slice, np = some ns ∧
      data.select (columnsByType cfg "numeric") = .ok slice ∧
      numericTransform sqrtQ cfg ns slice = .ok t := by
  unfold factoryTransNumeric at h
  cases np with
  | none =>
    cases exPure_eq_ok h
    cases ht
  | some ns =>
    dsimp only at h
    cases hE : (columnsByType cfg "numeric").isEmpty with
    | true =>
      rw [hE, if_pos rfl] at h
      cases exPure_eq_ok h
      cases ht
    | false =>
      rw [hE, if_neg (by simp)] at h
      obtain ⟨slice, hslice, h'⟩ := exBind_eq_ok h
      obtain ⟨o, ho, hpure⟩ := exBind_eq_ok h'
      cases exPure_eq_ok hpure
      rcases List.mem_singleton.mp ht with rfl
      exact ⟨ns, slice, rfl, hslice, ho⟩

theorem factoryTransCat_mem_elim {cfg : Config} {cp : Option CatState}
    {data : Table} {lc : List Table}
    (h : factoryTransCat cfg cp data = .ok lc) {t : Table} (ht : t ∈ lc) :
    ∃ cs slice, cp = some cs ∧
      data.select (columnsByType cfg "categorical") = .ok slice ∧
      catTransform cfg cs slice = .ok t := by
  unfold factoryTransCat at h
  cases cp with
  | none =>
    cases exPure_eq_ok h
    cases ht
  | some cs =>
    dsimp only at h
    cases hE : (columnsByType cfg "categorical").isEmpty with
    | true =>
      rw [hE, if_pos rfl] at h
      cases exPure_eq_ok h
      cases ht
    | false =>
      rw [hE, if_neg (by simp)] at h
      obtain ⟨slice, hslice, h'⟩ := exBind_eq_ok h
      obtain ⟨o, ho, hpure⟩ := exBind_eq_ok h'
      cases exPure_eq_ok hpure
      rcases List.mem_singleton.mp ht with rfl
      exact ⟨cs, slice, rfl, hslice, ho⟩

theorem factoryTransform_getCol_map {sqrtQ : ℚ → ℚ} {env : TextEnv} {st : Factory}
    {T out : Table} (hnd : (expectedColumns st.config).Nodup)
    (h : factoryTransform sqrtQ env st T = .ok out) :
    ∀ nm, out.hasCol nm = true →
      ∃ src, T.hasCol src = true ∧ ∃ F, out.getCol nm = (T.getCol src).map F := by
  obtain ⟨lt, ln, lc, h1, h2, h3, hcase⟩ := factoryTransform_ok_elim h
  rcases hcase with ⟨_, rfl⟩ | ⟨_, rfl⟩
  · intro nm hnm
    exact ⟨nm, hnm, id, (List.map_id _).symm⟩
  · intro nm hnm
    obtain ⟨t, ht, hthas, htget⟩ := concatTables_getCol_mem hnm
    rcases List.mem_append.mp ht with ht' | hcat
    · rcases List.mem_append.mp ht' with htext | hnum
      · obtain ⟨slice, hsel, htr⟩ := factoryTransText_mem_elim h1 htext
        obtain ⟨hnames, hmap⟩ := textTransform_getCol_map htr
        obtain ⟨F, hF⟩ := hmap nm
        have hslicenm : slice.hasCol nm = true := by
          rw [← Table.hasCol_eq_of_names_eq hnames nm]
          exact hthas
        obtain ⟨hTnm, hTget⟩ := select_hasCol_getCol hsel hslicenm
        exact ⟨nm, hTnm, F, by rw [htget, hF, hTget]⟩
      · obtain ⟨ns, slice, hns, hsel, htr⟩ := factoryTransNumeric_mem_elim h2 hnum
        obtain ⟨hnames, hmap⟩ := numericTransform_getCol_map htr
        obtain ⟨F, hF⟩ := hmap nm
        have hslicenm : slice.hasCol nm = true := by
          rw [← Table.hasCol_eq_of_names_eq hnames nm]
          exact hthas
        obtain ⟨hTnm, hTget⟩ := select_hasCol_getCol hsel hslicenm
        exact ⟨nm, hTnm, F, by rw [htget, hF, hTget]⟩
    · obtain ⟨cs, slice, hcs, hsel, htr⟩ := factoryTransCat_mem_elim h3 hcat
      obtain ⟨src, hsrc, F, hF⟩ := catTransform_getCol_map hnd htr nm hthas
      obtain ⟨hTs, hTget⟩ := select_hasCol_getCol hsel hsrc
      exact ⟨src, hTs, F, by rw [htget, hF, hTget]⟩

/-- C5: every per-type transform, and the engine's transform, preserves both
the row count and the row order of its input.  Count: every output column
has the input's row count.  Order: the name-preserving text and numeric
transforms rewrite each column cell-wise, so every output column is the
index-wise image of the same input column (row `i` of the output is a
function of row `i` of the input); the categorical transform and the engine
may rename columns (one-hot) but every output column is still the index-wise
`map` image of a specific input column — no rows are dropped, added, or
reordered. -/
theorem C5_row_count_preserved :
    (∀ (env : TextEnv) (cfg : Config) (T out : Table) (n : ℕ),
      T.allRows n → textTransform env cfg T = .ok out → out.allRows n) ∧
    (∀ (sqrtQ : ℚ → ℚ) (cfg : Config) (st : NumericState) (T out : Table) (n : ℕ),
      T.allRows n → numericTransform sqrtQ cfg st T = .ok out → out.allRows n) ∧
    (∀ (cfg : Config) (st : CatState) (T out : Table) (n : ℕ),
      (expectedColumns cfg).Nodup →
      T.allRows n → catTransform cfg st T = .ok out → out.allRows n) ∧
    (∀ (sqrtQ : ℚ → ℚ) (env : TextEnv) (st : Factory) (T out : Table) (n : ℕ),
      (expectedColumns st.config).Nodup →
      T.allRows n → factoryTransform sqrtQ env st T = .ok out → out.allRows n) ∧
    (∀ (env : TextEnv) (cfg : Config) (T out : Table),
      textTransform env cfg T = .ok out →
      out.names = T.names ∧ ∀ nm, ∃ F, out.getCol nm = (T.getCol nm).map F) ∧
    (∀ (sqrtQ : ℚ → ℚ) (cfg : Config) (st : NumericState) (T out : Table),
      numericTransform sqrtQ cfg st T = .ok out →
      out.names = T.names ∧ ∀ nm, ∃ F, out.getCol nm = (T.getCol nm).map F) ∧
    (∀ (cfg : Config) (st : CatState) (T out : Table),
      (expectedColumns cfg).Nodup → catTransform cfg st T = .ok out →
      ∀ nm, out.hasCol nm = true →
        ∃ src, T.hasCol src = true ∧ ∃ F, out.getCol nm = (T.getCol src).map F) ∧
    (∀ (sqrtQ : ℚ → ℚ) (env : TextEnv) (st : Factory) (T out : Table),
      (expectedColumns st.config).Nodup → factoryTransform sqrtQ env st T = .ok out →
      ∀ nm, out.hasCol nm = true →
        ∃ src, T.hasCol src = true ∧ ∃ F, out.getCol nm = (T.getCol src).map F) :=
  ⟨fun _ _ _ _ _ hr h => textTransform_allRows h hr,
   fun _ _ _ _ _ _ hr h => numericTransform_allRows h hr,
   fun _ _ _ _ _ hnd hr h => catTransform_allRows hnd h hr,
   fun _ _ _ _ _ _ hnd hr h => factoryTransform_allRows hnd h hr,
   fun _ _ _ _ h => textTransform_getCol_map h,
   fun _ _ _ _ _ h => numericTransform_getCol_map h,
   fun _ _ _ _ hnd h => catTransform_getCol_map hnd h,
   fun _ _ _ _ _ hnd h => factoryTransform_getCol_map hnd h⟩

/-- Witness for C5 at concrete two-row inputs for each transform and the
engine: the row count is preserved and every output column is the index-wise
`map` image of an input column. -/
theorem C5_witness :
    ((⟨[("t", [.str "b a", .str ""])]⟩ : Table).allRows 2 ∧
     (⟨[("a", [.num 1, .num 1])]⟩ : Table).allRows 2 ∧
     (⟨[("city", [.num 0, .num 1])]⟩ : Table).allRows 2 ∧
     (concatTables [⟨[("city", [.num 0, .num 1])]⟩] : Table).allRows 2) ∧
    ((⟨[("t", [.str "b a", .str ""])]⟩ : Table).names = exTextT.names ∧
      ∀ nm, ∃ F, (⟨[("t", [.str "b a", .str ""])]⟩ : Table).getCol nm =
        (exTextT.getCol nm).map F) ∧
    ((⟨[("a", [.num 1, .num 1])]⟩ : Table).names = exNModeT.names ∧
      ∀ nm, ∃ F, (⟨[("a", [.num 1, .num 1])]⟩ : Table).getCol nm =
        (exNModeT.getCol nm).map F) ∧
    (∃ src, exFitCity.hasCol src = true ∧
      ∃ F, (⟨[("city", [.num 0, .num 1])]⟩ : Table).getCol "city" =
        (exFitCity.getCol src).map F) ∧
    (∃ src, exFitCity.hasCol src = true ∧
      ∃ F, (concatTables [⟨[("city", [.num 0, .num 1])]⟩] : Table).getCol "city" =
        (exFitCity.getCol src).map F) :=
  ⟨⟨C5_row_count_preserved.1 idEnv exCfgText exTextT _ 2 (by decide) (by decide),
    C5_row_count_preserved.2.1 id exCfgNMode ⟨.minmax, []⟩ exNModeT _ 2
      (by decide) (by decide),
    C5_row_count_preserved.2.2.1 exCfgLabel
      ⟨[("city", .label ["A", "B"])], [("city", .labelMap [("A", 0), ("B", 1)])]⟩
      exFitCity _ 2 (by decide) (by decide) (by decide),
    C5_row_count_preserved.2.2.2.1 id idEnv
      ⟨exCfgLabel, none, none,
       some ⟨[("city", .label ["A", "B"])], [("city", .labelMap [("A", 0), ("B", 1)])]⟩⟩
      exFitCity _ 2 (by decide) (by decide) (by decide)⟩,
   C5_row_count_preserved.2.2.2.2.1 idEnv exCfgText exTextT _ (by decide),
   C5_row_count_preserved.2.2.2.2.2.1 id exCfgNMode ⟨.minmax, []⟩ exNModeT _
     (by decide),
   C5_row_count_preserved.2.2.2.2.2.2.1 exCfgLabel
     ⟨[("city", .label ["A", "B"])], [("city", .labelMap [("A", 0), ("B", 1)])]⟩
     exFitCity _ (by decide) (by decide) "city" (by decide),
   C5_row_count_preserved.2.2.2.2.2.2.2 id idEnv
     ⟨exCfgLabel, none, none,
      some ⟨[("city", .label ["A", "B"])], [("city", .labelMap [("A", 0), ("B", 1)])]⟩⟩
     exFitCity _ (by decide) (by decide) "city" (by decide)⟩

/-! ## Claim C7 -/

theorem textColumns_hasCol {cfg : Config} {T : Table}
    (hv : validate_input cfg T = true) {c : String} (hc : c ∈ textColumns cfg) :
    T.hasCol c = true := by
  refine (validate_input_true_iff cfg T).mp hv c ?_
  simp only [textColumns, columnsByType, expectedColumns, List.mem_map] at hc ⊢
  obtain ⟨spec, hspec, rfl⟩ := hc
  exact ⟨spec, List.mem_of_mem_filter hspec, rfl⟩

/-- C7: the per-cell text processing function is total: non-string cells
map to the empty string; a string goes through lowercase, punctuation
stripping, tokenization, stopword removal and stemming in that fixed order
and is rejoined with single spaces; and the column-wise application never
fails — given a validated input the transform succeeds, mapping every text
column cell-wise. -/
theorem C7_text_cell_total_fixed_order :
    (∀ (env : TextEnv) (tc : TextConfig) (c : Cell),
      (∀ s, c ≠ .str s) → preprocess_text env tc c = "") ∧
    (∀ (env : TextEnv) (tc : TextConfig) (s : String),
      preprocess_text env tc (.str s) =
        joinSpace (stemStep env tc (stopStep env tc
          (env.tokenize (punctStep tc (lowerStep tc s)))))) ∧
    (∀ (env : TextEnv) (cfg : Config) (T : Table),
      validate_input cfg T = true → (textColumns cfg).Nodup →
      ∃ out, textTransform env cfg T = .ok out ∧
        ∀ col ∈ textColumns cfg,
          out.getCol col =
            (T.getCol col).map (fun c => .str (preprocess_text env cfg.text c))) := by
  refine ⟨?_, ?_, ?_⟩
  · intro env tc c hc
    cases c with
    | str s => exact absurd rfl (hc s)
    | missing => rfl
    | num q => rfl
  · intro env tc s
    rfl
  · intro env cfg T hv hnd
    refine ⟨textApplyFold env cfg.text (textColumns cfg) T, ?_, ?_⟩
    · unfold textTransform
      rw [hv]
      simp only [Bool.not_true]
      rw [if_neg (by simp)]
      rfl
    · intro col hcol
      have hhas : T.hasCol col = true := textColumns_hasCol hv hcol
      unfold textApplyFold
      rw [colApplyFold_getCol_mem _ hnd hcol hhas]

/-- Witness for C7 at a concrete environment, configuration and table. -/
theorem C7_witness :
    preprocess_text idEnv exCfgText.text (.num 3) = "" ∧
    preprocess_text idEnv exCfgText.text (.str "A b!") =
      joinSpace (stemStep idEnv exCfgText.text (stopStep idEnv exCfgText.text
        (idEnv.tokenize (punctStep exCfgText.text (lowerStep exCfgText.text "A b!"))))) ∧
    (∃ out, textTransform idEnv exCfgText exTextT = .ok out ∧
      ∀ col ∈ textColumns exCfgText,
        out.getCol col =
          (exTextT.getCol col).map
            (fun c => .str (preprocess_text idEnv exCfgText.text c))) :=
  ⟨C7_text_cell_total_fixed_order.1 idEnv exCfgText.text (.num 3)
    (fun s h => by cases h),
   C7_text_cell_total_fixed_order.2.1 idEnv exCfgText.text "A b!",
   C7_text_cell_total_fixed_order.2.2 idEnv exCfgText exTextT
     (by decide) (by decide)⟩

/-! ## Claim C10 -/

theorem numericColumns_hasCol {cfg : Config} {T : Table}
    (hv : validate_input cfg T = true) {c : String} (hc : c ∈ numericColumns cfg) :
    T.hasCol c = true := by
  refine (validate_input_true_iff cfg T).mp hv c ?_
  simp only [numericColumns, columnsByType, expectedColumns, List.mem_map] at hc ⊢
  obtain ⟨spec, hspec, rfl⟩ := hc
  exact ⟨spec, List.mem_of_mem_filter hspec, rfl⟩

theorem catTransformCols_no_encoders {maps : List (String × EncMap)} :
    ∀ (cols : List String) (df : Table),
      catTransformCols ⟨[], maps⟩ cols df = .ok df := by
  intro cols
  induction cols with
  | nil => intro df; rfl
  | cons c rest ih =>
    intro df
    rw [catTransformCols_cons, catTransformStep_none (by rfl), exBind_ok]
    exact ih df

/-- C10: transforming a column that has no fitted state raises no error:
the numeric transform leaves such a column filled but unscaled, the
categorical transform leaves it filled but unencoded, and a wholly unfitted
categorical transform returns the filled table unchanged. -/
theorem C10_unfitted_column_passthrough :
    (∀ (sqrtQ : ℚ → ℚ) (cfg : Config) (st : NumericState) (T df : Table),
      validate_input cfg T = true →
      numeric_handle_missing cfg.numeric.handle_missing T (numericColumns cfg) = .ok df →
      (numericColumns cfg).Nodup →
      ∃ out, numericTransform sqrtQ cfg st T = .ok out ∧
        ∀ col ∈ numericColumns cfg, lookupA st.scalers col = none →
          out.getCol col = df.getCol col ∧
          ∃ v, numericFillValue cfg.numeric.handle_missing (T.getCol col) = .ok v ∧
            df.getCol col = fillCol (T.getCol col) v) ∧
    (∀ (cfg : Config) (st : CatState) (T out : Table) (col : String),
      catTransform cfg st T = .ok out →
      (catColumns cfg).Nodup → col ∈ catColumns cfg →
      lookupA st.encoders col = none →
      ∃ v, catFillValue cfg.categorical.handle_missing (T.getCol col) = .ok v ∧
        out.getCol col = fillCol (T.getCol col) (some v)) ∧
    (∀ (cfg : Config) (maps : List (String × EncMap)) (T df : Table),
      validate_input cfg T = true →
      cat_handle_missing cfg.categorical.handle_missing T (catColumns cfg) = .ok df →
      catTransform cfg ⟨[], maps⟩ T = .ok df) := by
  refine ⟨?_, ?_, ?_⟩
  · intro sqrtQ cfg st T df hv hdf hnd
    refine ⟨numericScaleFold sqrtQ st (numericColumns cfg) df, ?_, ?_⟩
    · unfold numericTransform
      rw [hv]
      simp only [Bool.not_true]
      rw [if_neg (by simp), hdf, exBind_ok]
      rfl
    · intro col hcol hnone
      have hhasT : T.hasCol col = true := numericColumns_hasCol hv hcol
      have hhasdf : df.hasCol col = true := by
        rw [Table.hasCol_eq_of_names_eq (fillFold_ok_names hdf) col]
        exact hhasT
      constructor
      · unfold numericScaleFold
        rw [colApplyFold_getCol_mem _ hnd hcol hhasdf, hnone]
      · exact fillFold_ok_getCol_mem (fun v => fillCol_nil v) hnd hdf hcol
  · intro cfg st T out col h hnd hcol hnone
    obtain ⟨hv, df, hdf, hcols⟩ := catTransform_ok_elim h
    obtain ⟨v, hval, hdfcol⟩ :=
      @fillFold_ok_getCol_mem _ (catFillValue cfg.categorical.handle_missing) _
        (fun v => rfl) _ hnd _ _ hdf _ hcol
    refine ⟨v, hval, ?_⟩
    have hhasT : T.hasCol col = true := catColumns_hasCol hv hcol
    have hhasdf : df.hasCol col = true := by
      rw [Table.hasCol_eq_of_names_eq (fillFold_ok_names hdf) col]
      exact hhasT
    obtain ⟨pre, post, hsplit⟩ := List.append_of_mem hcol
    have hndsplit := hsplit ▸ hnd
    have hnodup := List.nodup_append.mp hndsplit
    have hcolpre : col ∉ pre := fun hp =>
      (hnodup.2.2 hp (List.mem_cons_self _ _)).elim
    have hcolpost : col ∉ post := List.Nodup.not_mem hnodup.2.1
    rw [hsplit, catTransformCols_append] at hcols
    obtain ⟨df₁, hpre, hrest⟩ := exBind_eq_ok hcols
    rw [catTransformCols_cons, catTransformStep_none hnone, exBind_ok] at hrest
    obtain ⟨hget₁, hhas₁⟩ := catTransformCols_pres pre df df₁ hpre col hcolpre hhasdf
    obtain ⟨hget₂, _⟩ := catTransformCols_pres post df₁ out hrest col hcolpost hhas₁
    rw [hget₂, hget₁, hdfcol]
  · intro cfg maps T df hv hdf
    rw [catTransform_eq hv hdf]
    exact catTransformCols_no_encoders _ df

/-- Witness for C10 with unfitted numeric and categorical states. -/
theorem C10_witness :
    (∃ out, numericTransform id exCfgNMode ⟨.minmax, []⟩ exNModeT = .ok out ∧
      ∀ col ∈ numericColumns exCfgNMode, lookupA ([] : List (String × ScalerParams)) col = none →
        out.getCol col = ((⟨[("a", [.num 1, .num 1])]⟩ : Table)).getCol col ∧
        ∃ v, numericFillValue exCfgNMode.numeric.handle_missing (exNModeT.getCol col) = .ok v ∧
          ((⟨[("a", [.num 1, .num 1])]⟩ : Table)).getCol col =
            fillCol (exNModeT.getCol col) v) ∧
    (∃ v, catFillValue exCfgLabel.categorical.handle_missing (exFitCity.getCol "city") = .ok v ∧
      exFitCity.getCol "city" = fillCol (exFitCity.getCol "city") (some v)) ∧
    catTransform exCfgLabel ⟨[], []⟩ exFitCity = .ok exFitCity := by
  refine ⟨?_, ?_, ?_⟩
  · exact C10_unfitted_column_passthrough.1 id exCfgNMode ⟨.minmax, []⟩ exNModeT
      ⟨[("a", [.num 1, .num 1])]⟩ (by decide) (by decide) (by decide)
  · have h := C10_unfitted_column_passthrough.2.1 exCfgLabel ⟨[], []⟩ exFitCity
      exFitCity "city" (by decide) (by decide) (by decide) (by decide)
    obtain ⟨v, hv, hout⟩ := h
    exact ⟨v, hv, by rw [← hout]⟩
  · exact C10_unfitted_column_passthrough.2.2 exCfgLabel [] exFitCity exFitCity
      (by decide) (by decide)

/-! ## Claim C9 -/

theorem lookupA_foldl_insertA {β : Type} (g : String → β) :
    ∀ (cols : List String) (m : List (String × β)) (c : String),
      lookupA (cols.foldl (fun m col => insertA m col (g col)) m) c =
        if c ∈ cols then some (g c) else lookupA m c := by
  intro cols
  induction cols with
  | nil => intro m c; simp
  | cons c0 rest ih =>
    intro m c
    rw [List.foldl_cons, ih]
    by_cases hr : c ∈ rest
    · rw [if_pos hr, if_pos (List.mem_cons_of_mem _ hr)]
    · rw [if_neg hr, lookupA_insertA]
      by_cases hc : c = c0
      · subst hc
        rw [if_pos rfl, if_pos (List.mem_cons_self _ _)]
      · rw [if_neg hc, if_neg (by
          intro hm
          rcases List.mem_cons.mp hm with h | h
          · exact hc h
          · exact hr h)]

theorem numericInit_ok_elim {cfg : Config} {st0 : NumericState}
    (h : numericInit cfg = .ok st0) : st0.scalers = [] := by
  unfold numericInit at h
  cases hs : setup_scalers cfg with
  | error e => rw [hs] at h; cases h
  | ok sc =>
    rw [hs] at h
    cases h
    rfl

/-- C9: fitting twice fully replaces the fitted state — after
`fit F1; fit F2` the scaler dictionary (numeric) and the encoder and
encoding-map dictionaries (categorical) are pointwise equal to those of a
fresh instance fitted on `F2` alone. -/
theorem C9_refit_replaces_state :
    (∀ (cfg : Config) (F1 F2 : Table) (st0 st1 st12 st02 : NumericState),
      numericInit cfg = .ok st0 →
      numericFit cfg st0 F1 = .ok st1 →
      numericFit cfg st1 F2 = .ok st12 →
      numericFit cfg st0 F2 = .ok st02 →
      st12.scalerClass = st02.scalerClass ∧
      ∀ c, lookupA st12.scalers c = lookupA st02.scalers c) ∧
    (∀ (cfg : Config) (F1 F2 : Table) (st1 st12 st02 : CatState),
      catFit cfg catInit F1 = .ok st1 →
      catFit cfg st1 F2 = .ok st12 →
      catFit cfg catInit F2 = .ok st02 →
      (∀ c, lookupA st12.encoders c = lookupA st02.encoders c) ∧
      ∀ c, lookupA st12.encoding_maps c = lookupA st02.encoding_maps c) := by
  constructor
  · intro cfg F1 F2 st0 st1 st12 st02 h0 h1 h12 h02
    have hs0 : st0.scalers = [] := numericInit_ok_elim h0
    obtain ⟨_, filled1, hf1, hst1⟩ := numericFit_ok_elim h1
    obtain ⟨_, filled2, hf2, hst12⟩ := numericFit_ok_elim h12
    obtain ⟨_, filled2', hf2', hst02⟩ := numericFit_ok_elim h02
    have hfill : filled2' = filled2 := by
      rw [hf2] at hf2'
      cases hf2'
      rfl
    subst hfill
    have hclass1 : st1.scalerClass = st0.scalerClass := by rw [hst1]
    constructor
    · rw [hst12, hst02, hclass1]
    · intro c
      rw [hst12, hst02]
      simp only [hclass1]
      rw [lookupA_foldl_insertA, lookupA_foldl_insertA]
      by_cases hc : c ∈ numericColumns cfg
      · rw [if_pos hc, if_pos hc]
      · rw [if_neg hc, if_neg hc, hst1]
        simp only
        rw [lookupA_foldl_insertA, if_neg hc, hs0]
  · intro cfg F1 F2 st1 st12 st02 h1 h12 h02
    obtain ⟨_, filled1, hf1, hfold1⟩ := catFit_ok_elim h1
    obtain ⟨_, filled2, hf2, hfold12⟩ := catFit_ok_elim h12
    obtain ⟨_, filled2', hf2', hfold02⟩ := catFit_ok_elim h02
    have hfill : filled2' = filled2 := by
      rw [hf2] at hf2'
      cases hf2'
      rfl
    subst hfill
    cases hcols : catColumns cfg with
    | nil =>
      rw [hcols] at hfold1 hfold12 hfold02
      cases exPure_eq_ok hfold1
      cases exPure_eq_ok hfold12
      cases exPure_eq_ok hfold02
      exact ⟨fun c => rfl, fun c => rfl⟩
    | cons c0 rest =>
      have hkind : ∃ kind, setup_encoder cfg.categorical.encoding = .ok kind := by
        rw [hcols] at hfold12
        obtain ⟨st', hst'⟩ := foldlM_ok_head hfold12
        exact catFitStep_ok_setup_encoder hst'
      obtain ⟨kind, hk⟩ := hkind
      obtain ⟨he1, hm1⟩ := catFit_fold_lookup hk _ _ _ hfold1
      obtain ⟨he12, hm12⟩ := catFit_fold_lookup hk _ _ _ hfold12
      obtain ⟨he02, hm02⟩ := catFit_fold_lookup hk _ _ _ hfold02
      constructor
      · intro c
        rw [he12 c, he02 c]
        by_cases hc : c ∈ catColumns cfg
        · rw [if_pos hc, if_pos hc]
        · rw [if_neg hc, if_neg hc, he1 c, if_neg hc]
      · intro c
        rw [hm12 c, hm02 c]
        by_cases hc : c ∈ catColumns cfg
        · rw [if_pos hc, if_pos hc]
        · rw [if_neg hc, if_neg hc, hm1 c, if_neg hc]

/-- Witness for C9: two concrete fits on one-row tables, compared at the
fitted column. -/
theorem C9_witness :
    ((⟨.minmax, [("a", ⟨2, 2⟩)]⟩ : NumericState).scalerClass =
      (⟨.minmax, [("a", ⟨2, 2⟩)]⟩ : NumericState).scalerClass ∧
     ∀ c, lookupA (⟨.minmax, [("a", ⟨2, 2⟩)]⟩ : NumericState).scalers c =
       lookupA (⟨.minmax, [("a", ⟨2, 2⟩)]⟩ : NumericState).scalers c) ∧
    (∀ c, lookupA
        (⟨[("city", .label ["B"])], [("city", .labelMap [("B", 0)])]⟩ : CatState).encoders c =
      lookupA
        (⟨[("city", .label ["B"])], [("city", .labelMap [("B", 0)])]⟩ : CatState).encoders c) := by
  constructor
  · exact C9_refit_replaces_state.1 exCfgNMode ⟨[("a", [.num 1])]⟩ ⟨[("a", [.num 2])]⟩
      ⟨.minmax, []⟩ ⟨.minmax, [("a", ⟨1, 1⟩)]⟩
      ⟨.minmax, [("a", ⟨2, 2⟩)]⟩ ⟨.minmax, [("a", ⟨2, 2⟩)]⟩
      (by decide) (by decide) (by decide) (by decide)
  · exact (C9_refit_replaces_state.2 exCfgLabel ⟨[("city", [.str "A"])]⟩
      ⟨[("city", [.str "B"])]⟩
      ⟨[("city", .label ["A"])], [("city", .labelMap [("A", 0)])]⟩
      ⟨[("city", .label ["B"])], [("city", .labelMap [("B", 0)])]⟩
      ⟨[("city", .label ["B"])], [("city", .labelMap [("B", 0)])]⟩
      (by decide) (by decide) (by decide)).1

/-! ## Claim C2 -/

/-- C2 (code evaluation at the failing input): with the mixed configuration
`[age: numeric, city: categorical]` and a fit table containing both declared
columns, the engine slices the table to the numeric columns `["age"]`, but
`validate_input` demands every declared column (including `city`) in that
slice, so the slice fails validation and `PreprocessorFactory.fit` aborts
with `Invalid input data` — the engine's own per-type slicing never passes
its preprocessors' `validate_input` on a multi-type configuration. -/
theorem C2_mixed_config_slice_fails_validation :
    columnsByType exCfgMixed "numeric" = ["age"] ∧
    exFitMixed.select ["age"] =
      .ok (⟨[("age", [.num 10, .num 20, .missing])]⟩ : Table) ∧
    validate_input exCfgMixed (⟨[("age", [.num 10, .num 20, .missing])]⟩ : Table) = false ∧
    validate_input exCfgMixed exFitMixed = true ∧
    (do
      let st ← factoryInit exCfgMixed
      factoryFit st exFitMixed) = .error "Invalid input data" :=
  ⟨by decide, by decide, by decide, by decide, by decide⟩

/-! ## Claim C6 -/

theorem select_names_aux {t : Table} :
    ∀ (cs : List String) (cols : List (String × List Cell)),
      cs.mapM (fun c => if t.hasCol c then Except.ok (c, t.getCol c)
        else Except.error ("KeyError: " ++ c)) = .ok cols →
      cols.map Prod.fst = cs := by
  intro cs
  induction cs with
  | nil =>
    intro cols h
    rw [List.mapM_nil] at h
    cases exPure_eq_ok h
    rfl
  | cons c cs ih =>
    intro cols h
    rw [mapM_cons] at h
    obtain ⟨b, hb, h'⟩ := exBind_eq_ok h
    obtain ⟨bs, hbs, hp⟩ := exBind_eq_ok h'
    cases exPure_eq_ok hp
    cases hhc : t.hasCol c with
    | true =>
      rw [hhc, if_pos rfl] at hb
      cases hb
      simp only [List.map_cons]
      rw [ih bs hbs]
    | false =>
      rw [hhc] at hb
      rw [if_neg (by simp)] at hb
      cases hb

theorem select_names {t slice : Table} {cs : List String}
    (h : t.select cs = .ok slice) : slice.names = cs := by
  unfold Table.select at h
  obtain ⟨cols, hcols, hpure⟩ := exBind_eq_ok h
  cases exPure_eq_ok hpure
  exact select_names_aux cs cols hcols

theorem concatTables_mem_names (ts : List Table) (nm : String) :
    nm ∈ (concatTables ts).names ↔ ∃ t ∈ ts, nm ∈ t.names := by
  simp only [concatTables, Table.names, List.mem_map, List.mem_flatten]
  constructor
  · rintro ⟨p, ⟨l, ⟨u, hu, rfl⟩, hpl⟩, rfl⟩
    exact ⟨u, hu, p, hpl, rfl⟩
  · rintro ⟨u, hu, p, hp, rfl⟩
    exact ⟨p, ⟨u.cols, ⟨u, hu, rfl⟩, hp⟩, rfl⟩

theorem factoryInit_ok_elim {cfg : Config} {st : Factory}
    (h : factoryInit cfg = .ok st) :
    st.config = cfg ∧
    st.textP = (if typePresent cfg "text" then some () else none) ∧
    (typePresent cfg "numeric" = true → ∃ ns, st.numericP = some ns) ∧
    (typePresent cfg "numeric" = false → st.numericP = none) ∧
    st.catP = (if typePresent cfg "categorical" then some catInit else none) := by
  unfold factoryInit at h
  dsimp only at h
  cases hn : typePresent cfg "numeric" with
  | false =>
    rw [hn] at h
    rw [if_neg (by simp)] at h
    rw [exPure_def, exBind_ok] at h
    cases exPure_eq_ok h
    refine ⟨rfl, rfl, ?_, fun _ => rfl, rfl⟩
    intro hc
    exact Bool.noConfusion hc
  | true =>
    rw [hn] at h
    rw [if_pos rfl] at h
    obtain ⟨np, hnp, h⟩ := exBind_eq_ok h
    cases exPure_eq_ok h
    refine ⟨rfl, rfl, ?_, ?_, rfl⟩
    · intro _
      cases hni : numericInit cfg with
      | error e =>
        rw [hni] at hnp
        simp only [Except.map] at hnp
        cases hnp
      | ok ns =>
        rw [hni] at hnp
        simp only [Except.map] at hnp
        cases hnp
        exact ⟨ns, rfl⟩
    · intro hc
      exact Bool.noConfusion hc

theorem factoryTransText_ok_cols_cover {env : TextEnv} {cfg : Config} {data : Table}
    {lt : List Table} (h : factoryTransText env cfg (some ()) data = .ok lt)
    (hne : (columnsByType cfg "text").isEmpty = false) :
    ∀ c ∈ expectedColumns cfg, c ∈ columnsByType cfg "text" := by
  unfold factoryTransText at h
  dsimp only at h
  rw [hne, if_neg (by simp)] at h
  obtain ⟨slice, hslice, h'⟩ := exBind_eq_ok h
  obtain ⟨o, ho, _⟩ := exBind_eq_ok h'
  have hv := (textTransform_ok_elim ho).1
  intro c hc
  have hmem := (validate_input_true_iff cfg slice).mp hv c hc
  rw [Table.hasCol_iff_mem_names, select_names hslice] at hmem
  exact hmem

theorem factoryTransNumeric_ok_cols_cover {sqrtQ : ℚ → ℚ} {cfg : Config}
    {ns : NumericState} {data : Table} {ln : List Table}
    (h : factoryTransNumeric sqrtQ cfg (some ns) data = .ok ln)
    (hne : (columnsByType cfg "numeric").isEmpty = false) :
    ∀ c ∈ expectedColumns cfg, c ∈ columnsByType cfg "numeric" := by
  unfold factoryTransNumeric at h
  dsimp only at h
  rw [hne, if_neg (by simp)] at h
  obtain ⟨slice, hslice, h'⟩ := exBind_eq_ok h
  obtain ⟨o, ho, _⟩ := exBind_eq_ok h'
  have hv := (numericTransform_ok_elim ho).1
  intro c hc
  have hmem := (validate_input_true_iff cfg slice).mp hv c hc
  rw [Table.hasCol_iff_mem_names, select_names hslice] at hmem
  exact hmem

theorem factoryTransCat_ok_cols_cover {cfg : Config} {cs : CatState} {data : Table}
    {lc : List Table} (h : factoryTransCat cfg (some cs) data = .ok lc)
    (hne : (columnsByType cfg "categorical").isEmpty = false) :
    ∀ c ∈ expectedColumns cfg, c ∈ columnsByType cfg "categorical" := by
  unfold factoryTransCat at h
  dsimp only at h
  rw [hne, if_neg (by simp)] at h
  obtain ⟨slice, hslice, h'⟩ := exBind_eq_ok h
  obtain ⟨o, ho, _⟩ := exBind_eq_ok h'
  have hv := (catTransform_ok_elim ho).1
  intro c hc
  have hmem := (validate_input_true_iff cfg slice).mp hv c hc
  rw [Table.hasCol_iff_mem_names, select_names hslice] at hmem
  exact hmem

theorem mem_columnsByType_of_spec {cfg : Config} {spec : ColumnSpec}
    (hs : spec ∈ cfg.input_columns) {ty : String} (hty : spec.type = ty) :
    spec.name ∈ columnsByType cfg ty := by
  simp only [columnsByType, List.mem_map]
  exact ⟨spec, List.mem_filter.mpr ⟨hs, beq_iff_eq.mpr hty⟩, rfl⟩

theorem typePresent_of_spec {cfg : Config} {spec : ColumnSpec}
    (hs : spec ∈ cfg.input_columns) {ty : String} (hty : spec.type = ty) :
    typePresent cfg ty = true := by
  simp only [typePresent, List.any_eq_true]
  exact ⟨spec, hs, beq_iff_eq.mpr hty⟩

theorem spec_eq_of_mem_columnsByType {cfg : Config} {spec' : ColumnSpec}
    (hnd : (expectedColumns cfg).Nodup) (hs' : spec' ∈ cfg.input_columns)
    {ty : String} (hmem : spec'.name ∈ columnsByType cfg ty) :
    spec'.type = ty := by
  simp only [columnsByType, List.mem_map] at hmem
  obtain ⟨s, hsf, hname⟩ := hmem
  obtain ⟨hsm, hsty⟩ := List.mem_filter.mp hsf
  have : s = spec' :=
    List.inj_on_of_nodup_map hnd hsm hs' hname
  rw [← this]
  exact beq_iff_eq.mp hsty

/-- C6 counterexample: the degenerate configuration declaring only `d : date`
(a type with no registered preprocessor) instantiates no preprocessor, and
`transform` returns the input unchanged — so the output column set is the
input's (not the empty union of instantiated transforms' outputs), and the
declared unhandled-type column `d` is present in the output, not absent. -/
theorem C6_counterexample :
    factoryInit exCfgDate = .ok ⟨exCfgDate, none, none, none⟩ ∧
    factoryTransform id idEnv ⟨exCfgDate, none, none, none⟩ exTransDate =
      .ok exTransDate ∧
    exCfgDate.input_columns = [⟨"d", "date"⟩] ∧
    exTransDate.hasCol "d" = true := by
  refine ⟨by decide, by decide, by decide, by decide⟩

/-- C6 (amended): let `st` be the factory built from `cfg`.  (1) When
`transform` succeeds and at least one processed frame was produced, the
output's column set is exactly the union of the per-type transforms' output
columns.  (2) With no handled type declared, no preprocessor is
instantiated and `transform` returns the input unchanged — declared columns
of unhandled types are then present in the output, not absent.  (3) When a
handled-type column is declared alongside an unhandled-type column (declared
names unique), `transform` never succeeds at all: each preprocessor
validates its column slice against every declared column, so the unhandled
column's absence from the slice aborts the call. -/
theorem C6_output_column_union (sqrtQ : ℚ → ℚ) (env : TextEnv) (cfg : Config)
    (st : Factory) (data : Table) (hinit : factoryInit cfg = .ok st) :
    (∀ out lt ln lc, factoryTransform sqrtQ env st data = .ok out →
      factoryTransText env cfg st.textP data = .ok lt →
      factoryTransNumeric sqrtQ cfg st.numericP data = .ok ln →
      factoryTransCat cfg st.catP data = .ok lc →
      lt ++ ln ++ lc ≠ [] →
      ∀ nm, nm ∈ out.names ↔ ∃ t ∈ lt ++ ln ++ lc, nm ∈ t.names) ∧
    (typePresent cfg "text" = false → typePresent cfg "numeric" = false →
      typePresent cfg "categorical" = false →
      factoryTransform sqrtQ env st data = .ok data) ∧
    (∀ spec spec', spec ∈ cfg.input_columns → spec' ∈ cfg.input_columns →
      (spec.type = "text" ∨ spec.type = "numeric" ∨ spec.type = "categorical") →
      spec'.type ≠ "text" → spec'.type ≠ "numeric" → spec'.type ≠ "categorical" →
      (expectedColumns cfg).Nodup →
      ∀ out, factoryTransform sqrtQ env st data ≠ .ok out) := by
  obtain ⟨hcfg, htp, hnp, hnp0, hcp⟩ := factoryInit_ok_elim hinit
  refine ⟨?_, ?_, ?_⟩
  · intro out lt ln lc hok h1 h2 h3 hne nm
    obtain ⟨lt', ln', lc', h1', h2', h3', hcase⟩ := factoryTransform_ok_elim hok
    rw [hcfg] at h1' h2' h3'
    rw [h1] at h1'
    rw [h2] at h2'
    rw [h3] at h3'
    cases h1'
    cases h2'
    cases h3'
    rcases hcase with ⟨habs, _⟩ | ⟨_, rfl⟩
    · exact absurd habs hne
    · exact concatTables_mem_names _ nm
  · intro hnt hnn hnc
    rw [hnt, if_neg (by simp)] at htp
    rw [hnc, if_neg (by simp)] at hcp
    have hnpn := hnp0 hnn
    obtain ⟨c0, t0, n0, p0⟩ := st
    have hc0 : c0 = cfg := hcfg
    have ht0 : t0 = none := htp
    have hn0 : n0 = none := hnpn
    have hp0 : p0 = none := hcp
    subst hc0 ht0 hn0 hp0
    rfl
  · intro spec spec' hs hs' hhandled ht1 ht2 ht3 hnd out hok
    obtain ⟨lt, ln, lc, h1, h2, h3, _⟩ := factoryTransform_ok_elim hok
    rw [hcfg] at h1 h2 h3
    have hexp : spec'.name ∈ expectedColumns cfg := by
      simp only [expectedColumns, List.mem_map]
      exact ⟨spec', hs', rfl⟩
    rcases hhandled with hty | hty | hty
    · have hpres := typePresent_of_spec hs hty
      rw [hpres, if_pos rfl] at htp
      rw [htp] at h1
      have hne : (columnsByType cfg "text").isEmpty = false := by
        cases hE : (columnsByType cfg "text").isEmpty with
        | false => rfl
        | true =>
          have := mem_columnsByType_of_spec hs hty
          rw [List.isEmpty_iff.mp hE] at this
          cases this
      have hcover := factoryTransText_ok_cols_cover h1 hne spec'.name hexp
      exact ht1 (spec_eq_of_mem_columnsByType hnd hs' hcover)
    · have hpres := typePresent_of_spec hs hty
      obtain ⟨ns, hns⟩ := hnp hpres
      rw [hns] at h2
      have hne : (columnsByType cfg "numeric").isEmpty = false := by
        cases hE : (columnsByType cfg "numeric").isEmpty with
        | false => rfl
        | true =>
          have := mem_columnsByType_of_spec hs hty
          rw [List.isEmpty_iff.mp hE] at this
          cases this
      have hcover := factoryTransNumeric_ok_cols_cover h2 hne spec'.name hexp
      exact ht2 (spec_eq_of_mem_columnsByType hnd hs' hcover)
    · have hpres := typePresent_of_spec hs hty
      rw [hpres, if_pos rfl] at hcp
      rw [hcp] at h3
      have hne : (columnsByType cfg "categorical").isEmpty = false := by
        cases hE : (columnsByType cfg "categorical").isEmpty with
        | false => rfl
        | true =>
          have := mem_columnsByType_of_spec hs hty
          rw [List.isEmpty_iff.mp hE] at this
          cases this
      have hcover := factoryTransCat_ok_cols_cover h3 hne spec'.name hexp
      exact ht3 (spec_eq_of_mem_columnsByType hnd hs' hcover)

/-- C6 witness: the amended theorem applied at the degenerate `d : date`
configuration (transform returns the input, `d` present) and at the mixed
`age : numeric, d : date` configuration (transform never succeeds). -/
theorem C6_witness :
    (factoryInit exCfgDate = .ok ⟨exCfgDate, none, none, none⟩ ∧
      factoryTransform id idEnv ⟨exCfgDate, none, none, none⟩ exTransDate =
        .ok exTransDate) ∧
    (factoryInit exCfgNumDate =
        .ok ⟨exCfgNumDate, none, some ⟨.minmax, []⟩, none⟩ ∧
      factoryTransform id idEnv ⟨exCfgNumDate, none, some ⟨.minmax, []⟩, none⟩
        exNumDateT ≠ .ok exNumDateT) := by
  constructor
  · exact ⟨by decide,
      (C6_output_column_union id idEnv exCfgDate ⟨exCfgDate, none, none, none⟩
        exTransDate (by decide)).2.1 (by decide) (by decide) (by decide)⟩
  · exact ⟨by decide,
      (C6_output_column_union id idEnv exCfgNumDate
        ⟨exCfgNumDate, none, some ⟨.minmax, []⟩, none⟩ exNumDateT
        (by decide)).2.2 ⟨"age", "numeric"⟩ ⟨"d", "date"⟩ (by decide) (by decide)
        (Or.inr (Or.inl rfl)) (by decide) (by decide) (by decide) (by decide)
        exNumDateT⟩

/-! ## Claim C8 -/

theorem StorePres_refl (σ : Store) (n : Nat) : StorePres σ σ n :=
  fun _ _ => rfl

theorem StorePres_mono {σ σ' : Store} {n n' : Nat} (h : StorePres σ σ' n')
    (hle : n ≤ n') : StorePres σ σ' n :=
  fun m hm => h m (lt_of_lt_of_le hm hle)

theorem StorePres_trans {σ₁ σ₂ σ₃ : Store} {n : Nat} (h₁ : StorePres σ₁ σ₂ n)
    (h₂ : StorePres σ₂ σ₃ n) : StorePres σ₁ σ₃ n :=
  fun m hm => (h₂ m hm).trans (h₁ m hm)

theorem StorePres_append (σ l : Store) {n : Nat} (h : n ≤ σ.length) :
    StorePres σ (σ ++ l) n := by
  intro m hm
  rw [List.get?_eq_getElem?, List.get?_eq_getElem?,
    List.getElem?_append_left (lt_of_lt_of_le hm h)]

theorem StorePres_set (σ : Store) (x : Table) {j n : Nat} (h : n ≤ j) :
    StorePres σ (σ.set j x) n := by
  intro m hm
  rw [List.get?_eq_getElem?, List.get?_eq_getElem?,
    List.getElem?_set_ne (Nat.ne_of_lt (lt_of_lt_of_le hm h)).symm]

theorem StorePres_le_length {σ σ' : Store} {n : Nat} (h : StorePres σ σ' n)
    (hl : n ≤ σ.length) : n ≤ σ'.length := by
  cases n with
  | zero => exact Nat.zero_le _
  | succ k =>
    have hk := h k (Nat.lt_succ_self k)
    cases hg : σ.get? k with
    | none =>
      have := List.get?_eq_none.mp hg
      omega
    | some x =>
      rw [hg] at hk
      by_contra hcon
      rw [List.get?_eq_none.mpr (by omega)] at hk
      cases hk

theorem foldlMStore_pres {α : Type} {n : Nat} {f : Store → α → Except String Store}
    (hf : ∀ τ a τ', n ≤ τ.length → f τ a = .ok τ' → StorePres τ τ' n ∧ n ≤ τ'.length) :
    ∀ (cols : List α) (σ σ' : Store), n ≤ σ.length →
      cols.foldlM f σ = .ok σ' → StorePres σ σ' n ∧ n ≤ σ'.length := by
  intro cols
  induction cols with
  | nil =>
    intro σ σ' hl h
    simp only [List.foldlM] at h
    cases exPure_eq_ok h
    exact ⟨StorePres_refl _ _, hl⟩
  | cons c cs ih =>
    intro σ σ' hl h
    simp only [List.foldlM] at h
    obtain ⟨τ, hτ, h'⟩ := exBind_eq_ok h
    obtain ⟨hp, hlen⟩ := hf σ c τ hl hτ
    obtain ⟨hp', hlen'⟩ := ih τ σ' hlen h'
    exact ⟨StorePres_trans hp hp', hlen'⟩

theorem foldlMPair_pres {α : Type} {n : Nat}
    {f : Store × Nat → α → Except String (Store × Nat)}
    (hf : ∀ τ r a p', n ≤ τ.length → n ≤ r → f (τ, r) a = .ok p' →
      StorePres τ p'.1 n ∧ n ≤ p'.1.length ∧ n ≤ p'.2) :
    ∀ (cols : List α) (p p' : Store × Nat), n ≤ p.1.length → n ≤ p.2 →
      cols.foldlM f p = .ok p' →
      StorePres p.1 p'.1 n ∧ n ≤ p'.1.length ∧ n ≤ p'.2 := by
  intro cols
  induction cols with
  | nil =>
    intro p p' hl hr h
    simp only [List.foldlM] at h
    cases exPure_eq_ok h
    exact ⟨StorePres_refl _ _, hl, hr⟩
  | cons c cs ih =>
    intro p p' hl hr h
    simp only [List.foldlM] at h
    obtain ⟨q, hq, h'⟩ := exBind_eq_ok h
    obtain ⟨τ, r⟩ := p
    obtain ⟨hp, hlen, hr'⟩ := hf τ r c q hl hr hq
    obtain ⟨hp', hlen', hr''⟩ := ih q p' hlen hr' h'
    exact ⟨StorePres_trans hp hp', hlen', hr''⟩

theorem foldlStore_pres {α : Type} {n : Nat} {g : Store → α → Store}
    (hg : ∀ τ a, n ≤ τ.length → StorePres τ (g τ a) n ∧ n ≤ (g τ a).length) :
    ∀ (cols : List α) (σ : Store), n ≤ σ.length →
      StorePres σ (cols.foldl g σ) n ∧ n ≤ (cols.foldl g σ).length := by
  intro cols
  induction cols with
  | nil =>
    intro σ hl
    exact ⟨StorePres_refl _ _, hl⟩
  | cons c cs ih =>
    intro σ hl
    rw [List.foldl_cons]
    obtain ⟨h1, h2⟩ := hg σ c hl
    obtain ⟨h3, h4⟩ := ih (g σ c) h2
    exact ⟨StorePres_trans h1 h3, h4⟩

theorem numericHandleMissingS_pres {method : String} {cols : List String}
    {σ σ' : Store} {i j : Nat}
    (h : numericHandleMissingS method cols σ i = .ok (σ', j)) :
    StorePres σ σ' σ.length ∧ σ.length ≤ σ'.length ∧ j = σ.length := by
  unfold numericHandleMissingS at h
  cases hgi : σ.get? i with
  | none =>
    rw [hgi] at h
    exact absurd h (by simp [throw, throwThe, MonadExceptOf.throw])
  | some data =>
    rw [hgi] at h
    dsimp only at h
    obtain ⟨τ, hτ, h'⟩ := exBind_eq_ok h
    have hfold := @foldlMStore_pres _ σ.length _ ?step cols (σ ++ [data]) τ
      (by simp) hτ
    case step =>
      intro τ₀ a τ₀' hl hs
      obtain ⟨v, _, hp⟩ := exBind_eq_ok hs
      cases exPure_eq_ok hp
      refine ⟨StorePres_set _ _ le_rfl, ?_⟩
      rw [List.length_set]
      exact hl
    obtain ⟨hp, hl⟩ := hfold
    have hpre := StorePres_trans (StorePres_append σ [data] le_rfl) hp
    injection exPure_eq_ok h' with h1 h2
    subst h1
    subst h2
    exact ⟨hpre, hl, rfl⟩

theorem numericFitS_pres {cfg : Config} {nst : NumericState} {σ σ' : Store}
    {i : Nat} {ns' : NumericState} (h : numericFitS cfg nst σ i = .ok (σ', ns')) :
    StorePres σ σ' σ.length ∧ σ.length ≤ σ'.length := by
  unfold numericFitS at h
  cases hgi : σ.get? i with
  | none =>
    rw [hgi] at h
    exact absurd h (by simp [throw, throwThe, MonadExceptOf.throw])
  | some data =>
    rw [hgi] at h
    dsimp only at h
    obtain ⟨_, h⟩ := guard_ok_elim h
    obtain ⟨p, hp, h'⟩ := exBind_eq_ok h
    obtain ⟨τ, j⟩ := p
    dsimp only at h'
    injection exPure_eq_ok h' with h1 h2
    subst h1
    obtain ⟨ha, hb, _⟩ := numericHandleMissingS_pres hp
    exact ⟨ha, hb⟩

theorem numericTransformS_pres {sqrtQ : ℚ → ℚ} {cfg : Config} {nst : NumericState}
    {σ σ' : Store} {i r : Nat}
    (h : numericTransformS sqrtQ cfg nst σ i = .ok (σ', r)) :
    StorePres σ σ' σ.length ∧ σ.length ≤ σ'.length := by
  unfold numericTransformS at h
  cases hgi : σ.get? i with
  | none =>
    rw [hgi] at h
    exact absurd h (by simp [throw, throwThe, MonadExceptOf.throw])
  | some data =>
    rw [hgi] at h
    dsimp only at h
    obtain ⟨_, h⟩ := guard_ok_elim h
    obtain ⟨p, hp, h'⟩ := exBind_eq_ok h
    obtain ⟨σ₁, k⟩ := p
    dsimp only at h'
    obtain ⟨ha, hb, hk⟩ := numericHandleMissingS_pres hp
    have hσ₀ : σ.length ≤ (σ ++ [data]).length := by simp
    have hfold := @foldlStore_pres _ σ.length (fun τ col =>
      match lookupA nst.scalers col with
      | some p => τ.set k ((τ.getD k ⟨[]⟩).setCol col
          (((τ.getD k ⟨[]⟩).getCol col).map (scaleCell sqrtQ nst.scalerClass p)))
      | none => τ) ?step (numericColumns cfg) σ₁
      (le_trans hσ₀ hb)
    case step =>
      intro τ a hl
      cases hla : lookupA nst.scalers a with
      | none =>
        simp only [hla]
        exact ⟨StorePres_refl _ _, hl⟩
      | some q =>
        simp only [hla]
        refine ⟨StorePres_set _ _ ?_, ?_⟩
        · rw [hk]
          exact hσ₀
        · rw [List.length_set]
          exact hl
    obtain ⟨hc, hd⟩ := hfold
    injection exPure_eq_ok h' with h1 h2
    subst h1
    refine ⟨StorePres_trans (StorePres_append σ [data] le_rfl)
      (StorePres_trans (StorePres_mono ha hσ₀) hc), hd⟩

theorem catHandleMissingS_pres {method : String} {cols : List String}
    {σ σ' : Store} {i j : Nat}
    (h : catHandleMissingS method cols σ i = .ok (σ', j)) :
    StorePres σ σ' σ.length ∧ σ.length ≤ σ'.length ∧ j = σ.length := by
  unfold catHandleMissingS at h
  cases hgi : σ.get? i with
  | none =>
    rw [hgi] at h
    exact absurd h (by simp [throw, throwThe, MonadExceptOf.throw])
  | some data =>
    rw [hgi] at h
    dsimp only at h
    obtain ⟨τ, hτ, h'⟩ := exBind_eq_ok h
    have hfold := @foldlMStore_pres _ σ.length _ ?step cols (σ ++ [data]) τ
      (by simp) hτ
    case step =>
      intro τ₀ a τ₀' hl hs
      obtain ⟨v, _, hp⟩ := exBind_eq_ok hs
      cases exPure_eq_ok hp
      refine ⟨StorePres_set _ _ le_rfl, ?_⟩
      rw [List.length_set]
      exact hl
    obtain ⟨hp, hl⟩ := hfold
    have hpre := StorePres_trans (StorePres_append σ [data] le_rfl) hp
    injection exPure_eq_ok h' with h1 h2
    subst h1
    subst h2
    exact ⟨hpre, hl, rfl⟩

theorem catFitS_pres {cfg : Config} {cst : CatState} {σ σ' : Store} {i : Nat}
    {cs' : CatState} (h : catFitS cfg cst σ i = .ok (σ', cs')) :
    StorePres σ σ' σ.length ∧ σ.length ≤ σ'.length := by
  unfold catFitS at h
  cases hgi : σ.get? i with
  | none =>
    rw [hgi] at h
    exact absurd h (by simp [throw, throwThe, MonadExceptOf.throw])
  | some data =>
    rw [hgi] at h
    dsimp only at h
    obtain ⟨_, h⟩ := guard_ok_elim h
    obtain ⟨p, hp, h'⟩ := exBind_eq_ok h
    obtain ⟨τ, j⟩ := p
    dsimp only at h'
    obtain ⟨st', _, h''⟩ := exBind_eq_ok h'
    injection exPure_eq_ok h'' with h1 h2
    subst h1
    obtain ⟨ha, hb, _⟩ := catHandleMissingS_pres hp
    exact ⟨ha, hb⟩

theorem catTransformS_pres {cfg : Config} {cst : CatState} {σ σ' : Store}
    {i r : Nat} (h : catTransformS cfg cst σ i = .ok (σ', r)) :
    StorePres σ σ' σ.length ∧ σ.length ≤ σ'.length := by
  unfold catTransformS at h
  cases hgi : σ.get? i with
  | none =>
    rw [hgi] at h
    exact absurd h (by simp [throw, throwThe, MonadExceptOf.throw])
  | some data =>
    rw [hgi] at h
    dsimp only at h
    obtain ⟨_, h⟩ := guard_ok_elim h
    obtain ⟨p, hp, h'⟩ := exBind_eq_ok h
    obtain ⟨σ₁, k⟩ := p
    dsimp only at h'
    obtain ⟨q, hq, h''⟩ := exBind_eq_ok h'
    obtain ⟨σ₂, r₂⟩ := q
    dsimp only at h''
    obtain ⟨ha, hb, hk⟩ := catHandleMissingS_pres hp
    have hσ₀ : σ.length ≤ (σ ++ [data]).length := by simp
    have hfold := @foldlMPair_pres _ σ.length _ ?step (catColumns cfg)
      (σ₁, k) (σ₂, r₂) (le_trans hσ₀ hb) (hk ▸ hσ₀) hq
    case step =>
      intro τ r₀ a p' hl hr hs
      dsimp only at hs
      cases he : lookupA cst.encoders a with
      | none =>
        rw [he] at hs
        dsimp only at hs
        cases exPure_eq_ok hs
        exact ⟨StorePres_refl _ _, hl, hr⟩
      | some enc =>
        rw [he] at hs
        cases enc with
        | label classes =>
          dsimp only at hs
          obtain ⟨cells, _, hpr⟩ := exBind_eq_ok hs
          cases exPure_eq_ok hpr
          refine ⟨StorePres_set _ _ hr, ?_, hr⟩
          rw [List.length_set]
          exact hl
        | onehot cats =>
          dsimp only at hs
          cases hm : lookupA cst.encoding_maps a with
          | none =>
            rw [hm] at hs
            exact absurd hs (by simp [throw, throwThe, MonadExceptOf.throw])
          | some em =>
            rw [hm] at hs
            cases em with
            | labelMap l =>
              exact absurd hs (by simp [throw, throwThe, MonadExceptOf.throw])
            | featureNames names =>
              dsimp only at hs
              cases exPure_eq_ok hs
              have l1 : σ.length ≤ (τ ++ [(τ.getD r₀ ⟨[]⟩).dropCol a]).length := by
                rw [List.length_append]
                exact le_trans hl (Nat.le_add_right _ _)
              have l2 : σ.length ≤
                  (τ ++ [(τ.getD r₀ ⟨[]⟩).dropCol a] ++
                    [(⟨onehotBlock names cats ((τ.getD r₀ ⟨[]⟩).getCol a)⟩ : Table)]).length := by
                rw [List.length_append]
                exact le_trans l1 (Nat.le_add_right _ _)
              refine ⟨?_, ?_, ?_⟩
              · exact StorePres_trans (StorePres_append _ _ hl)
                  (StorePres_trans (StorePres_append _ _ l1) (StorePres_append _ _ l2))
              · dsimp only
                rw [List.length_append]
                exact le_trans l2 (Nat.le_add_right _ _)
              · dsimp only
                exact l2
    obtain ⟨hc, hd, _⟩ := hfold
    injection exPure_eq_ok h'' with h1 h2
    subst h1
    refine ⟨StorePres_trans (StorePres_append σ [data] le_rfl)
      (StorePres_trans (StorePres_mono ha hσ₀) hc), hd⟩

theorem textTransformS_pres {env : TextEnv} {cfg : Config} {σ σ' : Store}
    {i r : Nat} (h : textTransformS env cfg σ i = .ok (σ', r)) :
    StorePres σ σ' σ.length ∧ σ.length ≤ σ'.length := by
  unfold textTransformS at h
  cases hgi : σ.get? i with
  | none =>
    rw [hgi] at h
    exact absurd h (by simp [throw, throwThe, MonadExceptOf.throw])
  | some data =>
    rw [hgi] at h
    dsimp only at h
    obtain ⟨_, h⟩ := guard_ok_elim h
    have hσ₀ : σ.length ≤ (σ ++ [data]).length := by simp
    have hfold := @foldlStore_pres _ σ.length (fun τ col =>
      τ.set σ.length ((τ.getD σ.length ⟨[]⟩).setCol col
        (((τ.getD σ.length ⟨[]⟩).getCol col).map
          (fun c => .str (preprocess_text env cfg.text c)))))
      ?step (textColumns cfg) (σ ++ [data]) hσ₀
    case step =>
      intro τ a hl
      refine ⟨StorePres_set _ _ le_rfl, ?_⟩
      rw [List.length_set]
      exact hl
    obtain ⟨hc, hd⟩ := hfold
    injection exPure_eq_ok h with h1 h2
    subst h1
    exact ⟨StorePres_trans (StorePres_append σ [data] le_rfl) hc, hd⟩

theorem factoryFitS_stage3 {st : Factory} {data : Table} {np : Option NumericState}
    {σ₂ : Store} {n : Nat} {σ' : Store} {st' : Factory} (hl : n ≤ σ₂.length)
    (h : (do
      let p₃ ← match st.catP with
        | some cs =>
          let cols := columnsByType st.config "categorical"
          if cols.isEmpty then pure (σ₂, some cs) else do
            let slice ← data.select cols
            let (τ, cs') ← catFitS st.config cs (σ₂ ++ [slice]) σ₂.length
            pure (τ, some cs')
        | none => pure (σ₂, none)
      pure (p₃.1, { st with numericP := np, catP := p₃.2 })) = .ok (σ', st')) :
    StorePres σ₂ σ' n ∧ n ≤ σ'.length := by
  cases hcp : st.catP with
  | none =>
    rw [hcp] at h
    simp only [exPure_def, exBind_ok] at h
    injection h with hpair
    injection hpair with ha hb
    subst ha
    exact ⟨StorePres_refl _ _, hl⟩
  | some cs =>
    rw [hcp] at h
    dsimp only at h
    cases hE : (columnsByType st.config "categorical").isEmpty with
    | true =>
      rw [hE, if_pos rfl] at h
      simp only [exPure_def, exBind_ok] at h
      injection h with hpair
      injection hpair with ha hb
      subst ha
      exact ⟨StorePres_refl _ _, hl⟩
    | false =>
      rw [hE, if_neg (by simp)] at h
      obtain ⟨slice, _, h'⟩ := exBind_eq_ok h
      obtain ⟨q, hq, h''⟩ := exBind_eq_ok h'
      obtain ⟨τ, cs''⟩ := q
      simp only [exPure_def, exBind_ok] at h''
      injection h'' with hpair
      injection hpair with ha hb
      subst ha
      obtain ⟨ha', hb'⟩ := catFitS_pres hq
      have hl1 : n ≤ (σ₂ ++ [slice]).length := by
        rw [List.length_append]
        exact le_trans hl (Nat.le_add_right _ _)
      exact ⟨StorePres_trans (StorePres_append σ₂ [slice] hl)
        (StorePres_mono ha' hl1), le_trans hl1 hb'⟩

theorem factoryFitS_stage23 {st : Factory} {data : Table} {σ₁ : Store} {n : Nat}
    {σ' : Store} {st' : Factory} (hl : n ≤ σ₁.length)
    (h : (do
      let p₂ ← match st.numericP with
        | some ns =>
          let cols := columnsByType st.config "numeric"
          if cols.isEmpty then pure (σ₁, some ns) else do
            let slice ← data.select cols
            let (τ, ns') ← numericFitS st.config ns (σ₁ ++ [slice]) σ₁.length
            pure (τ, some ns')
        | none => pure (σ₁, none)
      let p₃ ← match st.catP with
        | some cs =>
          let cols := columnsByType st.config "categorical"
          if cols.isEmpty then pure (p₂.1, some cs) else do
            let slice ← data.select cols
            let (τ, cs') ← catFitS st.config cs (p₂.1 ++ [slice]) p₂.1.length
            pure (τ, some cs')
        | none => pure (p₂.1, none)
      pure (p₃.1, { st with numericP := p₂.2, catP := p₃.2 })) = .ok (σ', st')) :
    StorePres σ₁ σ' n ∧ n ≤ σ'.length := by
  cases hnp : st.numericP with
  | none =>
    rw [hnp] at h
    simp only [exPure_def, exBind_ok] at h
    exact factoryFitS_stage3 hl h
  | some ns =>
    rw [hnp] at h
    dsimp only at h
    cases hE : (columnsByType st.config "numeric").isEmpty with
    | true =>
      rw [hE, if_pos rfl] at h
      simp only [exPure_def, exBind_ok] at h
      exact factoryFitS_stage3 hl h
    | false =>
      rw [hE, if_neg (by simp)] at h
      obtain ⟨slice, _, h'⟩ := exBind_eq_ok h
      obtain ⟨q, hq, h''⟩ := exBind_eq_ok h'
      obtain ⟨τ, ns'⟩ := q
      simp only [exPure_def, exBind_ok] at h''
      obtain ⟨ha', hb'⟩ := numericFitS_pres hq
      have hl1 : n ≤ (σ₁ ++ [slice]).length := by
        rw [List.length_append]
        exact le_trans hl (Nat.le_add_right _ _)
      have hτ : n ≤ τ.length := le_trans hl1 hb'
      obtain ⟨hc, hd⟩ := factoryFitS_stage3 hτ h''
      exact ⟨StorePres_trans (StorePres_append σ₁ [slice] hl)
        (StorePres_trans (StorePres_mono ha' hl1) hc), hd⟩

theorem factoryFitS_pres {st : Factory} {σ σ' : Store} {i : Nat} {st' : Factory}
    (h : factoryFitS st σ i = .ok (σ', st')) :
    StorePres σ σ' σ.length ∧ σ.length ≤ σ'.length := by
  obtain ⟨c0, tp0, np0, cp0⟩ := st
  unfold factoryFitS at h
  cases hgi : σ.get? i with
  | none =>
    rw [hgi] at h
    exact absurd h (by simp [throw, throwThe, MonadExceptOf.throw])
  | some data =>
    rw [hgi] at h
    dsimp only at h
    cases tp0 with
    | none =>
      simp only [exPure_def, exBind_ok] at h
      exact @factoryFitS_stage23 ⟨c0, none, np0, cp0⟩ data σ σ.length σ' st'
        le_rfl h
    | some u =>
      dsimp only at h
      cases hE : (columnsByType c0 "text").isEmpty with
      | true =>
        rw [hE, if_pos rfl] at h
        simp only [exPure_def, exBind_ok] at h
        exact @factoryFitS_stage23 ⟨c0, some u, np0, cp0⟩ data σ σ.length σ' st'
          le_rfl h
      | false =>
        rw [hE, if_neg (by simp)] at h
        obtain ⟨slice, _, h'⟩ := exBind_eq_ok h
        obtain ⟨u', _, h''⟩ := exBind_eq_ok h'
        have hl1 : σ.length ≤ (σ ++ [slice]).length := by simp
        obtain ⟨hc, hd⟩ := @factoryFitS_stage23 ⟨c0, some u, np0, cp0⟩ data
          (σ ++ [slice]) σ.length σ' st' hl1 h''
        exact ⟨StorePres_trans (StorePres_append σ [slice] le_rfl) hc, hd⟩

theorem factoryTransformS_stage3 {st : Factory} {data : Table} {r₁ r₂ : List Nat}
    {σ₂ : Store} {j n : Nat} {σ' : Store} {r : Nat} (hl : n ≤ σ₂.length)
    (h : (do
      let p₃ ← match st.catP with
        | some cs =>
          let cols := columnsByType st.config "categorical"
          if cols.isEmpty then pure (σ₂, ([] : List Nat)) else do
            let slice ← data.select cols
            let (τ, r) ← catTransformS st.config cs (σ₂ ++ [slice]) σ₂.length
            pure (τ, [r])
        | none => pure (σ₂, ([] : List Nat))
      let refs := r₁ ++ r₂ ++ p₃.2
      let τ := p₃.1
      if refs.isEmpty then pure (τ, j)
      else pure (τ ++ [concatTables (refs.map (fun q => τ.getD q ⟨[]⟩))], τ.length)) =
      .ok (σ', r)) :
    StorePres σ₂ σ' n ∧ n ≤ σ'.length := by
  have hfin : ∀ (τ : Store) (rs : List Nat), StorePres σ₂ τ n → n ≤ τ.length →
      (if (r₁ ++ r₂ ++ rs).isEmpty then pure (τ, j)
        else pure (τ ++ [concatTables ((r₁ ++ r₂ ++ rs).map (fun q => τ.getD q ⟨[]⟩))],
          τ.length) : Except String (Store × Nat)) = .ok (σ', r) →
      StorePres σ₂ σ' n ∧ n ≤ σ'.length := by
    intro τ rs hp hlen hfi
    cases hE : (r₁ ++ r₂ ++ rs).isEmpty with
    | true =>
      rw [hE, if_pos rfl] at hfi
      injection exPure_eq_ok hfi with ha hb
      subst ha
      exact ⟨hp, hlen⟩
    | false =>
      rw [hE, if_neg (by simp)] at hfi
      injection exPure_eq_ok hfi with ha hb
      subst ha
      refine ⟨StorePres_trans hp (StorePres_append _ _ hlen), ?_⟩
      rw [List.length_append]
      exact le_trans hlen (Nat.le_add_right _ _)
  cases hcp : st.catP with
  | none =>
    rw [hcp] at h
    simp only [exPure_def, exBind_ok] at h
    exact hfin σ₂ [] (StorePres_refl _ _) hl h
  | some cs =>
    rw [hcp] at h
    dsimp only at h
    cases hE : (columnsByType st.config "categorical").isEmpty with
    | true =>
      rw [hE, if_pos rfl] at h
      simp only [exPure_def, exBind_ok] at h
      exact hfin σ₂ [] (StorePres_refl _ _) hl h
    | false =>
      rw [hE, if_neg (by simp)] at h
      obtain ⟨slice, _, h'⟩ := exBind_eq_ok h
      obtain ⟨q, hq, h''⟩ := exBind_eq_ok h'
      obtain ⟨τ, r₃⟩ := q
      simp only [exPure_def, exBind_ok] at h''
      obtain ⟨ha', hb'⟩ := catTransformS_pres hq
      have hl1 : n ≤ (σ₂ ++ [slice]).length := by
        rw [List.length_append]
        exact le_trans hl (Nat.le_add_right _ _)
      exact hfin τ [r₃]
        (StorePres_trans (StorePres_append σ₂ [slice] hl) (StorePres_mono ha' hl1))
        (le_trans hl1 hb') h''

theorem factoryTransformS_stage23 {sqrtQ : ℚ → ℚ} {st : Factory} {data : Table}
    {r₁ : List Nat} {σ₁ : Store} {j n : Nat} {σ' : Store} {r : Nat}
    (hl : n ≤ σ₁.length)
    (h : (do
      let p₂ ← match st.numericP with
        | some ns =>
          let cols := columnsByType st.config "numeric"
          if cols.isEmpty then pure (σ₁, ([] : List Nat)) else do
            let slice ← data.select cols
            let (τ, r) ← numericTransformS sqrtQ st.config ns (σ₁ ++ [slice]) σ₁.length
            pure (τ, [r])
        | none => pure (σ₁, ([] : List Nat))
      let p₃ ← match st.catP with
        | some cs =>
          let cols := columnsByType st.config "categorical"
          if cols.isEmpty then pure (p₂.1, ([] : List Nat)) else do
            let slice ← data.select cols
            let (τ, r) ← catTransformS st.config cs (p₂.1 ++ [slice]) p₂.1.length
            pure (τ, [r])
        | none => pure (p₂.1, ([] : List Nat))
      let refs := r₁ ++ p₂.2 ++ p₃.2
      let τ := p₃.1
      if refs.isEmpty then pure (τ, j)
      else pure (τ ++ [concatTables (refs.map (fun q => τ.getD q ⟨[]⟩))], τ.length)) =
      .ok (σ', r)) :
    StorePres σ₁ σ' n ∧ n ≤ σ'.length := by
  cases hnp : st.numericP with
  | none =>
    rw [hnp] at h
    simp only [exPure_def, exBind_ok] at h
    exact factoryTransformS_stage3 hl h
  | some ns =>
    rw [hnp] at h
    dsimp only at h
    cases hE : (columnsByType st.config "numeric").isEmpty with
    | true =>
      rw [hE, if_pos rfl] at h
      simp only [exPure_def, exBind_ok] at h
      exact factoryTransformS_stage3 hl h
    | false =>
      rw [hE, if_neg (by simp)] at h
      obtain ⟨slice, _, h'⟩ := exBind_eq_ok h
      obtain ⟨q, hq, h''⟩ := exBind_eq_ok h'
      obtain ⟨τ, r₂⟩ := q
      simp only [exPure_def, exBind_ok] at h''
      obtain ⟨ha', hb'⟩ := numericTransformS_pres hq
      have hl1 : n ≤ (σ₁ ++ [slice]).length := by
        rw [List.length_append]
        exact le_trans hl (Nat.le_add_right _ _)
      have hτ : n ≤ τ.length := le_trans hl1 hb'
      obtain ⟨hc, hd⟩ := factoryTransformS_stage3 hτ h''
      exact ⟨StorePres_trans (StorePres_append σ₁ [slice] hl)
        (StorePres_trans (StorePres_mono ha' hl1) hc), hd⟩

theorem factoryTransformS_pres {sqrtQ : ℚ → ℚ} {env : TextEnv} {st : Factory}
    {σ σ' : Store} {i r : Nat}
    (h : factoryTransformS sqrtQ env st σ i = .ok (σ', r)) :
    StorePres σ σ' σ.length ∧ σ.length ≤ σ'.length := by
  unfold factoryTransformS at h
  cases hgi : σ.get? i with
  | none =>
    rw [hgi] at h
    exact absurd h (by simp [throw, throwThe, MonadExceptOf.throw])
  | some data =>
    rw [hgi] at h
    dsimp only at h
    have hσ₀ : σ.length ≤ (σ ++ [data]).length := by simp
    obtain ⟨c0, tp0, np0, cp0⟩ := st
    dsimp only at h
    cases tp0 with
    | none =>
      simp only [exPure_def, exBind_ok] at h
      obtain ⟨hc, hd⟩ := @factoryTransformS_stage23 sqrtQ ⟨c0, none, np0, cp0⟩
        data [] (σ ++ [data]) σ.length σ.length σ' r hσ₀ h
      exact ⟨StorePres_trans (StorePres_append σ [data] le_rfl) hc, hd⟩
    | some u =>
      dsimp only at h
      cases hE : (columnsByType c0 "text").isEmpty with
      | true =>
        rw [hE, if_pos rfl] at h
        simp only [exPure_def, exBind_ok] at h
        obtain ⟨hc, hd⟩ := @factoryTransformS_stage23 sqrtQ ⟨c0, some u, np0, cp0⟩
          data [] (σ ++ [data]) σ.length σ.length σ' r hσ₀ h
        exact ⟨StorePres_trans (StorePres_append σ [data] le_rfl) hc, hd⟩
      | false =>
        rw [hE, if_neg (by simp)] at h
        obtain ⟨slice, _, h'⟩ := exBind_eq_ok h
        obtain ⟨q, hq, h''⟩ := exBind_eq_ok h'
        obtain ⟨τ, r₁⟩ := q
        simp only [exPure_def, exBind_ok] at h''
        obtain ⟨ha', hb'⟩ := textTransformS_pres hq
        have hl1 : σ.length ≤ (σ ++ [data] ++ [slice]).length := by
          rw [List.length_append]
          exact le_trans hσ₀ (Nat.le_add_right _ _)
        have hτ : σ.length ≤ τ.length := le_trans hl1 hb'
        obtain ⟨hc, hd⟩ := @factoryTransformS_stage23 sqrtQ ⟨c0, some u, np0, cp0⟩
          data [r₁] τ σ.length σ.length σ' r hτ h''
        exact ⟨StorePres_trans (StorePres_append σ [data] le_rfl)
          (StorePres_trans (StorePres_append (σ ++ [data]) [slice] hσ₀)
            (StorePres_trans (StorePres_mono ha' hl1) hc)), hd⟩

/-- C8: no fit or transform mutates a frame that existed before the call:
for every store-level operation that succeeds, every frame allocated below
the input store's length is unchanged in the output store — in particular
the caller's input frame is byte-for-byte the table it was before the
call. -/
theorem C8_no_input_mutation (sqrtQ : ℚ → ℚ) (env : TextEnv) (cfg : Config)
    (nst : NumericState) (cst : CatState) (fa : Factory) (σ : Store) (i : Nat) :
    (∀ σ' ns', numericFitS cfg nst σ i = .ok (σ', ns') →
      StorePres σ σ' σ.length) ∧
    (∀ σ' r, numericTransformS sqrtQ cfg nst σ i = .ok (σ', r) →
      StorePres σ σ' σ.length) ∧
    (∀ σ' cs', catFitS cfg cst σ i = .ok (σ', cs') →
      StorePres σ σ' σ.length) ∧
    (∀ σ' r, catTransformS cfg cst σ i = .ok (σ', r) →
      StorePres σ σ' σ.length) ∧
    (∀ σ' r, textTransformS env cfg σ i = .ok (σ', r) →
      StorePres σ σ' σ.length) ∧
    (∀ σ' fa', factoryFitS fa σ i = .ok (σ', fa') →
      StorePres σ σ' σ.length) ∧
    (∀ σ' r, factoryTransformS sqrtQ env fa σ i = .ok (σ', r) →
      StorePres σ σ' σ.length) ∧
    (∀ data, σ.get? i = some data →
      ∀ σ' r, factoryTransformS sqrtQ env fa σ i = .ok (σ', r) →
        σ'.get? i = some data) := by
  refine ⟨fun σ' ns' h => (numericFitS_pres h).1,
    fun σ' r h => (numericTransformS_pres h).1,
    fun σ' cs' h => (catFitS_pres h).1,
    fun σ' r h => (catTransformS_pres h).1,
    fun σ' r h => (textTransformS_pres h).1,
    fun σ' fa' h => (factoryFitS_pres h).1,
    fun σ' r h => (factoryTransformS_pres h).1,
    ?_⟩
  intro data hdata σ' r h
  have hi : i < σ.length := by
    by_contra hcon
    rw [List.get?_eq_none.mpr (Nat.le_of_not_lt hcon)] at hdata
    cases hdata
  rw [(factoryTransformS_pres h).1 i hi]
  exact hdata

/-- C8 witness: a concrete store-level factory transform (label-encoding a
fitted categorical column) allocates copies, slices and encoded frames but
leaves the caller's input frame at index 0 untouched. -/
theorem C8_witness :
    ([⟨[("city", [.str "A"])]⟩] : Store).get? 0 =
      some (⟨[("city", [.str "A"])]⟩ : Table) ∧
    factoryTransformS id idEnv
      ⟨exCfgLabel, none, none,
        some ⟨[("city", Encoder.label ["A"])], [("city", EncMap.labelMap [("A", 0)])]⟩⟩
      [⟨[("city", [.str "A"])]⟩] 0 =
      .ok ([⟨[("city", [.str "A"])]⟩, ⟨[("city", [.str "A"])]⟩,
        ⟨[("city", [.str "A"])]⟩, ⟨[("city", [.str "A"])]⟩,
        ⟨[("city", [.num 0])]⟩, ⟨[("city", [.num 0])]⟩], 5) ∧
    ([⟨[("city", [.str "A"])]⟩, ⟨[("city", [.str "A"])]⟩,
      ⟨[("city", [.str "A"])]⟩, ⟨[("city", [.str "A"])]⟩,
      ⟨[("city", [.num 0])]⟩, ⟨[("city", [.num 0])]⟩] : Store).get? 0 =
      some (⟨[("city", [.str "A"])]⟩ : Table) :=
  ⟨by decide, by decide,
    (C8_no_input_mutation id idEnv exCfgLabel ⟨.minmax, []⟩ catInit
      ⟨exCfgLabel, none, none,
        some ⟨[("city", Encoder.label ["A"])], [("city", EncMap.labelMap [("A", 0)])]⟩⟩
      [⟨[("city", [.str "A"])]⟩] 0).2.2.2.2.2.2.2
      ⟨[("city", [.str "A"])]⟩ (by decide)
      [⟨[("city", [.str "A"])]⟩, ⟨[("city", [.str "A"])]⟩,
        ⟨[("city", [.str "A"])]⟩, ⟨[("city", [.str "A"])]⟩,
        ⟨[("city", [.num 0])]⟩, ⟨[("city", [.num 0])]⟩] 5 (by decide)⟩

end MLPipe
